import Mathlib

/-!
Verification of the PDF résumé info-extractor pipeline (src/app.py).

The development shallowly embeds the pure core of the program: Python
strings are `List Char`, parsed JSON values are the inductive `PyVal`
(JSON numbers are embedded as integers when integral, otherwise as their
numeric lexeme; the reconciler only inspects truthiness of such values),
fallible code returns `Except`/`Option`.  Each definition is translated
from the source function of the same name; Python built-ins (truthiness,
`str`, `strip`, `lower`, `dict.get`, the `re` module calls appearing in
the source) are modelled by small Lean functions next to their use sites.
-/

/-- Convenience: the character list underlying a string literal. -/
def chars (s : String) : List Char := s.data

/-- CPython whitespace for `str.strip` (ASCII fragment). -/
def pyWs (c : Char) : Bool :=
  c == ' ' || c == '\t' || c == '\n' || c == '\r' || c == '\x0b' || c == '\x0c'

/-- Model of Python `str.strip()`: drop leading and trailing whitespace. -/
def pyStrip (l : List Char) : List Char :=
  ((l.dropWhile pyWs).reverse.dropWhile pyWs).reverse

/-- Model of Python `str.lower()` (ASCII fragment, which covers URLs). -/
def lowerStr (l : List Char) : List Char := l.map Char.toLower

/-- Model of the Python substring test `pat in hay`. -/
def containsSub (hay pat : List Char) : Bool :=
  match hay with
  | [] => pat.isEmpty
  | _ :: t => pat.isPrefixOf hay || containsSub t pat

/-- Python values that `json.loads` can produce.  Integral JSON numbers are
embedded as `int`; non-integral numbers and the non-finite constants keep
their source lexeme in `float` (the reconciler only ever inspects their
truthiness, never their arithmetic value). -/
inductive PyVal where
  | str (s : List Char)
  | int (n : Int)
  | float (lex : List Char)
  | bool (b : Bool)
  | none
  | list (xs : List PyVal)
  | dict (kvs : List (List Char × PyVal))

/-- Truthiness of a float lexeme: zero-valued mantissas are falsy, anything
else (including the `NaN` and `Infinity` constants) is truthy. -/
def floatLexTruthy (lex : List Char) : Bool :=
  let nosign := match lex with
    | '-' :: r => r
    | '+' :: r => r
    | _ => lex
  let mant := nosign.takeWhile (fun c => c != 'e' && c != 'E')
  mant.any (fun c => c != '0' && c != '.')

/-- Model of Python truthiness (`bool(v)`) for parsed JSON values. -/
def pyTruthy : PyVal → Bool
  | .str s => !s.isEmpty
  | .int n => n != 0
  | .float lex => floatLexTruthy lex
  | .bool b => b
  | .none => false
  | .list xs => !xs.isEmpty
  | .dict kvs => !kvs.isEmpty

/-- Model of Python `dict` lookup for an association list built by
`json.loads`: on duplicate keys the later binding wins, as in CPython. -/
def pyDictGet (kvs : List (List Char × PyVal)) (k : List Char) : Option PyVal :=
  match kvs with
  | [] => Option.none
  | (k0, v0) :: rest =>
    match pyDictGet rest k with
    | some v => some v
    | Option.none => if k0 == k then some v0 else Option.none

/-- The apostrophe character, CPython's default `repr` quote. -/
def squote : Char := Char.ofNat 39

/-- Escapes used by CPython `repr` on strings for the chosen quote
character (common escapes only; exotic control characters are kept
verbatim, which no theorem below depends on). -/
def reprEscapeChar (q c : Char) : List Char :=
  if c == '\\' then ['\\', '\\']
  else if c == q then ['\\', q]
  else if c == '\n' then ['\\', 'n']
  else if c == '\t' then ['\\', 't']
  else if c == '\r' then ['\\', 'r']
  else [c]

/-- Quote selection of CPython `repr` for strings: apostrophes unless the
string contains an apostrophe and no double quote. -/
def reprQuote (s : List Char) : Char :=
  if s.contains squote && !s.contains '"' then '"' else squote

mutual

/-- Model of CPython `repr` on parsed JSON values. -/
def pyRepr : PyVal → List Char
  | .str s =>
    let q := reprQuote s
    q :: (s.flatMap (reprEscapeChar q)) ++ [q]
  | .int n => chars (toString n)
  | .float lex => lex
  | .bool b => if b then chars "True" else chars "False"
  | .none => chars "None"
  | .list xs => '[' :: pyReprItems xs ++ [']']
  | .dict kvs => '\x7b' :: pyReprKVs kvs ++ ['\x7d']

/-- Comma-separated `repr` of list items. -/
def pyReprItems : List PyVal → List Char
  | [] => []
  | [x] => pyRepr x
  | x :: rest => pyRepr x ++ chars ", " ++ pyReprItems rest

/-- Comma-separated `repr` of dict items. -/
def pyReprKVs : List (List Char × PyVal) → List Char
  | [] => []
  | [(k, v)] => pyRepr (.str k) ++ chars ": " ++ pyRepr v
  | (k, v) :: rest => pyRepr (.str k) ++ chars ": " ++ pyRepr v ++ chars ", " ++ pyReprKVs rest

end

/-- Model of Python `str(v)` for parsed JSON values. -/
def pyStr (v : PyVal) : List Char :=
  match v with
  | .str s => s
  | _ => pyRepr v

/-- Document-native signals extracted from the PDF: the raw text and the
ordered hyperlink URIs (spec §3, consumed by `safe` in the source). -/
structure DocumentSignals where
  rawText : List Char
  links : List (List Char)
deriving DecidableEq

/-- Translation of `find_profile_url_from_links` (src/app.py:59-63): first
link whose lowercased text contains the platform name, else `NA`. -/
def find_profile_url_from_links (links : List (List Char)) (platform : List Char) : List Char :=
  match links with
  | [] => chars "NA"
  | link :: rest =>
    if containsSub (lowerStr link) platform then link
    else find_profile_url_from_links rest platform

/-- Character class `[a-zA-Z0-9_.+-]` of the email regex local part. -/
def isLocalChar (c : Char) : Bool :=
  c.isAlphanum || c == '_' || c == '.' || c == '+' || c == '-'

/-- Character class `[a-zA-Z0-9-]` of the email regex domain part. -/
def isDomChar (c : Char) : Bool := c.isAlphanum || c == '-'

/-- Character class `[a-zA-Z0-9-.]` of the email regex final part. -/
def isTldChar (c : Char) : Bool := c.isAlphanum || c == '-' || c == '.'

/-- Match of the source regex `[a-zA-Z0-9_.+-]+@[a-zA-Z0-9-]+\.[a-zA-Z0-9-.]+`
anchored at the start of `l`.  Because `@` is not a local-part character
and `.` is not a domain-part character, the backtracking search of the
`re` module degenerates to maximal munch, which is what is coded here. -/
def emailMatchHere (l : List Char) : Option (List Char) :=
  if (l.takeWhile isLocalChar).isEmpty then Option.none else
  match l.dropWhile isLocalChar with
  | '@' :: r1 =>
    if (r1.takeWhile isDomChar).isEmpty then Option.none else
    (match r1.dropWhile isDomChar with
     | '.' :: r2 =>
       if (r2.takeWhile isTldChar).isEmpty then Option.none
       else some (l.takeWhile isLocalChar ++ '@' ::
         (r1.takeWhile isDomChar ++ '.' :: r2.takeWhile isTldChar))
     | _ => Option.none)
  | _ => Option.none

/-- Leftmost match of the email regex: `re.search` tries each start
position from the left. -/
def emailSearch : List Char → Option (List Char)
  | [] => Option.none
  | c :: t =>
    match emailMatchHere (c :: t) with
    | some m => some m
    | Option.none => emailSearch t

/-- Translation of `find_email` (src/app.py:65-67). -/
def find_email (text : List Char) : List Char :=
  (emailSearch text).getD (chars "NA")

/-- The regex dot (no DOTALL flag): any character except a newline. -/
def dotAll (c : Char) : Bool := c != '\n'

/-- Truthiness of `re.match(r".+@.+\..+", l)` from src/app.py:111: some
prefix of `l` decomposes as one-plus non-newline characters, `@`,
one-plus non-newline characters, `.`, and a final non-newline character. -/
def reMatchEmailLoose (l : List Char) : Bool :=
  (List.range l.length).any fun i =>
    (List.range l.length).any fun j =>
      decide (1 ≤ i) && decide (i + 2 ≤ j) && decide (j + 1 < l.length) &&
      (l.getD i ' ' == '@') && (l.getD j ' ' == '.') &&
      ((l.take i).all dotAll) && (((l.drop (i+1)).take (j - i - 1)).all dotAll) &&
      dotAll (l.getD (j+1) ' ')

/-- String sentinels treated as missing by `safe` (src/app.py:100).  The
Python membership test `val in ["NA", "None", "null"]` can only succeed
for string values. -/
def isNASentinel (v : PyVal) : Bool :=
  match v with
  | .str s => s == chars "NA" || s == chars "None" || s == chars "null"
  | _ => false

/-- The nested-shape unwrap of src/app.py:98-99: a dict value is replaced
by its "value" entry (default empty string). -/
def unwrapValue (v : PyVal) : PyVal :=
  match v with
  | .dict d => (pyDictGet d (chars "value")).getD (.str [])
  | _ => v

/-- Branch structure of the closure `safe` after lookup and unwrap
(src/app.py:100-114), with the unwrapped value `val` as an argument. -/
def safeBody (field : List Char) (val : PyVal) (sig : DocumentSignals) :
    Except (List Char) (List Char) :=
  if !pyTruthy val || isNASentinel val then
    if field == chars "linkedin" || field == chars "github" then
      .ok (find_profile_url_from_links sig.links field)
    else if field == chars "email" then
      .ok (find_email sig.rawText)
    else
      .ok (chars "NA")
  else
    if (field == chars "linkedin" || field == chars "github")
        && find_profile_url_from_links sig.links field != chars "NA" then
      .ok (find_profile_url_from_links sig.links field)
    else if field == chars "email" then
      match val with
      | .str s => if reMatchEmailLoose s then .ok s else .ok (find_email sig.rawText)
      | _ => .error (chars "TypeError: expected string or bytes-like object")
    else
      .ok (if pyTruthy val then pyStrip (pyStr val) else chars "NA")

/-- Translation of the closure `safe` (src/app.py:96-114): look the field
up in the parsed output (default empty string), unwrap a nested dict
shape, then branch as in `safeBody`.  The `TypeError` that `re.match`
raises on a non-string second argument is surfaced as an `Except.error`;
every `return` of the source becomes an `Except.ok`. -/
def safe (field : List Char) (data : List (List Char × PyVal)) (sig : DocumentSignals) :
    Except (List Char) (List Char) :=
  safeBody field (unwrapValue ((pyDictGet data field).getD (.str []))) sig

/-- The seven schema fields of `extract_info_function` (src/app.py:14-30). -/
inductive SchemaField where
  | name | mobile_number | address | email | linkedin | github | experience_years
deriving DecidableEq

/-- JSON key of a schema field. -/
def fieldKey (f : SchemaField) : List Char :=
  chars (match f with
    | .name => "name"
    | .mobile_number => "mobile_number"
    | .address => "address"
    | .email => "email"
    | .linkedin => "linkedin"
    | .github => "github"
    | .experience_years => "experience_years")

/-- Output label of a schema field, as written in the `pretty` f-string. -/
def fieldLabel (f : SchemaField) : List Char :=
  chars (match f with
    | .name => "Name"
    | .mobile_number => "Mobile Number"
    | .address => "Address"
    | .email => "Email"
    | .linkedin => "Linkedin"
    | .github => "Github"
    | .experience_years => "Experience Years")

/-- The fixed field order of the `pretty` f-string (src/app.py:116-124). -/
def schemaFieldOrder : List SchemaField :=
  [.name, .mobile_number, .address, .email, .linkedin, .github, .experience_years]

/-- Translation of the `pretty` f-string (src/app.py:116-124) applied to an
already-reconciled record: one labelled line per schema field. -/
def renderRecord (rec : SchemaField → List Char) : List Char :=
  chars "Name: " ++ rec .name ++ chars "\n" ++
  chars "Mobile Number: " ++ rec .mobile_number ++ chars "\n" ++
  chars "Address: " ++ rec .address ++ chars "\n" ++
  chars "Email: " ++ rec .email ++ chars "\n" ++
  chars "Linkedin: " ++ rec .linkedin ++ chars "\n" ++
  chars "Github: " ++ rec .github ++ chars "\n" ++
  chars "Experience Years: " ++ rec .experience_years

/-- The seven `safe(...)` calls of the `pretty` f-string, sequenced in
source order; the first raising call aborts the record, as in Python. -/
def reconcileAll (data : List (List Char × PyVal)) (sig : DocumentSignals) :
    Except (List Char) (SchemaField → List Char) := do
  let vName ← safe (chars "name") data sig
  let vMobile ← safe (chars "mobile_number") data sig
  let vAddress ← safe (chars "address") data sig
  let vEmail ← safe (chars "email") data sig
  let vLinkedin ← safe (chars "linkedin") data sig
  let vGithub ← safe (chars "github") data sig
  let vExp ← safe (chars "experience_years") data sig
  pure (fun f => match f with
    | .name => vName
    | .mobile_number => vMobile
    | .address => vAddress
    | .email => vEmail
    | .linkedin => vLinkedin
    | .github => vGithub
    | .experience_years => vExp)

/-- Output of `json.dumps(extract_info_function["parameters"]["properties"],
indent=2)` for the fixed schema constant of src/app.py:14-30. -/
def extract_info_function_props_json : List Char :=
  chars "\x7b\n  \"name\": \x7b\n    \"type\": \"string\"\n  \x7d,\n  \"mobile_number\": \x7b\n    \"type\": \"string\"\n  \x7d,\n  \"address\": \x7b\n    \"type\": \"string\"\n  \x7d,\n  \"email\": \x7b\n    \"type\": \"string\"\n  \x7d,\n  \"linkedin\": \x7b\n    \"type\": \"string\"\n  \x7d,\n  \"github\": \x7b\n    \"type\": \"string\"\n  \x7d,\n  \"experience_years\": \x7b\n    \"type\": \"string\"\n  \x7d\n\x7d"

/-- Template text of the prompt f-string before the schema dump, including
the newline that opens the triple-quoted literal. -/
def promptTemplateHead : List Char :=
  chars "\nYou are an expert data extractor. Carefully read the following text and extract the following fields as accurately as possible.\n\nFor each field, output ONLY the direct value asked for. For LinkedIn and GitHub, output only the profile URL. If a value is not present, output NA.\n\n"

/-- Template text of the prompt f-string between the schema dump and the
interpolated document text. -/
def promptTemplateMid : List Char :=
  chars "\n\nReturn your answer as a JSON object matching this schema.\n\n--- BEGIN TEXT ---\n"

/-- Template text of the prompt f-string after the interpolated document
text, including the four-space indent that precedes the closing quotes. -/
def promptTemplateTail : List Char :=
  chars "\n--- END TEXT ---\n    "

/-- Translation of `build_extraction_prompt` (src/app.py:32-45), with the
schema argument fixed to the `extract_info_function` constant (the only
schema in the program).  The f-string template is reproduced verbatim in
the three segments above and then stripped, as in the source. -/
def build_extraction_prompt (text : List Char) : List Char :=
  pyStrip
    (promptTemplateHead
      ++ extract_info_function_props_json
      ++ promptTemplateMid
      ++ text.take 2000
      ++ promptTemplateTail)

/-- Characters before the first closing brace of `l`; fails when `l` has no
closing brace.  This is the non-greedy `.*?` of the block regex under
DOTALL: the shortest run of arbitrary characters before a brace. -/
def upToBrace : List Char → Option (List Char)
  | [] => Option.none
  | c :: rest =>
    if c = '\x7d' then some []
    else (upToBrace rest).map (fun m => c :: m)

/-- Match of the regex from src/app.py:83 at the start of `l`: an opening
brace, then the shortest run of characters up to a closing brace. -/
def matchBraceAt (l : List Char) : Option (List Char) :=
  match l with
  | [] => Option.none
  | c :: rest =>
    if c = '\x7b' then (upToBrace rest).map (fun mid => '\x7b' :: mid ++ ['\x7d'])
    else Option.none

/-- First match of `re.finditer` of the block regex (src/app.py:83-87):
start positions are tried left to right, and the pipeline keeps only the
first match. -/
def firstJsonBlock : List Char → Option (List Char)
  | [] => Option.none
  | c :: rest =>
    match matchBraceAt (c :: rest) with
    | some b => some b
    | Option.none => firstJsonBlock rest

/-- Characters removed by the control-character regex of src/app.py:88. -/
def isStrippedCtl (c : Char) : Bool :=
  (c.toNat ≤ 0x08) || c == '\x0b' || c == '\x0c' ||
  (0x0e ≤ c.toNat && c.toNat ≤ 0x1f) || c == '\x7f'

/-- Translation of `re.sub` of the control-character class with the empty
string (src/app.py:88): a filter. -/
def stripCtl (l : List Char) : List Char := l.filter (fun c => !isStrippedCtl c)

/-- Translation of the non-overlapping left-to-right `re.sub` replacing a
backslash followed by `n` or `t` with one space (src/app.py:89). -/
def subNT : List Char → List Char
  | [] => []
  | [c] => [c]
  | c :: d :: rest =>
    if c == '\\' && (d == 'n' || d == 't') then ' ' :: subNT rest
    else c :: subNT (d :: rest)

/-- Scan deciding that no backslash which `subNT` will pair with a
following `n` or `t` is itself the tail of an escaped backslash; on text
satisfying this, every maximal run of backslashes immediately followed by
`n` or `t` has odd length, so the run ends in a genuine escape. -/
def ntClean : List Char → Bool
  | c :: d :: rest =>
    if c == '\\' && d == '\\' then
      (match rest with
       | e :: _ => !(e == 'n' || e == 't')
       | [] => true) && ntClean rest
    else ntClean (d :: rest)
  | _ => true

/-- JSON inter-token whitespace accepted by `json.loads`. -/
def isJsonWs (c : Char) : Bool :=
  c == ' ' || c == '\t' || c == '\n' || c == '\r'

/-- Skip inter-token whitespace. -/
def skipWs (l : List Char) : List Char := l.dropWhile isJsonWs

/-- ASCII hex digit test for string escapes. -/
def isHex (c : Char) : Bool :=
  c.isDigit || ('a' ≤ c && c ≤ 'f') || ('A' ≤ c && c ≤ 'F')

/-- Value of an ASCII hex digit. -/
def hexVal (c : Char) : Nat :=
  if c.isDigit then c.toNat - 48
  else if 'a' ≤ c then c.toNat - 87
  else c.toNat - 55

/-- Character denoted by a four-digit `u`-escape (surrogate halves are not
recombined into astral characters; no theorem depends on the produced
character, only on the consumed text). -/
def uChar (h1 h2 h3 h4 : Char) : Char :=
  Char.ofNat (4096 * hexVal h1 + 256 * hexVal h2 + 16 * hexVal h3 + hexVal h4)

/-- Body of a JSON string literal after the opening quote, in the strict
mode of `json.loads`: raw characters below `0x20` are rejected, the eight
escapes and `u`-escapes are decoded, and the closing quote ends the
literal.  Returns the decoded content and the text after the quote. -/
def escChar (e : Char) : Char :=
  if e == 'b' then '\x08'
  else if e == 'f' then '\x0c'
  else if e == 'n' then '\n'
  else if e == 'r' then '\r'
  else if e == 't' then '\t'
  else e

/-- The simple escape characters of the JSON grammar. -/
def isSimpleEsc (e : Char) : Bool :=
  e == '"' || e == '\\' || e == '/' || e == 'b' || e == 'f' ||
  e == 'n' || e == 'r' || e == 't'

def parseStringBody : List Char → Option (List Char × List Char)
  | [] => Option.none
  | c :: rest =>
    if c == '"' then some ([], rest)
    else if c == '\\' then
      match rest with
      | [] => Option.none
      | e :: r =>
        if isSimpleEsc e then (parseStringBody r).map (fun p => (escChar e :: p.1, p.2))
        else if e == 'u' then
          match r with
          | h1 :: h2 :: h3 :: h4 :: r2 =>
            if isHex h1 && isHex h2 && isHex h3 && isHex h4 then
              (parseStringBody r2).map (fun p => (uChar h1 h2 h3 h4 :: p.1, p.2))
            else Option.none
          | _ => Option.none
        else Option.none
    else if 0x20 ≤ c.toNat then (parseStringBody rest).map (fun p => (c :: p.1, p.2))
    else Option.none

/-- Decimal digits to a natural number. -/
def digitsToNat (ds : List Char) : Nat :=
  ds.foldl (fun a c => 10 * a + (c.toNat - 48)) 0

/-- Optional fraction group of the number grammar: a dot followed by one
or more digits, skipped (consuming nothing) when absent or incomplete. -/
def fracPart (x : List Char) : List Char × List Char :=
  match x with
  | '.' :: r2 =>
    let ds := r2.takeWhile Char.isDigit
    if ds.isEmpty then ([], x) else ('.' :: ds, r2.drop ds.length)
  | _ => ([], x)

/-- Optional exponent group of the number grammar: `e` or `E`, an optional
sign, then one or more digits, skipped when absent or incomplete. -/
def expPart (x : List Char) : List Char × List Char :=
  match x with
  | e :: '+' :: r4 =>
    if e == 'e' || e == 'E' then
      (let ds := r4.takeWhile Char.isDigit
       if ds.isEmpty then ([], x) else (e :: '+' :: ds, r4.drop ds.length))
    else ([], x)
  | e :: '-' :: r4 =>
    if e == 'e' || e == 'E' then
      (let ds := r4.takeWhile Char.isDigit
       if ds.isEmpty then ([], x) else (e :: '-' :: ds, r4.drop ds.length))
    else ([], x)
  | e :: r3 =>
    if e == 'e' || e == 'E' then
      (let ds := r3.takeWhile Char.isDigit
       if ds.isEmpty then ([], x) else (e :: ds, r3.drop ds.length))
    else ([], x)
  | [] => ([], x)

/-- Integer part of the number grammar: a single zero, or a nonzero digit
followed by a maximal digit run. -/
def intPart (c : Char) (r1 : List Char) : List Char × List Char :=
  if c == '0' then (['0'], r1)
  else (c :: r1.takeWhile Char.isDigit, r1.drop (r1.takeWhile Char.isDigit).length)

/-- Assemble the parsed number from its groups: a pure integer when both
optional groups are absent, otherwise a float carrying its lexeme. -/
def numFromParts (neg : Bool) (ints fracs exps rest : List Char) :
    Option (PyVal × List Char) :=
  if fracs.isEmpty && exps.isEmpty then
    some (.int (if neg then -(digitsToNat ints : Int) else (digitsToNat ints : Int)), rest)
  else
    some (.float ((if neg then ['-'] else []) ++ ints ++ fracs ++ exps), rest)

/-- Number grammar after the optional minus sign. -/
def parseNumBody (neg : Bool) (l1 : List Char) : Option (PyVal × List Char) :=
  match l1 with
  | c :: r1 =>
    if c == '0' || c.isDigit then
      numFromParts neg (intPart c r1).1 (fracPart (intPart c r1).2).1
        (expPart (fracPart (intPart c r1).2).2).1
        (expPart (fracPart (intPart c r1).2).2).2
    else Option.none
  | [] => Option.none

/-- The number grammar of `json.loads` (its `NUMBER_RE`): optional minus,
integer part without leading zeros, then the optional fraction and
exponent groups.  Pure integers parse to Python `int`, anything else
keeps its lexeme as a `float`. -/
def parseNumber (l : List Char) : Option (PyVal × List Char) :=
  match l with
  | '-' :: r => parseNumBody true r
  | _ => parseNumBody false l

/-- The colon separating a key from its value, at a whitespace-skipped
position. -/
def memColon (x : List Char) : Option (List Char) :=
  match x with
  | ':' :: r2 => some r2
  | _ => Option.none

/-- After a member: a comma announcing another member (`true`) or the
closing brace (`false`). -/
def memSep (x : List Char) : Option (Bool × List Char) :=
  match x with
  | ',' :: r4 => some (true, r4)
  | '\x7d' :: r4 => some (false, r4)
  | _ => Option.none

/-- After an item: a comma announcing another item (`true`) or the
closing bracket (`false`). -/
def itemSep (x : List Char) : Option (Bool × List Char) :=
  match x with
  | ',' :: r2 => some (true, r2)
  | ']' :: r2 => some (false, r2)
  | _ => Option.none

mutual

/-- One JSON value at the head of `l` (`l` already whitespace-skipped),
following the scanner of `json.loads`: strings, objects, arrays, the three
word constants, the non-finite constants, and numbers.  The fuel only
bounds nesting depth; `json_loads` supplies one unit per input character,
which is sufficient because every recursive call follows at least one
consumed character. -/
def parseValue : Nat → List Char → Option (PyVal × List Char)
  | 0, _ => Option.none
  | Nat.succ fuel, l =>
    match l with
    | [] => Option.none
    | c :: rest =>
      if c == '"' then (parseStringBody rest).map (fun p => (.str p.1, p.2))
      else if c == '\x7b' then
        (parseMembers fuel true (skipWs rest)).map (fun p => (.dict p.1, p.2))
      else if c == '[' then
        (parseItems fuel true (skipWs rest)).map (fun p => (.list p.1, p.2))
      else if c == 't' then
        match rest with
        | 'r' :: 'u' :: 'e' :: r => some (.bool true, r)
        | _ => Option.none
      else if c == 'f' then
        match rest with
        | 'a' :: 'l' :: 's' :: 'e' :: r => some (.bool false, r)
        | _ => Option.none
      else if c == 'n' then
        match rest with
        | 'u' :: 'l' :: 'l' :: r => some (.none, r)
        | _ => Option.none
      else if c == 'N' then
        match rest with
        | 'a' :: 'N' :: r => some (.float (chars "NaN"), r)
        | _ => Option.none
      else if c == 'I' then
        match rest with
        | 'n' :: 'f' :: 'i' :: 'n' :: 'i' :: 't' :: 'y' :: r =>
          some (.float (chars "Infinity"), r)
        | _ => Option.none
      else if c == '-' && (match rest with
          | 'I' :: _ => true
          | _ => false) then
        match rest with
        | 'I' :: 'n' :: 'f' :: 'i' :: 'n' :: 'i' :: 't' :: 'y' :: r =>
          some (.float (chars "-Infinity"), r)
        | _ => Option.none
      else parseNumber (c :: rest)

/-- Members of an object after the opening brace (whitespace skipped).
`first` is true before any member has been read, where a closing brace is
legal; after a comma a key is mandatory, so trailing commas fail. -/
def parseMembers : Nat → Bool → List Char →
    Option (List (List Char × PyVal) × List Char)
  | 0, _, _ => Option.none
  | Nat.succ fuel, first, l =>
    match l with
    | '\x7d' :: rest => if first then some ([], rest) else Option.none
    | '"' :: rest =>
      (parseStringBody rest).bind fun kp =>
      (memColon (skipWs kp.2)).bind fun r2 =>
      (parseValue fuel (skipWs r2)).bind fun vp =>
      (memSep (skipWs vp.2)).bind fun sep =>
      if sep.1 then
        (parseMembers fuel false (skipWs sep.2)).map (fun p => ((kp.1, vp.1) :: p.1, p.2))
      else some ([(kp.1, vp.1)], sep.2)
    | _ => Option.none

/-- Items of an array after the opening bracket (whitespace skipped);
`first` as in `parseMembers`, so an empty array is legal but a trailing
comma is not. -/
def parseItems : Nat → Bool → List Char → Option (List PyVal × List Char)
  | 0, _, _ => Option.none
  | Nat.succ fuel, first, l =>
    match l with
    | ']' :: rest => if first then some ([], rest) else Option.none
    | _ =>
      (parseValue fuel l).bind fun vp =>
      (itemSep (skipWs vp.2)).bind fun sep =>
      if sep.1 then
        (parseItems fuel false (skipWs sep.2)).map (fun p => (vp.1 :: p.1, p.2))
      else some ([vp.1], sep.2)

end

/-- Model of `json.loads`: skip leading whitespace, read one value, require
only whitespace after it. -/
def json_loads (l : List Char) : Option PyVal :=
  match parseValue (l.length + 1) (skipWs l) with
  | some (v, rest) => if (skipWs rest).isEmpty then some v else Option.none
  | Option.none => Option.none

/-- The two sanitization passes of src/app.py:88-89 in source order:
control-character removal, then backslash-n and backslash-t replacement. -/
def sanitizeBlock (l : List Char) : List Char := subNT (stripCtl l)

/-- The four distinct outcomes of `extract_info_from_pdf` after the model
call: the three early `return` statements of src/app.py:85, 94 and 125,
plus an uncaught exception escaping the function. -/
inductive PipelineResult where
  | noJsonFound (msg : List Char)
  | jsonParseFailed (response : List Char)
  | raised (msg : List Char)
  | record (text : List Char)
deriving DecidableEq

/-- Translation of `extract_info_from_pdf` (src/app.py:69-125) downstream
of its three I/O effects, taking the PDF text, the PDF links and the model
completion as inputs.  The `jsonParseFailed` outcome carries the raw
completion, standing for the diagnostic string built on src/app.py:94. -/
def extract_info_from_response (pdf_text : List Char) (links : List (List Char))
    (response : List Char) : PipelineResult :=
  match firstJsonBlock response with
  | Option.none => .noJsonFound (chars "Could not find a JSON block in the model output.")
  | some block =>
    match json_loads (sanitizeBlock block) with
    | Option.none => .jsonParseFailed response
    | some (.dict data) =>
      match reconcileAll data ⟨pdf_text, links⟩ with
      | .ok rec => .record (renderRecord rec)
      | .error e => .raised e
    | some _ => .raised (chars "AttributeError: no attribute get")

/-- The prompt text preceding the embedded document prefix, after `strip`
has removed the template's leading newline. -/
def promptPre : List Char :=
  promptTemplateHead.dropWhile pyWs ++ extract_info_function_props_json ++ promptTemplateMid

/-- The prompt text following the embedded document prefix, after `strip`
has removed the template's trailing newline and indent. -/
def promptSuf : List Char := chars "\n--- END TEXT ---"

/-- C8: the built prompt embeds exactly the first 2000 characters of the
raw text between a fixed preamble and a fixed epilogue; texts of length at
most 2000 are embedded whole, and the prompt is a deterministic pure
function of the 2000-character prefix. -/
theorem build_extraction_prompt_embeds_first2000 (t : List Char) :
    build_extraction_prompt t = promptPre ++ t.take 2000 ++ promptSuf ∧
    (t.length ≤ 2000 → build_extraction_prompt t = promptPre ++ t ++ promptSuf) ∧
    (∀ t' : List Char, t.take 2000 = t'.take 2000 →
      build_extraction_prompt t = build_extraction_prompt t') := by
  have key : ∀ s : List Char, build_extraction_prompt s = promptPre ++ s.take 2000 ++ promptSuf := by
    intro s
    have hne1 : (promptTemplateHead.dropWhile pyWs).isEmpty = false := by rfl
    have h2 : promptTemplateTail.reverse.dropWhile pyWs = promptSuf.reverse := by rfl
    have hne2 : (promptTemplateTail.reverse.dropWhile pyWs).isEmpty = false := by
      rw [h2]; rfl
    unfold build_extraction_prompt pyStrip
    rw [show promptTemplateHead ++ extract_info_function_props_json ++ promptTemplateMid
          ++ s.take 2000 ++ promptTemplateTail
        = promptTemplateHead ++ ((extract_info_function_props_json ++ promptTemplateMid
          ++ s.take 2000) ++ promptTemplateTail) by simp [List.append_assoc]]
    rw [List.dropWhile_append, hne1]
    simp only [Bool.false_eq_true, if_false]
    rw [List.reverse_append, List.reverse_append, List.append_assoc]
    rw [List.dropWhile_append, hne2, h2]
    simp only [Bool.false_eq_true, if_false]
    simp [promptPre, List.reverse_append, List.reverse_reverse, List.append_assoc]
  refine ⟨key t, ?_, ?_⟩
  · intro h
    rw [key t, List.take_of_length_le h]
  · intro t' h
    rw [key t, key t', h]

/-- Witness for C8 at a concrete short text: a text of length at most 2000
is embedded whole between the fixed preamble and epilogue. -/
theorem build_extraction_prompt_embeds_first2000_witness :
    (chars "hello world").length ≤ 2000 ∧
    build_extraction_prompt (chars "hello world") =
      promptPre ++ chars "hello world" ++ promptSuf := by
  refine ⟨by decide, ?_⟩
  exact (build_extraction_prompt_embeds_first2000 (chars "hello world")).2.1 (by decide)

/-- C9: the formatter renders one labelled line per schema field, joined by
newlines in the fixed order name, mobile number, address, email, linkedin,
github, experience years; the order is structural in the f-string, not
inherited from any mapping's iteration order. -/
theorem renderRecord_fixed_order (rec : SchemaField → List Char) :
    renderRecord rec =
      (chars "\n").intercalate
        (schemaFieldOrder.map (fun f => fieldLabel f ++ chars ": " ++ rec f)) := by
  simp [renderRecord, schemaFieldOrder, fieldLabel, List.intercalate, chars,
    List.append_assoc]

theorem upToBrace_eq_some (l m : List Char) :
    upToBrace l = some m ↔
      ∃ rest, l = m ++ '\x7d' :: rest ∧ '\x7d' ∉ m := by
  induction l generalizing m with
  | nil => simp [upToBrace]
  | cons c rest ih =>
    by_cases hc : c = '\x7d'
    · subst hc
      simp only [upToBrace, if_pos rfl]
      constructor
      · rintro h
        cases h
        exact ⟨rest, rfl, by simp⟩
      · rintro ⟨r, hr, hnm⟩
        cases m with
        | nil => simp
        | cons x xs =>
          simp only [List.cons_append, List.cons.injEq] at hr
          exact absurd (hr.1 ▸ List.mem_cons_self x xs) (hr.1 ▸ hnm)
    · simp only [upToBrace, if_neg hc]
      constructor
      · intro h
        cases hu : upToBrace rest with
        | none => simp [hu] at h
        | some m0 =>
          simp only [hu, Option.map_some'] at h
          cases h
          obtain ⟨r, hr, hnm⟩ := (ih m0).mp hu
          exact ⟨r, by simp [hr], by simp [hnm, hc, Ne.symm hc]⟩
      · rintro ⟨r, hr, hnm⟩
        cases m with
        | nil =>
          simp only [List.nil_append] at hr
          cases hr
          exact absurd rfl hc
        | cons x xs =>
          simp only [List.cons_append, List.cons.injEq] at hr
          obtain ⟨hx, hrest⟩ := hr
          subst hx
          have hsome : upToBrace rest = some xs :=
            (ih xs).mpr ⟨r, hrest, fun hm => hnm (List.mem_cons_of_mem _ hm)⟩
          simp [hsome]

theorem upToBrace_isSome_of_mem (l : List Char) (h : '\x7d' ∈ l) :
    (upToBrace l).isSome := by
  induction l with
  | nil => simp at h
  | cons c rest ih =>
    by_cases hc : c = '\x7d'
    · simp [upToBrace, hc]
    · have hmem : '\x7d' ∈ rest := by
        rcases List.mem_cons.mp h with h1 | h1
        · exact absurd h1.symm hc
        · exact h1
      have := ih hmem
      simp only [upToBrace, if_neg hc]
      cases hu : upToBrace rest with
      | none => rw [hu] at this; simp at this
      | some m0 => simp

theorem upToBrace_eq_none (l : List Char) :
    upToBrace l = Option.none ↔ '\x7d' ∉ l := by
  constructor
  · intro h hmem
    have := upToBrace_isSome_of_mem l hmem
    rw [h] at this
    simp at this
  · intro hmem
    cases h : upToBrace l with
    | none => rfl
    | some m =>
      obtain ⟨r, hr, -⟩ := (upToBrace_eq_some l m).mp h
      exact absurd (hr ▸ (by simp : '\x7d' ∈ m ++ '\x7d' :: r)) hmem

theorem matchBraceAt_eq_some (l b : List Char) :
    matchBraceAt l = some b ↔
      ∃ mid rest, l = '\x7b' :: mid ++ '\x7d' :: rest ∧
        b = '\x7b' :: mid ++ ['\x7d'] ∧ '\x7d' ∉ mid := by
  cases l with
  | nil =>
    rw [show matchBraceAt [] = Option.none from rfl]
    simp
  | cons c rest =>
    by_cases hc : c = '\x7b'
    · subst hc
      rw [show matchBraceAt ('\x7b' :: rest)
            = (upToBrace rest).map (fun mid => '\x7b' :: mid ++ ['\x7d']) from rfl]
      constructor
      · intro h
        cases hu : upToBrace rest with
        | none => simp [hu] at h
        | some m0 =>
          simp only [hu, Option.map_some'] at h
          cases h
          obtain ⟨r, hr, hnm⟩ := (upToBrace_eq_some rest m0).mp hu
          exact ⟨m0, r, by simp [hr], rfl, hnm⟩
      · rintro ⟨mid, r, hr, hb, hnm⟩
        simp only [List.cons_append, List.cons.injEq] at hr
        have hsome : upToBrace rest = some mid :=
          (upToBrace_eq_some rest mid).mpr ⟨r, hr.2, hnm⟩
        simp [hsome, hb]
    · rw [show matchBraceAt (c :: rest)
            = if c = '\x7b' then (upToBrace rest).map (fun mid => '\x7b' :: mid ++ ['\x7d'])
              else Option.none from rfl, if_neg hc]
      constructor
      · intro h; cases h
      · rintro ⟨mid, r, hr, -, -⟩
        simp only [List.cons_append, List.cons.injEq] at hr
        exact absurd hr.1 hc

theorem matchBraceAt_cons_ne (c : Char) (rest : List Char) (hc : c ≠ '\x7b') :
    matchBraceAt (c :: rest) = Option.none := by
  rw [show matchBraceAt (c :: rest)
        = if c = '\x7b' then (upToBrace rest).map (fun mid => '\x7b' :: mid ++ ['\x7d'])
          else Option.none from rfl, if_neg hc]

theorem firstJsonBlock_cons (c : Char) (rest : List Char) :
    firstJsonBlock (c :: rest) =
      match matchBraceAt (c :: rest) with
      | some b => some b
      | Option.none => firstJsonBlock rest := rfl

theorem firstJsonBlock_of_decomp (pre mid r b : List Char)
    (hb : b = '\x7b' :: mid ++ ['\x7d']) (hnpre : '\x7b' ∉ pre) (hnm : '\x7d' ∉ mid) :
    firstJsonBlock (pre ++ '\x7b' :: mid ++ '\x7d' :: r) = some b := by
  induction pre with
  | nil =>
    have hm : matchBraceAt ('\x7b' :: (mid ++ '\x7d' :: r)) = some b :=
      (matchBraceAt_eq_some _ _).mpr ⟨mid, r, by simp, hb, hnm⟩
    simp only [List.nil_append, List.cons_append]
    rw [firstJsonBlock_cons, hm]
  | cons p ps ihp =>
    have hpne : p ≠ '\x7b' := fun hcb => hnpre (by simp [hcb])
    have hrec := ihp (fun hmem => hnpre (List.mem_cons_of_mem _ hmem))
    simp only [List.cons_append] at hrec ⊢
    rw [firstJsonBlock_cons, matchBraceAt_cons_ne p _ hpne]
    exact hrec

theorem decomp_of_firstJsonBlock (l b : List Char) (h : firstJsonBlock l = some b) :
    ∃ pre mid rest, l = pre ++ '\x7b' :: mid ++ '\x7d' :: rest ∧
      b = '\x7b' :: mid ++ ['\x7d'] ∧ '\x7b' ∉ pre ∧ '\x7d' ∉ mid := by
  induction l with
  | nil => simp [firstJsonBlock] at h
  | cons c rest ih =>
    rw [firstJsonBlock_cons] at h
    cases hm : matchBraceAt (c :: rest) with
    | some b0 =>
      rw [hm] at h
      simp only [Option.some.injEq] at h
      subst h
      obtain ⟨mid, r, hr, hb, hnm⟩ := (matchBraceAt_eq_some (c :: rest) b0).mp hm
      exact ⟨[], mid, r, by simpa using hr, hb, by simp, hnm⟩
    | none =>
      rw [hm] at h
      obtain ⟨pre, mid, r, hr, hb, hnpre, hnm⟩ := ih h
      have hcne : c ≠ '\x7b' := by
        intro hcb
        subst hcb
        have hmem : '\x7d' ∈ rest := by simp [hr]
        have hs := upToBrace_isSome_of_mem rest hmem
        cases hu : upToBrace rest with
        | none => rw [hu] at hs; simp at hs
        | some m0 =>
          rw [show matchBraceAt ('\x7b' :: rest)
                = (upToBrace rest).map (fun mid => '\x7b' :: mid ++ ['\x7d']) from rfl,
            hu] at hm
          simp at hm
      refine ⟨c :: pre, mid, r, by simp [hr], hb, ?_, hnm⟩
      intro hmem
      rcases List.mem_cons.mp hmem with h1 | h1
      · exact hcne h1.symm
      · exact hnpre h1

/-- C3: the parser selects the first non-greedy brace-delimited match: a
block is selected exactly when it starts at the first opening brace of the
completion (no opening brace precedes it) and runs to the first closing
brace after it (no closing brace inside); in particular, on the
completion from the spec scenario the Bob block is selected and the Alice
block is ignored. -/
theorem firstJsonBlock_first_match_wins :
    (∀ l b : List Char, firstJsonBlock l = some b ↔
      ∃ pre mid rest, l = pre ++ '\x7b' :: mid ++ '\x7d' :: rest ∧
        b = '\x7b' :: mid ++ ['\x7d'] ∧ '\x7b' ∉ pre ∧ '\x7d' ∉ mid) ∧
    firstJsonBlock
        (chars "Here is the result: \x7b\"name\": \"Bob\"\x7d extra text \x7b\"name\":\"Alice\"\x7d") =
      some (chars "\x7b\"name\": \"Bob\"\x7d") := by
  refine ⟨fun l b => ⟨decomp_of_firstJsonBlock l b, ?_⟩, by rfl⟩
  rintro ⟨pre, mid, rest, hl, hb, hnpre, hnm⟩
  subst hl
  exact firstJsonBlock_of_decomp pre mid rest b hb hnpre hnm

/-- Witness for C3: the characterization applied at a concrete completion,
recovering the decomposition of the first match. -/
theorem firstJsonBlock_first_match_wins_witness :
    firstJsonBlock (chars "a\x7bb\x7dc") = some (chars "\x7bb\x7d") ∧
    ∃ pre mid rest, chars "a\x7bb\x7dc" = pre ++ '\x7b' :: mid ++ '\x7d' :: rest ∧
      chars "\x7bb\x7d" = '\x7b' :: mid ++ ['\x7d'] ∧ '\x7b' ∉ pre ∧ '\x7d' ∉ mid :=
  ⟨by rfl, (firstJsonBlock_first_match_wins.1 (chars "a\x7bb\x7dc") (chars "\x7bb\x7d")).mp (by rfl)⟩

/-- C7: a completion containing no brace-delimited substring makes the
pipeline return the NoJsonFound failure message of src/app.py:85; no
record (even partial) is produced, the result being a different
constructor from `record`. -/
theorem no_block_yields_noJsonFound (pdf_text : List Char) (links : List (List Char))
    (response : List Char)
    (h : ∀ pre mid rest : List Char, response ≠ pre ++ '\x7b' :: mid ++ '\x7d' :: rest) :
    extract_info_from_response pdf_text links response =
      .noJsonFound (chars "Could not find a JSON block in the model output.") := by
  have hnone : firstJsonBlock response = Option.none := by
    cases hf : firstJsonBlock response with
    | none => rfl
    | some b =>
      obtain ⟨pre, mid, rest, hl, -, -, -⟩ := decomp_of_firstJsonBlock _ _ hf
      exact absurd hl (h pre mid rest)
  unfold extract_info_from_response
  rw [hnone]

/-- Witness for C7 at a concrete brace-free completion. -/
theorem no_block_yields_noJsonFound_witness :
    (∀ pre mid rest : List Char,
      chars "the model rambled with no json at all" ≠ pre ++ '\x7b' :: mid ++ '\x7d' :: rest) ∧
    extract_info_from_response (chars "cv text") [] (chars "the model rambled with no json at all") =
      .noJsonFound (chars "Could not find a JSON block in the model output.") := by
  have hno : ∀ pre mid rest : List Char,
      chars "the model rambled with no json at all" ≠ pre ++ '\x7b' :: mid ++ '\x7d' :: rest := by
    intro pre mid rest heq
    have hmem : '\x7b' ∈ chars "the model rambled with no json at all" := by
      rw [heq]; simp
    exact absurd hmem (by decide)
  exact ⟨hno, no_block_yields_noJsonFound _ _ _ hno⟩

theorem find_profile_cons (link : List Char) (rest : List (List Char)) (p : List Char) :
    find_profile_url_from_links (link :: rest) p =
      if containsSub (lowerStr link) p then link
      else find_profile_url_from_links rest p := rfl

theorem find_profile_first (pre post : List (List Char)) (L p : List Char)
    (hL : containsSub (lowerStr L) p = true)
    (hpre : ∀ L' ∈ pre, containsSub (lowerStr L') p = false) :
    find_profile_url_from_links (pre ++ L :: post) p = L := by
  induction pre with
  | nil => simp [find_profile_cons, hL]
  | cons x xs ih =>
    rw [List.cons_append, find_profile_cons, hpre x (by simp)]
    simp only [Bool.false_eq_true, if_false]
    exact ih (fun L' h => hpre L' (List.mem_cons_of_mem _ h))

theorem containsSub_length_le (hay pat : List Char) (h : containsSub hay pat = true) :
    pat.length ≤ hay.length := by
  induction hay with
  | nil =>
    simp only [containsSub, List.isEmpty_iff] at h
    simp [h]
  | cons c t ih =>
    simp only [containsSub, Bool.or_eq_true] at h
    rcases h with h | h
    · exact (List.isPrefixOf_iff_prefix.mp h).length_le
    · exact Nat.le_trans (ih h) (by simp)

/-- C1: when a document link contains the platform name (after
lowercasing), the reconciled linkedin or github field is the first such
link, for every parsed model output: both the missing branch and the
override branch of `safe` return the link-derived URL. -/
theorem link_overrides_model_profile (p : List Char) (data : List (List Char × PyVal))
    (sig : DocumentSignals) (pre post : List (List Char)) (L : List Char)
    (hp : p = chars "linkedin" ∨ p = chars "github")
    (hl : sig.links = pre ++ L :: post)
    (hL : containsSub (lowerStr L) p = true)
    (hpre : ∀ L' ∈ pre, containsSub (lowerStr L') p = false) :
    safe p data sig = .ok L := by
  have hfind : find_profile_url_from_links sig.links p = L := by
    rw [hl]; exact find_profile_first pre post L p hL hpre
  have hlen : 2 < L.length := by
    have := containsSub_length_le (lowerStr L) p hL
    have hplen : 2 < p.length := by rcases hp with h | h <;> subst h <;> decide
    have : p.length ≤ L.length := by simpa [lowerStr] using this
    omega
  have hLne : (L != chars "NA") = true := by
    simp only [bne_iff_ne, ne_eq]
    intro hEq
    rw [hEq] at hlen
    simp [chars] at hlen
  have hpB : (p == chars "linkedin" || p == chars "github") = true := by
    rcases hp with h | h <;> subst h <;> rfl
  unfold safe safeBody
  by_cases hmiss :
      (!pyTruthy (unwrapValue ((pyDictGet data p).getD (.str []))) ||
        isNASentinel (unwrapValue ((pyDictGet data p).getD (.str [])))) = true
  · rw [if_pos hmiss, if_pos hpB, hfind]
  · rw [if_neg hmiss, if_pos (by rw [hpB, Bool.true_and, hfind, hLne]), hfind]

/-- Witness for C1: a mixed-case LinkedIn link overrides a present model
guess; the first matching link in link order is returned. -/
theorem link_overrides_model_profile_witness :
    containsSub (lowerStr (chars "https://www.LinkedIn.com/in/jane")) (chars "linkedin") = true ∧
    safe (chars "linkedin")
        [(chars "linkedin", .str (chars "http://guess.example/jane"))]
        ⟨chars "", [chars "https://example.com", chars "https://www.LinkedIn.com/in/jane"]⟩ =
      .ok (chars "https://www.LinkedIn.com/in/jane") :=
  ⟨by decide,
    link_overrides_model_profile (chars "linkedin")
      [(chars "linkedin", .str (chars "http://guess.example/jane"))]
      ⟨chars "", [chars "https://example.com", chars "https://www.LinkedIn.com/in/jane"]⟩
      [chars "https://example.com"] [] (chars "https://www.LinkedIn.com/in/jane")
      (Or.inl rfl) rfl (by decide) (by decide)⟩

/-- C10: the missingness test of `safe` is Python truthiness plus the
three string sentinels, so any falsy parsed value (zero, false, null, an
empty array or object, or a nested object whose value entry is absent or
falsy) for a present key triggers the field's fallback: the link search
for linkedin and github, the raw-text email search for email, and the NA
sentinel for every other field. -/
theorem falsy_value_treated_as_missing (field : List Char) (data : List (List Char × PyVal))
    (sig : DocumentSignals) (v : PyVal)
    (hget : pyDictGet data field = some v)
    (hfalsy : pyTruthy (unwrapValue v) = false) :
    safe field data sig =
      (if field == chars "linkedin" || field == chars "github" then
        .ok (find_profile_url_from_links sig.links field)
      else if field == chars "email" then .ok (find_email sig.rawText)
      else .ok (chars "NA")) := by
  unfold safe safeBody
  rw [hget]
  simp only [Option.getD_some]
  rw [if_pos (by rw [hfalsy]; rfl)]

/-- Witness for C10: each falsy shape named by the claim triggers the
fallback, here shown on a non-special field (NA), on github (link search
hit) and on email (raw-text regex hit). -/
theorem falsy_value_treated_as_missing_witness :
    (pyTruthy (unwrapValue (.int 0)) = false ∧
      safe (chars "name") [(chars "name", .int 0)] ⟨chars "", []⟩ = .ok (chars "NA")) ∧
    (pyTruthy (unwrapValue (.bool false)) = false ∧
      safe (chars "address") [(chars "address", .bool false)] ⟨chars "", []⟩ = .ok (chars "NA")) ∧
    (pyTruthy (unwrapValue .none) = false ∧
      safe (chars "experience_years") [(chars "experience_years", PyVal.none)] ⟨chars "", []⟩ =
        .ok (chars "NA")) ∧
    (pyTruthy (unwrapValue (.list [])) = false ∧
      safe (chars "mobile_number") [(chars "mobile_number", .list [])] ⟨chars "", []⟩ =
        .ok (chars "NA")) ∧
    (pyTruthy (unwrapValue (.dict [])) = false ∧
      safe (chars "github") [(chars "github", .dict [])] ⟨chars "", [chars "x", chars "github.com/jane"]⟩ =
        .ok (chars "github.com/jane")) ∧
    (pyTruthy (unwrapValue (.dict [(chars "value", .int 0)])) = false ∧
      safe (chars "email") [(chars "email", .dict [(chars "value", .int 0)])]
          ⟨chars "mail me at a@b.cd now", []⟩ =
        .ok (chars "a@b.cd")) := by
  refine ⟨⟨rfl, ?_⟩, ⟨rfl, ?_⟩, ⟨rfl, ?_⟩, ⟨rfl, ?_⟩, ⟨rfl, ?_⟩, ⟨rfl, ?_⟩⟩
  · rw [falsy_value_treated_as_missing (chars "name") [(chars "name", .int 0)]
      ⟨chars "", []⟩ (.int 0) rfl rfl]
    rfl
  · rw [falsy_value_treated_as_missing (chars "address") [(chars "address", .bool false)]
      ⟨chars "", []⟩ (.bool false) rfl rfl]
    rfl
  · rw [falsy_value_treated_as_missing (chars "experience_years")
      [(chars "experience_years", PyVal.none)] ⟨chars "", []⟩ PyVal.none rfl rfl]
    rfl
  · rw [falsy_value_treated_as_missing (chars "mobile_number")
      [(chars "mobile_number", .list [])] ⟨chars "", []⟩ (.list []) rfl rfl]
    rfl
  · rw [falsy_value_treated_as_missing (chars "github") [(chars "github", .dict [])]
      ⟨chars "", [chars "x", chars "github.com/jane"]⟩ (.dict []) rfl rfl]
    rfl
  · rw [falsy_value_treated_as_missing (chars "email")
      [(chars "email", .dict [(chars "value", .int 0)])]
      ⟨chars "mail me at a@b.cd now", []⟩ (.dict [(chars "value", .int 0)]) rfl rfl]
    rfl

/-- Counterexample to C2 as stated: on the parsed object with email bound
to the number 1 (a truthy non-string), reconciliation of the email field
raises a TypeError inside the shape check of src/app.py:111 instead of
resolving to a string, so field reconciliation does not never-raise over
all parsed JSON objects. -/
theorem safe_raises_on_truthy_nonstring_email :
    safe (chars "email") [(chars "email", .int 1)] ⟨chars "", []⟩ =
      .error (chars "TypeError: expected string or bytes-like object") ∧
    extract_info_from_response (chars "") []
        (chars "\x7b\"email\": 1\x7d") =
      .raised (chars "TypeError: expected string or bytes-like object") := by
  exact ⟨rfl, rfl⟩

theorem safeBody_ok (field : List Char) (val : PyVal) (sig : DocumentSignals)
    (h : field = chars "email" → (∃ s, val = .str s) ∨ pyTruthy val = false) :
    ∃ s, safeBody field val sig = .ok s := by
  unfold safeBody
  by_cases hmiss : (!pyTruthy val || isNASentinel val) = true
  · by_cases hlg : (field == chars "linkedin" || field == chars "github") = true
    · exact ⟨_, by rw [if_pos hmiss, if_pos hlg]⟩
    · by_cases hem : (field == chars "email") = true
      · exact ⟨_, by rw [if_pos hmiss, if_neg hlg, if_pos hem]⟩
      · exact ⟨_, by rw [if_pos hmiss, if_neg hlg, if_neg hem]⟩
  · by_cases hov : ((field == chars "linkedin" || field == chars "github")
        && find_profile_url_from_links sig.links field != chars "NA") = true
    · exact ⟨_, by rw [if_neg hmiss, if_pos hov]⟩
    · by_cases hem : (field == chars "email") = true
      · rcases h (by simpa using hem) with ⟨s, hs⟩ | hfalsy
        · refine ⟨if reMatchEmailLoose s then s else find_email sig.rawText, ?_⟩
          rw [if_neg hmiss, if_neg hov, if_pos hem, hs]
          dsimp only
          split <;> rfl
        · exact absurd (show (!pyTruthy val || isNASentinel val) = true by
            rw [hfalsy]; rfl) hmiss
      · exact ⟨_, by rw [if_neg hmiss, if_neg hov, if_neg hem]⟩

/-- C2 amended: for every parsed JSON object whose email value (after the
nested unwrap) is a string or falsy, reconciliation never raises and the
resulting record binds every schema field to a string; without that
proviso the email branch can raise, as the counterexample shows. -/
theorem reconcile_total_and_string_valued (data : List (List Char × PyVal))
    (sig : DocumentSignals)
    (hemail : (∃ s, unwrapValue ((pyDictGet data (chars "email")).getD (.str [])) = .str s) ∨
      pyTruthy (unwrapValue ((pyDictGet data (chars "email")).getD (.str []))) = false) :
    ∃ rec : SchemaField → List Char, reconcileAll data sig = .ok rec := by
  obtain ⟨s1, h1⟩ := safeBody_ok (chars "name")
    (unwrapValue ((pyDictGet data (chars "name")).getD (.str []))) sig
    (fun hh => absurd hh (by decide))
  obtain ⟨s2, h2⟩ := safeBody_ok (chars "mobile_number")
    (unwrapValue ((pyDictGet data (chars "mobile_number")).getD (.str []))) sig
    (fun hh => absurd hh (by decide))
  obtain ⟨s3, h3⟩ := safeBody_ok (chars "address")
    (unwrapValue ((pyDictGet data (chars "address")).getD (.str []))) sig
    (fun hh => absurd hh (by decide))
  obtain ⟨s4, h4⟩ := safeBody_ok (chars "email")
    (unwrapValue ((pyDictGet data (chars "email")).getD (.str []))) sig
    (fun _ => hemail)
  obtain ⟨s5, h5⟩ := safeBody_ok (chars "linkedin")
    (unwrapValue ((pyDictGet data (chars "linkedin")).getD (.str []))) sig
    (fun hh => absurd hh (by decide))
  obtain ⟨s6, h6⟩ := safeBody_ok (chars "github")
    (unwrapValue ((pyDictGet data (chars "github")).getD (.str []))) sig
    (fun hh => absurd hh (by decide))
  obtain ⟨s7, h7⟩ := safeBody_ok (chars "experience_years")
    (unwrapValue ((pyDictGet data (chars "experience_years")).getD (.str []))) sig
    (fun hh => absurd hh (by decide))
  refine ⟨fun f => match f with
    | .name => s1
    | .mobile_number => s2
    | .address => s3
    | .email => s4
    | .linkedin => s5
    | .github => s6
    | .experience_years => s7, ?_⟩
  unfold reconcileAll safe
  rw [h1, h2, h3, h4, h5, h6, h7]
  rfl

/-- Witness for the amended C2 at a concrete parsed object with a sentinel
email value. -/
theorem reconcile_total_and_string_valued_witness :
    ((∃ s, unwrapValue ((pyDictGet [(chars "name", PyVal.str (chars "Jane")),
        (chars "email", PyVal.str (chars "NA"))] (chars "email")).getD (.str []))
          = .str s) ∨
      pyTruthy (unwrapValue ((pyDictGet [(chars "name", PyVal.str (chars "Jane")),
        (chars "email", PyVal.str (chars "NA"))] (chars "email")).getD (.str []))) = false) ∧
    ∃ rec : SchemaField → List Char,
      reconcileAll [(chars "name", PyVal.str (chars "Jane")),
        (chars "email", PyVal.str (chars "NA"))] ⟨chars "", []⟩ = .ok rec :=
  ⟨Or.inl ⟨chars "NA", rfl⟩,
    reconcile_total_and_string_valued _ ⟨chars "", []⟩ (Or.inl ⟨chars "NA", rfl⟩)⟩

theorem emailSearch_cons (c : Char) (t : List Char) :
    emailSearch (c :: t) =
      match emailMatchHere (c :: t) with
      | some m => some m
      | Option.none => emailSearch t := rfl

theorem emailSearch_first (l m : List Char) (h : emailSearch l = some m) :
    ∃ i, emailMatchHere (l.drop i) = some m ∧
      ∀ j < i, emailMatchHere (l.drop j) = Option.none := by
  induction l with
  | nil => cases h
  | cons c t ih =>
    rw [emailSearch_cons] at h
    cases hm : emailMatchHere (c :: t) with
    | some m0 =>
      rw [hm] at h
      cases h
      exact ⟨0, by simpa using hm, fun j hj => absurd hj (Nat.not_lt_zero j)⟩
    | none =>
      rw [hm] at h
      obtain ⟨i, h1, h2⟩ := ih h
      refine ⟨i + 1, by simpa using h1, ?_⟩
      intro j hj
      cases j with
      | zero => simpa using hm
      | succ j' => simpa using h2 j' (Nat.lt_of_succ_lt_succ hj)

theorem emailSearch_none (l : List Char) (h : emailSearch l = Option.none) :
    ∀ i, emailMatchHere (l.drop i) = Option.none := by
  induction l with
  | nil => intro i; simp [List.drop_nil]; rfl
  | cons c t ih =>
    rw [emailSearch_cons] at h
    cases hm : emailMatchHere (c :: t) with
    | some m0 => rw [hm] at h; cases h
    | none =>
      rw [hm] at h
      intro i
      cases i with
      | zero => simpa using hm
      | succ i' => simpa using ih h i'

theorem drop_length_takeWhile (p : Char → Bool) (l : List Char) :
    l.drop (l.takeWhile p).length = l.dropWhile p := by
  have h := @List.drop_left' _ (l.takeWhile p) (l.dropWhile p) (l.takeWhile p).length rfl
  rwa [List.takeWhile_append_dropWhile] at h

theorem takeWhile_dropWhile_split (p : Char → Bool) (l : List Char) :
    l = l.takeWhile p ++ l.dropWhile p := (List.takeWhile_append_dropWhile p l).symm

theorem emailMatchHere_shape (l m : List Char) (h : emailMatchHere l = some m) :
    ∃ a b c rest, m = a ++ '@' :: (b ++ '.' :: c) ∧ l = m ++ rest ∧
      a ≠ [] ∧ b ≠ [] ∧ c ≠ [] ∧
      a.all isLocalChar = true ∧ b.all isDomChar = true ∧ c.all isTldChar = true := by
  unfold emailMatchHere at h
  split at h
  · cases h
  · split at h
    case _ r1 heq1 =>
      split at h
      · cases h
      · split at h
        case _ r2 heq2 =>
          split at h
          · cases h
          · simp only [Option.some.injEq] at h
            subst h
            refine ⟨l.takeWhile isLocalChar, r1.takeWhile isDomChar,
              r2.takeWhile isTldChar, r2.dropWhile isTldChar, rfl, ?_, ?_, ?_, ?_, ?_, ?_, ?_⟩
            · conv_lhs => rw [takeWhile_dropWhile_split isLocalChar l]
              rw [heq1]
              conv_lhs => rw [takeWhile_dropWhile_split isDomChar r1]
              rw [heq2]
              conv_lhs => rw [takeWhile_dropWhile_split isTldChar r2]
              simp [List.append_assoc]
            · simpa using ‹¬(List.takeWhile isLocalChar l).isEmpty = true›
            · simpa using ‹¬(List.takeWhile isDomChar r1).isEmpty = true›
            · simpa using ‹¬(List.takeWhile isTldChar r2).isEmpty = true›
            · exact List.all_eq_true.mpr fun x hx => List.mem_takeWhile_imp hx
            · exact List.all_eq_true.mpr fun x hx => List.mem_takeWhile_imp hx
            · exact List.all_eq_true.mpr fun x hx => List.mem_takeWhile_imp hx
        case _ => cases h
    case _ => cases h

/-- C6: when the parsed email value is absent, empty, or one of the string
sentinels, the reconciled email field is the regex search over the full
(untruncated) raw text: when some position matches the email regex, the
result is the match at the leftmost matching position, and that match has
the shape local-part, at-sign, domain, dot, suffix with the regex's
character classes; when no position matches, the result is NA. -/
theorem missing_email_falls_back_to_first_match (data : List (List Char × PyVal))
    (sig : DocumentSignals)
    (hmiss : pyDictGet data (chars "email") = Option.none ∨
      pyDictGet data (chars "email") = some (.str []) ∨
      pyDictGet data (chars "email") = some (.str (chars "NA")) ∨
      pyDictGet data (chars "email") = some (.str (chars "None")) ∨
      pyDictGet data (chars "email") = some (.str (chars "null"))) :
    safe (chars "email") data sig = .ok (find_email sig.rawText) ∧
    (∀ m, emailSearch sig.rawText = some m →
      find_email sig.rawText = m ∧
      ∃ i, emailMatchHere (sig.rawText.drop i) = some m ∧
        (∀ j < i, emailMatchHere (sig.rawText.drop j) = Option.none) ∧
        ∃ a b c rest, m = a ++ '@' :: (b ++ '.' :: c) ∧
          sig.rawText.drop i = m ++ rest ∧
          a ≠ [] ∧ b ≠ [] ∧ c ≠ [] ∧
          a.all isLocalChar = true ∧ b.all isDomChar = true ∧ c.all isTldChar = true) ∧
    (emailSearch sig.rawText = Option.none → find_email sig.rawText = chars "NA") := by
  refine ⟨?_, ?_, ?_⟩
  · rcases hmiss with h | h | h | h | h <;>
      (unfold safe safeBody; rw [h]; rfl)
  · intro m hm
    refine ⟨by rw [find_email, hm]; rfl, ?_⟩
    obtain ⟨i, h1, h2⟩ := emailSearch_first sig.rawText m hm
    obtain ⟨a, b, c, rest, hshape, hdecomp, hrest⟩ := emailMatchHere_shape _ m h1
    exact ⟨i, h1, h2, a, b, c, rest, hshape, hdecomp, hrest⟩
  · intro hnone
    rw [find_email, hnone]
    rfl

/-- Witness for C6: sentinel email value plus a raw text containing an
address; the reconciled field is the leftmost regex match over the raw
text. -/
theorem missing_email_falls_back_witness :
    safe (chars "email") [(chars "email", PyVal.str (chars "NA"))]
        ⟨chars "Contact: jane@example.com now", []⟩ =
      .ok (find_email (chars "Contact: jane@example.com now")) ∧
    find_email (chars "Contact: jane@example.com now") = chars "jane@example.com" :=
  ⟨(missing_email_falls_back_to_first_match
      [(chars "email", PyVal.str (chars "NA"))]
      ⟨chars "Contact: jane@example.com now", []⟩
      (Or.inr (Or.inr (Or.inl rfl)))).1,
    by rfl⟩

/-- Modelled from the claim's wording for comparison with the source: the
loose email-shape check described as the value containing an at-sign and
a dot. -/
def specLooseEmailCheck (s : List Char) : Bool :=
  s.contains '@' && s.contains '.'

/-- Counterexample to C5 as stated: the value from the model passes the
claimed contains-at-and-dot check, yet the source's actual check (the
regex of src/app.py:111, which also demands a character before the
at-sign, between at-sign and a later dot, and after that dot) rejects it,
so the code falls back to the raw-text regex search instead of returning
the value as-is. -/
theorem loose_email_check_counterexample :
    specLooseEmailCheck (chars "a@b.") = true ∧
    reMatchEmailLoose (chars "a@b.") = false ∧
    safe (chars "email") [(chars "email", PyVal.str (chars "a@b."))]
        ⟨chars "reach me at x@y.zz", []⟩ = .ok (chars "x@y.zz") ∧
    chars "x@y.zz" ≠ chars "a@b." :=
  ⟨rfl, rfl, rfl, by decide⟩

/-- C5 amended: for a present, truthy, non-sentinel string email value,
the reconciler returns the value as-is when it matches the source's
email-shape regex at its start, and otherwise returns the regex search
over the full raw text; the shape check is the anchored regex, not the
mere presence of an at-sign and a dot. -/
theorem present_email_uses_regex_shape_check (data : List (List Char × PyVal))
    (sig : DocumentSignals) (s : List Char)
    (hget : pyDictGet data (chars "email") = some (.str s))
    (hs : s ≠ [])
    (hsent : isNASentinel (.str s) = false) :
    (reMatchEmailLoose s = true → safe (chars "email") data sig = .ok s) ∧
    (reMatchEmailLoose s = false →
      safe (chars "email") data sig = .ok (find_email sig.rawText)) := by
  have hsE : s.isEmpty = false := by simpa using hs
  have hmiss : (!pyTruthy (PyVal.str s) || isNASentinel (PyVal.str s)) = false := by
    simp only [pyTruthy, hsE, hsent]
    rfl
  have hovr : ((chars "email" == chars "linkedin" || chars "email" == chars "github")
      && find_profile_url_from_links sig.links (chars "email") != chars "NA") = false := by
    rw [show (chars "email" == chars "linkedin" || chars "email" == chars "github") = false
      from rfl, Bool.false_and]
  have hmain : safe (chars "email") data sig =
      (if reMatchEmailLoose s = true then Except.ok s
       else Except.ok (find_email sig.rawText)) := by
    unfold safe safeBody
    rw [hget]
    simp only [Option.getD_some]
    rw [show unwrapValue (PyVal.str s) = PyVal.str s from rfl, hmiss]
    simp only [Bool.false_eq_true, if_false]
    rw [if_neg (by rw [hovr]; exact Bool.false_ne_true)]
    rw [if_pos (show (chars "email" == chars "email") = true from rfl)]
  constructor
  · intro hre
    rw [hmain, if_pos hre]
  · intro hre
    rw [hmain, if_neg (by rw [hre]; exact Bool.false_ne_true)]

/-- Witness for the amended C5: a value matching the anchored regex is
returned as-is, and one failing it (despite containing an at-sign and a
dot) triggers the raw-text fallback. -/
theorem present_email_uses_regex_shape_check_witness :
    reMatchEmailLoose (chars "jane@x.co") = true ∧
    safe (chars "email") [(chars "email", PyVal.str (chars "jane@x.co"))]
        ⟨chars "", []⟩ = .ok (chars "jane@x.co") ∧
    reMatchEmailLoose (chars "a@b.") = false ∧
    safe (chars "email") [(chars "email", PyVal.str (chars "a@b."))]
        ⟨chars "reach me at x@y.zz", []⟩ =
      .ok (find_email (chars "reach me at x@y.zz")) :=
  ⟨rfl,
    (present_email_uses_regex_shape_check
      [(chars "email", PyVal.str (chars "jane@x.co"))] ⟨chars "", []⟩
      (chars "jane@x.co") rfl (by decide) rfl).1 rfl,
    rfl,
    (present_email_uses_regex_shape_check
      [(chars "email", PyVal.str (chars "a@b."))] ⟨chars "reach me at x@y.zz", []⟩
      (chars "a@b.") rfl (by decide) rfl).2 rfl⟩

/-- A two-character backslash-n or backslash-t occurrence somewhere in the
text (the pattern of the `re.sub` on src/app.py:89). -/
def hasNTpair : List Char → Bool
  | c :: d :: rest => (c == '\\' && (d == 'n' || d == 't')) || hasNTpair (d :: rest)
  | _ => false

theorem subNT_cons2 (c d : Char) (rest : List Char) :
    subNT (c :: d :: rest) =
      if c == '\\' && (d == 'n' || d == 't') then ' ' :: subNT rest
      else c :: subNT (d :: rest) := rfl

theorem subNT_cons_ne (c : Char) (l : List Char) (hc : c ≠ '\\') :
    subNT (c :: l) = c :: subNT l := by
  cases l with
  | nil => rfl
  | cons d rest =>
    rw [subNT_cons2]
    have hcb : (c == '\\') = false := by simpa using hc
    rw [hcb, Bool.false_and]
    simp

theorem subNT_bs_pair (d : Char) (rest : List Char) (hd1 : d ≠ 'n') (hd2 : d ≠ 't') :
    subNT ('\\' :: d :: rest) = '\\' :: subNT (d :: rest) := by
  rw [subNT_cons2]
  have : (d == 'n' || d == 't') = false := by simp [hd1, hd2]
  rw [this, Bool.and_false]
  simp

theorem subNT_bs_n (rest : List Char) : subNT ('\\' :: 'n' :: rest) = ' ' :: subNT rest := rfl

theorem subNT_bs_t (rest : List Char) : subNT ('\\' :: 't' :: rest) = ' ' :: subNT rest := rfl

theorem subNT_bs_bs (rest : List Char)
    (h : ∀ e ∈ rest.head?, e ≠ 'n' ∧ e ≠ 't') :
    subNT ('\\' :: '\\' :: rest) = '\\' :: '\\' :: subNT rest := by
  rw [subNT_bs_pair '\\' rest (by decide) (by decide)]
  cases rest with
  | nil => rfl
  | cons e r2 =>
    have he := h e (by simp)
    rw [subNT_cons2]
    have : (e == 'n' || e == 't') = false := by simp [he.1, he.2]
    rw [this, Bool.and_false]
    simp

theorem ntClean_cons2 (c d : Char) (rest : List Char) :
    ntClean (c :: d :: rest) =
      if c == '\\' && d == '\\' then
        (match rest with
         | e :: _ => !(e == 'n' || e == 't')
         | [] => true) && ntClean rest
      else ntClean (d :: rest) := rfl

theorem ntClean_cons_ne (c : Char) (l : List Char) (hc : c ≠ '\\') :
    ntClean (c :: l) = ntClean l := by
  cases l with
  | nil => rfl
  | cons d rest =>
    rw [ntClean_cons2]
    have hcb : (c == '\\') = false := by simpa using hc
    rw [hcb, Bool.false_and]
    simp

theorem ntClean_bs_bs (rest : List Char) (h : ntClean ('\\' :: '\\' :: rest) = true) :
    (∀ e ∈ rest.head?, e ≠ 'n' ∧ e ≠ 't') ∧ ntClean rest = true := by
  rw [ntClean_cons2] at h
  simp only [show (('\\' : Char) == '\\' && ('\\' : Char) == '\\') = true from rfl, if_true,
    Bool.and_eq_true] at h
  constructor
  · intro e he
    cases rest with
    | nil => simp at he
    | cons e0 r2 =>
      simp only [List.head?_cons, Option.mem_def, Option.some.injEq] at he
      subst he
      have := h.1
      simp only [Bool.not_eq_true', Bool.or_eq_false_iff] at this
      exact ⟨by simpa using this.1, by simpa using this.2⟩
  · exact h.2

theorem ntClean_bs_other (d : Char) (rest : List Char) (hd : d ≠ '\\')
    (h : ntClean ('\\' :: d :: rest) = true) : ntClean rest = true := by
  have hdb : (d == '\\') = false := by simpa using hd
  rw [ntClean_cons2, if_neg (by rw [hdb, Bool.and_false]; exact Bool.false_ne_true)] at h
  rwa [ntClean_cons_ne d rest hd] at h

theorem ntClean_bs_bs_step (rest : List Char) (h : ntClean ('\\' :: '\\' :: rest) = true) :
    ntClean rest = true := (ntClean_bs_bs rest h).2

theorem skipWs_cons (c : Char) (l : List Char) :
    skipWs (c :: l) = if isJsonWs c then skipWs l else c :: l := by
  unfold skipWs
  rw [List.dropWhile_cons]

theorem ntClean_skipWs (l : List Char) (h : ntClean l = true) :
    ntClean (skipWs l) = true := by
  induction l with
  | nil => exact h
  | cons c t ih =>
    rw [skipWs_cons]
    by_cases hws : isJsonWs c = true
    · rw [if_pos hws]
      have hc : c ≠ '\\' := by
        intro hcb
        subst hcb
        exact absurd hws (by decide)
      exact ih (by rwa [ntClean_cons_ne c t hc] at h)
    · rw [if_neg hws]
      exact h

theorem skipWs_subNT_nil (l : List Char) (h : skipWs l = []) :
    skipWs (subNT l) = [] := by
  induction l with
  | nil => rfl
  | cons c t ih =>
    rw [skipWs_cons] at h
    by_cases hws : isJsonWs c = true
    · rw [if_pos hws] at h
      have hc : c ≠ '\\' := by
        intro hcb; subst hcb; exact absurd hws (by decide)
      rw [subNT_cons_ne c t hc, skipWs_cons, if_pos hws]
      exact ih h
    · rw [if_neg hws] at h
      cases h
  
theorem skipWs_subNT_head (l : List Char) (c : Char) (rest : List Char)
    (h : skipWs l = c :: rest) (hc : c ≠ '\\') :
    skipWs (subNT l) = c :: subNT rest := by
  induction l with
  | nil => cases h
  | cons a t ih =>
    rw [skipWs_cons] at h
    by_cases hws : isJsonWs a = true
    · rw [if_pos hws] at h
      have ha : a ≠ '\\' := by
        intro hab; subst hab; exact absurd hws (by decide)
      rw [subNT_cons_ne a t ha, skipWs_cons, if_pos hws]
      exact ih h
    · rw [if_neg hws] at h
      cases h
      rw [subNT_cons_ne c rest hc, skipWs_cons, if_neg hws]

theorem hasNTpair_cons (a : Char) (x : List Char) :
    hasNTpair (a :: x) =
      ((a == '\\' && (match x with | d :: _ => (d == 'n' || d == 't') | [] => false))
        || hasNTpair x) := by
  cases x with
  | nil => simp [hasNTpair]
  | cons d r => rfl

theorem subNT_head_shape (d : Char) (rest : List Char) :
    ∃ x, subNT (d :: rest) = d :: x ∨ subNT (d :: rest) = ' ' :: x := by
  cases rest with
  | nil => exact ⟨[], Or.inl rfl⟩
  | cons e r2 =>
    rw [subNT_cons2]
    by_cases hcond : (d == '\\' && (e == 'n' || e == 't')) = true
    · rw [if_pos hcond]; exact ⟨subNT r2, Or.inr rfl⟩
    · rw [if_neg hcond]; exact ⟨subNT (e :: r2), Or.inl rfl⟩

theorem subNT_no_pair_aux : ∀ n l, l.length ≤ n → hasNTpair (subNT l) = false := by
  intro n
  induction n with
  | zero =>
    intro l hlen
    have : l = [] := List.length_eq_zero.mp (Nat.le_zero.mp hlen)
    subst this
    rfl
  | succ n ih =>
    intro l hlen
    match l with
    | [] => rfl
    | [c] => rfl
    | c :: d :: rest =>
      rw [subNT_cons2]
      by_cases hcond : (c == '\\' && (d == 'n' || d == 't')) = true
      · rw [if_pos hcond, hasNTpair_cons]
        have hrec := ih rest (by simp at hlen ⊢; omega)
        rw [hrec, Bool.or_false, show ((' ' : Char) == '\\') = false from rfl, Bool.false_and]
      · rw [if_neg hcond, hasNTpair_cons]
        have h2 := ih (d :: rest) (by simp at hlen ⊢; omega)
        rw [h2, Bool.or_false]
        by_cases hc : c = '\\'
        · subst hc
          have hd : (d == 'n' || d == 't') = false := by
            revert hcond
            rw [show (('\\' : Char) == '\\') = true from rfl, Bool.true_and]
            cases (d == 'n' || d == 't') <;> simp
          obtain ⟨x, hx | hx⟩ := subNT_head_shape d rest
          · rw [hx]
            simp [hd]
          · rw [hx]
            simp
        · have : (c == '\\') = false := by simpa using hc
          rw [this, Bool.false_and]

/-- The replacement pass leaves no backslash-n or backslash-t pair behind:
every such pair of the input is rewritten to a single space. -/
theorem subNT_no_pair (l : List Char) : hasNTpair (subNT l) = false :=
  subNT_no_pair_aux l.length l (Nat.le_refl _)


theorem if_bool_true {α : Sort _} {b : Bool} (x y : α) (h : b = true) :
    (if b = true then x else y) = x := by rw [h]; simp

theorem if_bool_false {α : Sort _} {b : Bool} (x y : α) (h : b = false) :
    (if b = true then x else y) = y := by rw [h]; simp

theorem parseStringBody_cons (c : Char) (rest : List Char) :
    parseStringBody (c :: rest) =
      (if c == '"' then some ([], rest)
       else if c == '\\' then
         match rest with
         | [] => Option.none
         | e :: r =>
           if isSimpleEsc e then (parseStringBody r).map (fun p => (escChar e :: p.1, p.2))
           else if e == 'u' then
             match r with
             | h1 :: h2 :: h3 :: h4 :: r2 =>
               if isHex h1 && isHex h2 && isHex h3 && isHex h4 then
                 (parseStringBody r2).map (fun p => (uChar h1 h2 h3 h4 :: p.1, p.2))
               else Option.none
             | _ => Option.none
           else Option.none
       else if 0x20 ≤ c.toNat then (parseStringBody rest).map (fun p => (c :: p.1, p.2))
       else Option.none) := by
  conv_lhs => unfold parseStringBody

theorem parseStringBody_u (h1 h2 h3 h4 : Char) (x : List Char) :
    parseStringBody ('\\' :: 'u' :: h1 :: h2 :: h3 :: h4 :: x) =
      (if isHex h1 && isHex h2 && isHex h3 && isHex h4 then
        (parseStringBody x).map (fun p => (uChar h1 h2 h3 h4 :: p.1, p.2))
      else Option.none) := rfl

theorem isHex_ne_bs (c : Char) (h : isHex c = true) : c ≠ '\\' := by
  intro hc
  subst hc
  exact absurd h (by decide)

theorem isSimpleEsc_ne_u (e : Char) (h : isSimpleEsc e = true) : e ≠ 'u' := by
  intro he
  subst he
  exact absurd h (by decide)

theorem parseStringBody_quote (x : List Char) :
    parseStringBody ('"' :: x) = some ([], x) := by
  conv_lhs => unfold parseStringBody
  rfl

theorem parseStringBody_bs_nil : parseStringBody ['\\'] = Option.none := by
  conv_lhs => unfold parseStringBody
  rfl

theorem parseStringBody_bs (e : Char) (rr : List Char) :
    parseStringBody ('\\' :: e :: rr) =
      (if isSimpleEsc e then (parseStringBody rr).map (fun p => (escChar e :: p.1, p.2))
       else if e == 'u' then
         match rr with
         | h1 :: h2 :: h3 :: h4 :: r2 =>
           if isHex h1 && isHex h2 && isHex h3 && isHex h4 then
             (parseStringBody r2).map (fun p => (uChar h1 h2 h3 h4 :: p.1, p.2))
           else Option.none
         | _ => Option.none
       else Option.none) := by
  conv_lhs => unfold parseStringBody
  rfl

theorem parseStringBody_other (c : Char) (rest : List Char) (h1 : c ≠ '"') (h2 : c ≠ '\\') :
    parseStringBody (c :: rest) =
      (if 0x20 ≤ c.toNat then (parseStringBody rest).map (fun p => (c :: p.1, p.2))
       else Option.none) := by
  rw [parseStringBody_cons, if_bool_false _ _ (by simpa using h1),
    if_bool_false _ _ (by simpa using h2)]

theorem parseStringBody_subNT : ∀ n l s r, l.length ≤ n →
    parseStringBody l = some (s, r) → ntClean l = true →
    (∃ s', parseStringBody (subNT l) = some (s', subNT r)) ∧ ntClean r = true := by
  intro n
  induction n with
  | zero =>
    intro l s r hlen hp _
    have : l = [] := List.length_eq_zero.mp (Nat.le_zero.mp hlen)
    subst this
    cases hp
  | succ n ih =>
    intro l s r hlen hp hc
    cases l with
    | nil => cases hp
    | cons c rest =>
      by_cases hq : c = '"'
      · subst hq
        rw [parseStringBody_quote] at hp
        simp only [Option.some.injEq, Prod.mk.injEq] at hp
        obtain ⟨-, rfl⟩ := hp
        refine ⟨⟨[], ?_⟩, by rwa [ntClean_cons_ne _ _ (by decide)] at hc⟩
        rw [subNT_cons_ne _ _ (by decide), parseStringBody_quote]
      · by_cases hbs : c = '\\'
        · subst hbs
          cases rest with
          | nil => rw [parseStringBody_bs_nil] at hp; cases hp
          | cons e rr =>
            rw [parseStringBody_bs] at hp
            by_cases hesc : isSimpleEsc e = true
            · rw [if_bool_true _ _ hesc] at hp
              rw [Option.map_eq_some'] at hp
              obtain ⟨p, hp1, hp2⟩ := hp
              simp only [Prod.mk.injEq] at hp2
              obtain ⟨-, rfl⟩ := hp2
              have hlen2 : rr.length ≤ n := by simp at hlen; omega
              by_cases hen : e = 'n'
              · subst hen
                have hcc := ntClean_bs_other 'n' rr (by decide) hc
                obtain ⟨⟨s2, hps⟩, hntr⟩ := ih rr p.1 p.2 hlen2 hp1 hcc
                refine ⟨⟨' ' :: s2, ?_⟩, hntr⟩
                rw [subNT_bs_n, parseStringBody_other ' ' _ (by decide) (by decide),
                  if_pos (by decide), hps]
                rfl
              · by_cases het : e = 't'
                · subst het
                  have hcc := ntClean_bs_other 't' rr (by decide) hc
                  obtain ⟨⟨s2, hps⟩, hntr⟩ := ih rr p.1 p.2 hlen2 hp1 hcc
                  refine ⟨⟨' ' :: s2, ?_⟩, hntr⟩
                  rw [subNT_bs_t, parseStringBody_other ' ' _ (by decide) (by decide),
                    if_pos (by decide), hps]
                  rfl
                · by_cases hebs : e = '\\'
                  · subst hebs
                    obtain ⟨hhead, hcc⟩ := ntClean_bs_bs rr hc
                    obtain ⟨⟨s2, hps⟩, hntr⟩ := ih rr p.1 p.2 hlen2 hp1 hcc
                    refine ⟨⟨escChar '\\' :: s2, ?_⟩, hntr⟩
                    rw [subNT_bs_bs rr hhead, parseStringBody_bs,
                      if_bool_true _ _ (show isSimpleEsc '\\' = true by decide), hps]
                    rfl
                  · have hcc := ntClean_bs_other e rr hebs hc
                    obtain ⟨⟨s2, hps⟩, hntr⟩ := ih rr p.1 p.2 hlen2 hp1 hcc
                    refine ⟨⟨escChar e :: s2, ?_⟩, hntr⟩
                    rw [subNT_bs_pair e rr hen het, subNT_cons_ne e rr hebs,
                      parseStringBody_bs, if_bool_true _ _ hesc, hps]
                    rfl
            · rw [if_bool_false _ _ (by simpa using hesc)] at hp
              by_cases heu : e = 'u'
              · subst heu
                rw [if_bool_true _ _ (by rfl)] at hp
                match rr with
                | [] => cases hp
                | [h1] => cases hp
                | [h1, h2] => cases hp
                | [h1, h2, h3] => cases hp
                | h1 :: h2 :: h3 :: h4 :: r2 =>
                  replace hp : (if (isHex h1 && isHex h2 && isHex h3 && isHex h4) = true
                      then (parseStringBody r2).map (fun p => (uChar h1 h2 h3 h4 :: p.1, p.2))
                      else Option.none) = some (s, r) := hp
                  by_cases hhex : (isHex h1 && isHex h2 && isHex h3 && isHex h4) = true
                  · rw [if_bool_true _ _ hhex] at hp
                    rw [Option.map_eq_some'] at hp
                    obtain ⟨p, hp1, hp2⟩ := hp
                    simp only [Prod.mk.injEq] at hp2
                    obtain ⟨-, rfl⟩ := hp2
                    have hx1 : isHex h1 = true := by
                      simp only [Bool.and_eq_true] at hhex; exact hhex.1.1.1
                    have hx2 : isHex h2 = true := by
                      simp only [Bool.and_eq_true] at hhex; exact hhex.1.1.2
                    have hx3 : isHex h3 = true := by
                      simp only [Bool.and_eq_true] at hhex; exact hhex.1.2
                    have hx4 : isHex h4 = true := by
                      simp only [Bool.and_eq_true] at hhex; exact hhex.2
                    have hcc : ntClean r2 = true := by
                      have h0 := ntClean_bs_other 'u' (h1 :: h2 :: h3 :: h4 :: r2) (by decide) hc
                      rw [ntClean_cons_ne _ _ (isHex_ne_bs h1 hx1),
                        ntClean_cons_ne _ _ (isHex_ne_bs h2 hx2),
                        ntClean_cons_ne _ _ (isHex_ne_bs h3 hx3),
                        ntClean_cons_ne _ _ (isHex_ne_bs h4 hx4)] at h0
                      exact h0
                    have hlen2 : r2.length ≤ n := by simp at hlen; omega
                    obtain ⟨⟨s2, hps⟩, hntr⟩ := ih r2 p.1 p.2 hlen2 hp1 hcc
                    refine ⟨⟨uChar h1 h2 h3 h4 :: s2, ?_⟩, hntr⟩
                    rw [subNT_bs_pair 'u' _ (by decide) (by decide),
                      subNT_cons_ne 'u' _ (by decide),
                      subNT_cons_ne h1 _ (isHex_ne_bs h1 hx1),
                      subNT_cons_ne h2 _ (isHex_ne_bs h2 hx2),
                      subNT_cons_ne h3 _ (isHex_ne_bs h3 hx3),
                      subNT_cons_ne h4 _ (isHex_ne_bs h4 hx4),
                      parseStringBody_u, if_bool_true _ _ hhex, hps]
                    rfl
                  · rw [if_bool_false _ _ (by simpa using hhex)] at hp
                    cases hp
              · rw [if_bool_false _ _ (by simpa using heu)] at hp
                cases hp
        · rw [parseStringBody_other c rest hq hbs] at hp
          by_cases h20 : 0x20 ≤ c.toNat
          · rw [if_pos h20] at hp
            rw [Option.map_eq_some'] at hp
            obtain ⟨p, hp1, hp2⟩ := hp
            simp only [Prod.mk.injEq] at hp2
            obtain ⟨-, rfl⟩ := hp2
            have hlen2 : rest.length ≤ n := by simp at hlen; omega
            have hcc : ntClean rest = true := by rwa [ntClean_cons_ne c rest hbs] at hc
            obtain ⟨⟨s2, hps⟩, hntr⟩ := ih rest p.1 p.2 hlen2 hp1 hcc
            refine ⟨⟨c :: s2, ?_⟩, hntr⟩
            rw [subNT_cons_ne c rest hbs, parseStringBody_other c _ hq hbs,
              if_pos h20, hps]
            rfl
          · rw [if_neg h20] at hp
            cases hp

theorem takeWhile_subNT (p : Char → Bool) (hbs : p '\\' = false) (hsp : p ' ' = false) :
    ∀ l : List Char, (subNT l).takeWhile p = l.takeWhile p := by
  intro l
  induction l with
  | nil => rfl
  | cons c rest ih =>
    by_cases hpc : p c = true
    · have hcbs : c ≠ '\\' := by
        intro h; subst h; rw [hbs] at hpc; cases hpc
      rw [subNT_cons_ne c rest hcbs, List.takeWhile_cons_of_pos hpc,
        List.takeWhile_cons_of_pos hpc, ih]
    · obtain ⟨x, hx | hx⟩ := subNT_head_shape c rest
      · rw [hx, List.takeWhile_cons_of_neg (by simpa using hpc),
          List.takeWhile_cons_of_neg (by simpa using hpc)]
      · rw [hx, List.takeWhile_cons_of_neg (by simp [hsp]),
          List.takeWhile_cons_of_neg (by simpa using hpc)]

theorem dropWhile_subNT (p : Char → Bool) (hbs : p '\\' = false) (hsp : p ' ' = false) :
    ∀ l : List Char, (subNT l).dropWhile p = subNT (l.dropWhile p) := by
  intro l
  induction l with
  | nil => rfl
  | cons c rest ih =>
    by_cases hpc : p c = true
    · have hcbs : c ≠ '\\' := by
        intro h; subst h; rw [hbs] at hpc; cases hpc
      rw [subNT_cons_ne c rest hcbs, List.dropWhile_cons_of_pos hpc,
        List.dropWhile_cons_of_pos hpc, ih]
    · rw [List.dropWhile_cons_of_neg (by simpa using hpc)]
      obtain ⟨x, hx | hx⟩ := subNT_head_shape c rest
      · rw [hx, List.dropWhile_cons_of_neg (by simpa using hpc), ← hx]
      · rw [hx, List.dropWhile_cons_of_neg (by simp [hsp]), ← hx]

theorem drop_takeWhile_subNT (p : Char → Bool) (hbs : p '\\' = false) (hsp : p ' ' = false)
    (l : List Char) :
    (subNT l).drop ((subNT l).takeWhile p).length = subNT (l.drop (l.takeWhile p).length) := by
  rw [drop_length_takeWhile, drop_length_takeWhile, dropWhile_subNT p hbs hsp]

theorem fracPart_dot (r2 : List Char) :
    fracPart ('.' :: r2) =
      (if (r2.takeWhile Char.isDigit).isEmpty then (([] : List Char), '.' :: r2)
       else ('.' :: r2.takeWhile Char.isDigit, r2.drop (r2.takeWhile Char.isDigit).length)) := rfl

theorem fracPart_ne_dot (c : Char) (r2 : List Char) (hc : c ≠ '.') :
    fracPart (c :: r2) = ([], c :: r2) := by
  unfold fracPart
  split
  · rename_i heq
    cases heq
    exact absurd rfl hc
  · rfl

theorem expPart_plus (e : Char) (r4 : List Char) :
    expPart (e :: '+' :: r4) =
      (if e == 'e' || e == 'E' then
        (if (r4.takeWhile Char.isDigit).isEmpty then (([] : List Char), e :: '+' :: r4)
         else (e :: '+' :: r4.takeWhile Char.isDigit, r4.drop (r4.takeWhile Char.isDigit).length))
      else ([], e :: '+' :: r4)) := rfl

theorem expPart_minus (e : Char) (r4 : List Char) :
    expPart (e :: '-' :: r4) =
      (if e == 'e' || e == 'E' then
        (if (r4.takeWhile Char.isDigit).isEmpty then (([] : List Char), e :: '-' :: r4)
         else (e :: '-' :: r4.takeWhile Char.isDigit, r4.drop (r4.takeWhile Char.isDigit).length))
      else ([], e :: '-' :: r4)) := rfl

theorem expPart_single (e : Char) : expPart [e] = ([], [e]) := by
  unfold expPart
  split
  · rename_i heq; cases heq
  · rename_i heq; cases heq
  · rename_i heq
    cases heq
    by_cases he : (e == 'e' || e == 'E') = true
    · rw [if_bool_true _ _ he]
      simp
    · rw [if_bool_false _ _ (by simpa using he)]
  · rename_i heq; cases heq

theorem expPart_other (e y : Char) (r3 : List Char) (hy1 : y ≠ '+') (hy2 : y ≠ '-') :
    expPart (e :: y :: r3) =
      (if e == 'e' || e == 'E' then
        (if ((y :: r3).takeWhile Char.isDigit).isEmpty then (([] : List Char), e :: y :: r3)
         else (e :: (y :: r3).takeWhile Char.isDigit,
           (y :: r3).drop ((y :: r3).takeWhile Char.isDigit).length))
      else ([], e :: y :: r3)) := by
  unfold expPart
  split
  · rename_i heq
    cases heq
    exact absurd rfl hy1
  · rename_i heq
    cases heq
    exact absurd rfl hy2
  · rename_i heq
    cases heq
    rfl
  · rename_i heq; cases heq

theorem fracPart_subNT (x : List Char) :
    fracPart (subNT x) = ((fracPart x).1, subNT (fracPart x).2) := by
  cases x with
  | nil => rfl
  | cons c r2 =>
    by_cases hc : c = '.'
    · subst hc
      rw [subNT_cons_ne '.' r2 (by decide), fracPart_dot, fracPart_dot,
        takeWhile_subNT Char.isDigit (by decide) (by decide) r2]
      by_cases hds : (r2.takeWhile Char.isDigit).isEmpty = true
      · rw [if_bool_true _ _ hds, if_bool_true _ _ hds]
        rw [subNT_cons_ne '.' r2 (by decide)]
      · rw [if_bool_false _ _ (by simpa using hds), if_bool_false _ _ (by simpa using hds)]
        have h := drop_takeWhile_subNT Char.isDigit (by decide) (by decide) r2
        rw [takeWhile_subNT Char.isDigit (by decide) (by decide) r2] at h
        rw [h]
    · rw [fracPart_ne_dot c r2 hc]
      obtain ⟨x0, hx | hx⟩ := subNT_head_shape c r2
      · rw [hx, fracPart_ne_dot c x0 hc, ← hx]
      · rw [hx, fracPart_ne_dot ' ' x0 (by decide), ← hx]

theorem expPart_head_ne (y : List Char)
    (h : ∀ c ∈ y.head?, (c == 'e' || c == 'E') = false) :
    expPart y = ([], y) := by
  cases y with
  | nil => rfl
  | cons e x1 =>
    have he := h e (by simp)
    cases x1 with
    | nil =>
      rw [expPart_single]
    | cons y r3 =>
      by_cases hy1 : y = '+'
      · subst hy1
        rw [expPart_plus, if_bool_false _ _ he]
      · by_cases hy2 : y = '-'
        · subst hy2
          rw [expPart_minus, if_bool_false _ _ he]
        · rw [expPart_other e y r3 hy1 hy2, if_bool_false _ _ he]

theorem expPart_subNT (x : List Char) :
    expPart (subNT x) = ((expPart x).1, subNT (expPart x).2) := by
  have hdigit := takeWhile_subNT Char.isDigit (by decide) (by decide)
  have hdrop : ∀ r : List Char, (subNT r).drop (r.takeWhile Char.isDigit).length
      = subNT (r.drop (r.takeWhile Char.isDigit).length) := by
    intro r
    have h := drop_takeWhile_subNT Char.isDigit (by decide) (by decide) r
    rwa [hdigit r] at h
  cases x with
  | nil => rfl
  | cons e x1 =>
    by_cases he : (e == 'e' || e == 'E') = true
    · have hebs : e ≠ '\\' := by
        intro hh; subst hh; exact absurd he (by decide)
      rw [subNT_cons_ne e x1 hebs]
      cases x1 with
      | nil =>
        rw [show subNT ([] : List Char) = [] from rfl, expPart_single]
        rfl
      | cons y r3 =>
        by_cases hy1 : y = '+'
        · subst hy1
          rw [subNT_cons_ne '+' r3 (by decide), expPart_plus, expPart_plus,
            if_bool_true _ _ he, if_bool_true _ _ he, hdigit r3]
          by_cases hds : (r3.takeWhile Char.isDigit).isEmpty = true
          · rw [if_bool_true _ _ hds, if_bool_true _ _ hds,
              subNT_cons_ne e ('+' :: r3) hebs, subNT_cons_ne '+' r3 (by decide)]
          · rw [if_bool_false _ _ (by simpa using hds),
              if_bool_false _ _ (by simpa using hds), hdrop r3]
        · by_cases hy2 : y = '-'
          · subst hy2
            rw [subNT_cons_ne '-' r3 (by decide), expPart_minus, expPart_minus,
              if_bool_true _ _ he, if_bool_true _ _ he, hdigit r3]
            by_cases hds : (r3.takeWhile Char.isDigit).isEmpty = true
            · rw [if_bool_true _ _ hds, if_bool_true _ _ hds,
                subNT_cons_ne e ('-' :: r3) hebs, subNT_cons_ne '-' r3 (by decide)]
            · rw [if_bool_false _ _ (by simpa using hds),
                if_bool_false _ _ (by simpa using hds), hdrop r3]
          · obtain ⟨x0, hx | hx⟩ := subNT_head_shape y r3
            · rw [hx, expPart_other e y x0 hy1 hy2, expPart_other e y r3 hy1 hy2,
                if_bool_true _ _ he, if_bool_true _ _ he, ← hx, hdigit (y :: r3)]
              by_cases hds : (((y :: r3)).takeWhile Char.isDigit).isEmpty = true
              · rw [if_bool_true _ _ hds, if_bool_true _ _ hds,
                  subNT_cons_ne e (y :: r3) hebs]
              · rw [if_bool_false _ _ (by simpa using hds),
                  if_bool_false _ _ (by simpa using hds), hdrop (y :: r3)]
            · rw [hx, expPart_other e ' ' x0 (by decide) (by decide),
                expPart_other e y r3 hy1 hy2,
                if_bool_true _ _ he, if_bool_true _ _ he, ← hx, hdigit (y :: r3)]
              by_cases hds : (((y :: r3)).takeWhile Char.isDigit).isEmpty = true
              · rw [if_bool_true _ _ hds, if_bool_true _ _ hds,
                  subNT_cons_ne e (y :: r3) hebs]
              · rw [if_bool_false _ _ (by simpa using hds),
                  if_bool_false _ _ (by simpa using hds), hdrop (y :: r3)]
    · have hexp : expPart (e :: x1) = ([], e :: x1) :=
        expPart_head_ne (e :: x1) (by intro c hc0; simp at hc0; subst hc0; simpa using he)
      rw [hexp]
      obtain ⟨x0, hx | hx⟩ := subNT_head_shape e x1
      · rw [hx, expPart_head_ne (e :: x0) (by intro c hc0; simp at hc0; subst hc0; simpa using he),
          ← hx]
      · rw [hx, expPart_head_ne (' ' :: x0) (by intro c hc0; simp at hc0; subst hc0; decide),
          ← hx]

theorem takeWhile_drop_decomp (p : Char → Bool) (l : List Char) :
    l = l.takeWhile p ++ l.drop (l.takeWhile p).length := by
  rw [drop_length_takeWhile]
  exact (List.takeWhile_append_dropWhile p l).symm

theorem ntClean_append_left (a r : List Char) (h : '\\' ∉ a) :
    ntClean (a ++ r) = ntClean r := by
  induction a with
  | nil => rfl
  | cons c a2 ih =>
    have hc : c ≠ '\\' := fun hcc => h (by simp [hcc])
    rw [List.cons_append, ntClean_cons_ne c _ hc, ih (fun hm => h (by simp [hm]))]

theorem intPart_subNT (c : Char) (r1 : List Char) :
    intPart c (subNT r1) = ((intPart c r1).1, subNT (intPart c r1).2) := by
  unfold intPart
  by_cases hc : (c == '0') = true
  · rw [if_bool_true _ _ hc, if_bool_true _ _ hc]
  · rw [if_bool_false _ _ (by simpa using hc), if_bool_false _ _ (by simpa using hc),
      takeWhile_subNT Char.isDigit (by decide) (by decide) r1]
    have h := drop_takeWhile_subNT Char.isDigit (by decide) (by decide) r1
    rw [takeWhile_subNT Char.isDigit (by decide) (by decide) r1] at h
    rw [h]

theorem intPart_decomp (c : Char) (r1 : List Char) (hd : (c == '0' || c.isDigit) = true) :
    c :: r1 = (intPart c r1).1 ++ (intPart c r1).2 ∧ '\\' ∉ (intPart c r1).1 := by
  unfold intPart
  by_cases hc : (c == '0') = true
  · rw [if_bool_true _ _ hc]
    have : c = '0' := by simpa using hc
    subst this
    exact ⟨rfl, by simp⟩
  · rw [if_bool_false _ _ (by simpa using hc)]
    constructor
    · rw [List.cons_append]
      exact congrArg (c :: ·) (takeWhile_drop_decomp Char.isDigit r1)
    · intro hm
      rcases List.mem_cons.mp hm with hm | hm
      · have hcd : c.isDigit = true := by
          rcases Bool.or_eq_true _ _ |>.mp hd with h0 | h0
          · exact absurd h0 hc
          · exact h0
        rw [← hm] at hcd
        exact absurd hcd (by decide)
      · have := List.mem_takeWhile_imp hm
        exact absurd this (by decide)

theorem fracPart_decomp (x : List Char) :
    x = (fracPart x).1 ++ (fracPart x).2 ∧ '\\' ∉ (fracPart x).1 := by
  cases x with
  | nil => exact ⟨rfl, by simp [fracPart]⟩
  | cons c r2 =>
    by_cases hc : c = '.'
    · subst hc
      rw [fracPart_dot]
      by_cases hds : (r2.takeWhile Char.isDigit).isEmpty = true
      · rw [if_bool_true _ _ hds]
        exact ⟨rfl, by simp⟩
      · rw [if_bool_false _ _ (by simpa using hds)]
        refine ⟨?_, ?_⟩
        · rw [List.cons_append]
          exact congrArg ('.' :: ·) (takeWhile_drop_decomp Char.isDigit r2)
        · intro hm
          rcases List.mem_cons.mp hm with hm | hm
          · cases hm
          · exact absurd (List.mem_takeWhile_imp hm) (by decide)
    · rw [fracPart_ne_dot c r2 hc]
      exact ⟨rfl, by simp⟩

theorem expPart_decomp (x : List Char) :
    x = (expPart x).1 ++ (expPart x).2 ∧ '\\' ∉ (expPart x).1 := by
  cases x with
  | nil => exact ⟨rfl, by simp [expPart]⟩
  | cons e x1 =>
    by_cases he : (e == 'e' || e == 'E') = true
    · have hee : e ≠ '\\' := by
        intro hh; subst hh; exact absurd he (by decide)
      have hnbs : ∀ ds : List Char, (∀ d ∈ ds, Char.isDigit d = true) → '\\' ∉ e :: ds := by
        intro ds hds hm
        rcases List.mem_cons.mp hm with hm | hm
        · exact hee hm.symm
        · exact absurd (hds _ hm) (by decide)
      cases x1 with
      | nil => rw [expPart_single]; exact ⟨rfl, by simp⟩
      | cons y r3 =>
        by_cases hy1 : y = '+'
        · subst hy1
          rw [expPart_plus, if_bool_true _ _ he]
          by_cases hds : (r3.takeWhile Char.isDigit).isEmpty = true
          · rw [if_bool_true _ _ hds]; exact ⟨rfl, by simp⟩
          · rw [if_bool_false _ _ (by simpa using hds)]
            refine ⟨?_, ?_⟩
            · rw [List.cons_append, List.cons_append]
              exact congrArg (e :: '+' :: ·) (takeWhile_drop_decomp Char.isDigit r3)
            · intro hm
              rcases List.mem_cons.mp hm with hm | hm
              · exact hee hm.symm
              · rcases List.mem_cons.mp hm with hm | hm
                · cases hm
                · exact absurd (List.mem_takeWhile_imp hm) (by decide)
        · by_cases hy2 : y = '-'
          · subst hy2
            rw [expPart_minus, if_bool_true _ _ he]
            by_cases hds : (r3.takeWhile Char.isDigit).isEmpty = true
            · rw [if_bool_true _ _ hds]; exact ⟨rfl, by simp⟩
            · rw [if_bool_false _ _ (by simpa using hds)]
              refine ⟨?_, ?_⟩
              · rw [List.cons_append, List.cons_append]
                exact congrArg (e :: '-' :: ·) (takeWhile_drop_decomp Char.isDigit r3)
              · intro hm
                rcases List.mem_cons.mp hm with hm | hm
                · exact hee hm.symm
                · rcases List.mem_cons.mp hm with hm | hm
                  · cases hm
                  · exact absurd (List.mem_takeWhile_imp hm) (by decide)
          · rw [expPart_other e y r3 hy1 hy2, if_bool_true _ _ he]
            by_cases hds : (((y :: r3)).takeWhile Char.isDigit).isEmpty = true
            · rw [if_bool_true _ _ hds]; exact ⟨rfl, by simp⟩
            · rw [if_bool_false _ _ (by simpa using hds)]
              refine ⟨?_, ?_⟩
              · rw [List.cons_append]
                exact congrArg (e :: ·) (takeWhile_drop_decomp Char.isDigit (y :: r3))
              · exact hnbs _ (fun d hd => List.mem_takeWhile_imp hd)
    · rw [expPart_head_ne (e :: x1)
        (by intro c hc0; simp at hc0; subst hc0; simpa using he)]
      exact ⟨rfl, by simp⟩

theorem numFromParts_some (neg : Bool) (a b c rest : List Char) (v : PyVal) (r : List Char)
    (hp : numFromParts neg a b c rest = some (v, r)) :
    r = rest ∧ numFromParts neg a b c (subNT rest) = some (v, subNT rest) := by
  unfold numFromParts at hp ⊢
  by_cases hbc : (b.isEmpty && c.isEmpty) = true
  · rw [if_bool_true _ _ hbc] at hp ⊢
    simp only [Option.some.injEq, Prod.mk.injEq] at hp
    obtain ⟨hv, hr⟩ := hp
    subst hv
    exact ⟨hr.symm, rfl⟩
  · rw [if_bool_false _ _ (by simpa using hbc)] at hp ⊢
    simp only [Option.some.injEq, Prod.mk.injEq] at hp
    obtain ⟨hv, hr⟩ := hp
    subst hv
    exact ⟨hr.symm, rfl⟩

theorem parseNumBody_cons (neg : Bool) (c : Char) (r1 : List Char) :
    parseNumBody neg (c :: r1) =
      (if c == '0' || c.isDigit then
        numFromParts neg (intPart c r1).1 (fracPart (intPart c r1).2).1
          (expPart (fracPart (intPart c r1).2).2).1
          (expPart (fracPart (intPart c r1).2).2).2
      else Option.none) := rfl

theorem parseNumBody_subNT (neg : Bool) (l1 : List Char) (v : PyVal) (r : List Char)
    (hp : parseNumBody neg l1 = some (v, r)) :
    parseNumBody neg (subNT l1) = some (v, subNT r) ∧
      ∃ a, l1 = a ++ r ∧ '\\' ∉ a := by
  cases l1 with
  | nil => cases hp
  | cons c r1 =>
    rw [parseNumBody_cons] at hp
    by_cases hd : (c == '0' || c.isDigit) = true
    · rw [if_bool_true _ _ hd] at hp
      have hcbs : c ≠ '\\' := by
        intro hh
        subst hh
        exact absurd hd (by decide)
      obtain ⟨hr, -⟩ := numFromParts_some _ _ _ _ _ _ _ hp
      subst hr
      obtain ⟨hidec, hibs⟩ := intPart_decomp c r1 hd
      obtain ⟨hfdec, hfbs⟩ := fracPart_decomp (intPart c r1).2
      obtain ⟨hedec, hebs⟩ := expPart_decomp (fracPart (intPart c r1).2).2
      constructor
      · rw [subNT_cons_ne c r1 hcbs, parseNumBody_cons, if_bool_true _ _ hd,
          intPart_subNT, fracPart_subNT, expPart_subNT]
        exact (numFromParts_some _ _ _ _ _ _ _ hp).2
      · set i1 := (intPart c r1).1 with hi1
        set i2 := (intPart c r1).2 with hi2
        set f1 := (fracPart i2).1 with hf1
        set f2 := (fracPart i2).2 with hf2
        set e1 := (expPart f2).1 with he1
        set e2 := (expPart f2).2 with he2
        refine ⟨i1 ++ f1 ++ e1, ?_, ?_⟩
        · rw [hidec, hfdec, hedec]
          simp [List.append_assoc]
        · intro hm
          simp only [List.mem_append] at hm
          rcases hm with (hm | hm) | hm
          · exact hibs hm
          · exact hfbs hm
          · exact hebs hm
    · rw [if_bool_false _ _ (by simpa using hd)] at hp
      cases hp

theorem parseNumber_subNT (l : List Char) (v : PyVal) (r : List Char)
    (hp : parseNumber l = some (v, r)) :
    parseNumber (subNT l) = some (v, subNT r) ∧ ∃ a, l = a ++ r ∧ '\\' ∉ a := by
  cases l with
  | nil => cases hp
  | cons c l0 =>
    by_cases hc : c = '-'
    · subst hc
      replace hp : parseNumBody true l0 = some (v, r) := hp
      obtain ⟨h1, a, ha, hbs⟩ := parseNumBody_subNT true l0 v r hp
      rw [subNT_cons_ne '-' l0 (by decide)]
      refine ⟨h1, '-' :: a, by rw [ha]; rfl, ?_⟩
      intro hm
      rcases List.mem_cons.mp hm with hm | hm
      · cases hm
      · exact hbs hm
    · have hpe : parseNumber (c :: l0) = parseNumBody false (c :: l0) := by
        unfold parseNumber
        split
        · rename_i heq
          cases heq
          exact absurd rfl hc
        · rfl
      rw [hpe] at hp
      obtain ⟨h1, a, ha, hbs⟩ := parseNumBody_subNT false (c :: l0) v r hp
      constructor
      · have hpe2 : parseNumber (subNT (c :: l0)) = parseNumBody false (subNT (c :: l0)) := by
          obtain ⟨x0, hx | hx⟩ := subNT_head_shape c l0
          · rw [hx]
            unfold parseNumber
            split
            · rename_i heq
              cases heq
              exact absurd rfl hc
            · rfl
          · rw [hx]
            unfold parseNumber
            split
            · rename_i heq
              cases heq
            · rfl
        rw [hpe2]
        exact h1
      · exact ⟨a, ha, hbs⟩

theorem parseValue_zero (l : List Char) : parseValue 0 l = Option.none := rfl

theorem parseValue_succ_nil (fuel : Nat) : parseValue (fuel + 1) [] = Option.none := rfl

theorem parseValue_quote (fuel : Nat) (x : List Char) :
    parseValue (fuel + 1) ('"' :: x) =
      (parseStringBody x).map (fun p => (.str p.1, p.2)) := rfl

theorem parseValue_obj (fuel : Nat) (x : List Char) :
    parseValue (fuel + 1) ('\x7b' :: x) =
      (parseMembers fuel true (skipWs x)).map (fun p => (.dict p.1, p.2)) := rfl

theorem parseValue_arr (fuel : Nat) (x : List Char) :
    parseValue (fuel + 1) ('[' :: x) =
      (parseItems fuel true (skipWs x)).map (fun p => (.list p.1, p.2)) := rfl

theorem parseValue_t (fuel : Nat) (x : List Char) :
    parseValue (fuel + 1) ('t' :: x) =
      (match x with
       | 'r' :: 'u' :: 'e' :: r => some (.bool true, r)
       | _ => Option.none) := rfl

theorem parseValue_f (fuel : Nat) (x : List Char) :
    parseValue (fuel + 1) ('f' :: x) =
      (match x with
       | 'a' :: 'l' :: 's' :: 'e' :: r => some (.bool false, r)
       | _ => Option.none) := rfl

theorem parseValue_n (fuel : Nat) (x : List Char) :
    parseValue (fuel + 1) ('n' :: x) =
      (match x with
       | 'u' :: 'l' :: 'l' :: r => some (.none, r)
       | _ => Option.none) := rfl

theorem parseValue_N (fuel : Nat) (x : List Char) :
    parseValue (fuel + 1) ('N' :: x) =
      (match x with
       | 'a' :: 'N' :: r => some (.float (chars "NaN"), r)
       | _ => Option.none) := rfl

theorem parseValue_I (fuel : Nat) (x : List Char) :
    parseValue (fuel + 1) ('I' :: x) =
      (match x with
       | 'n' :: 'f' :: 'i' :: 'n' :: 'i' :: 't' :: 'y' :: r =>
         some (.float (chars "Infinity"), r)
       | _ => Option.none) := rfl

set_option maxHeartbeats 1600000 in
theorem parseValue_succ_cons (fuel : Nat) (c : Char) (rest : List Char) :
    parseValue (fuel + 1) (c :: rest) =
      (if c == '"' then (parseStringBody rest).map (fun p => (.str p.1, p.2))
       else if c == '\x7b' then
         (parseMembers fuel true (skipWs rest)).map (fun p => (.dict p.1, p.2))
       else if c == '[' then
         (parseItems fuel true (skipWs rest)).map (fun p => (.list p.1, p.2))
       else if c == 't' then
         match rest with
         | 'r' :: 'u' :: 'e' :: r => some (.bool true, r)
         | _ => Option.none
       else if c == 'f' then
         match rest with
         | 'a' :: 'l' :: 's' :: 'e' :: r => some (.bool false, r)
         | _ => Option.none
       else if c == 'n' then
         match rest with
         | 'u' :: 'l' :: 'l' :: r => some (.none, r)
         | _ => Option.none
       else if c == 'N' then
         match rest with
         | 'a' :: 'N' :: r => some (.float (chars "NaN"), r)
         | _ => Option.none
       else if c == 'I' then
         match rest with
         | 'n' :: 'f' :: 'i' :: 'n' :: 'i' :: 't' :: 'y' :: r =>
           some (.float (chars "Infinity"), r)
         | _ => Option.none
       else if c == '-' && (match rest with
           | 'I' :: _ => true
           | _ => false) then
         match rest with
         | 'I' :: 'n' :: 'f' :: 'i' :: 'n' :: 'i' :: 't' :: 'y' :: r =>
           some (.float (chars "-Infinity"), r)
         | _ => Option.none
       else parseNumber (c :: rest)) := by
  conv_lhs => unfold parseValue

theorem parseValue_true_full (fuel : Nat) (x : List Char) :
    parseValue (fuel + 1) ('t' :: 'r' :: 'u' :: 'e' :: x) = some (.bool true, x) := rfl

theorem parseValue_false_full (fuel : Nat) (x : List Char) :
    parseValue (fuel + 1) ('f' :: 'a' :: 'l' :: 's' :: 'e' :: x) = some (.bool false, x) := rfl

theorem parseValue_null_full (fuel : Nat) (x : List Char) :
    parseValue (fuel + 1) ('n' :: 'u' :: 'l' :: 'l' :: x) = some (.none, x) := rfl

theorem parseValue_nan_full (fuel : Nat) (x : List Char) :
    parseValue (fuel + 1) ('N' :: 'a' :: 'N' :: x) = some (.float (chars "NaN"), x) := rfl

theorem parseValue_inf_full (fuel : Nat) (x : List Char) :
    parseValue (fuel + 1) ('I' :: 'n' :: 'f' :: 'i' :: 'n' :: 'i' :: 't' :: 'y' :: x) =
      some (.float (chars "Infinity"), x) := rfl

theorem parseValue_neginf_full (fuel : Nat) (x : List Char) :
    parseValue (fuel + 1)
        ('-' :: 'I' :: 'n' :: 'f' :: 'i' :: 'n' :: 'i' :: 't' :: 'y' :: x) =
      some (.float (chars "-Infinity"), x) := rfl

theorem parseValue_other (fuel : Nat) (c : Char) (rest : List Char)
    (h1 : (c == '"') = false) (h2 : (c == '\x7b') = false) (h3 : (c == '[') = false)
    (h4 : (c == 't') = false) (h5 : (c == 'f') = false) (h6 : (c == 'n') = false)
    (h7 : (c == 'N') = false) (h8 : (c == 'I') = false)
    (h9 : (c == '-' && (match rest with
      | 'I' :: _ => true
      | _ => false)) = false) :
    parseValue (fuel + 1) (c :: rest) = parseNumber (c :: rest) := by
  rw [parseValue_succ_cons, if_bool_false _ _ h1, if_bool_false _ _ h2,
    if_bool_false _ _ h3, if_bool_false _ _ h4, if_bool_false _ _ h5,
    if_bool_false _ _ h6, if_bool_false _ _ h7, if_bool_false _ _ h8,
    if_bool_false _ _ h9]

theorem parseMembers_zero (first : Bool) (l : List Char) :
    parseMembers 0 first l = Option.none := rfl

theorem parseItems_zero (first : Bool) (l : List Char) :
    parseItems 0 first l = Option.none := rfl


theorem parseValue_nil (fuel : Nat) : parseValue fuel [] = Option.none := by
  cases fuel <;> rfl

theorem memColon_colon (r2 : List Char) : memColon (':' :: r2) = some r2 := rfl

theorem memColon_ne (c : Char) (r2 : List Char) (hc : c ≠ ':') :
    memColon (c :: r2) = Option.none := by
  unfold memColon
  split
  · rename_i heq
    cases heq
    exact absurd rfl hc
  · rfl

theorem memSep_comma (r : List Char) : memSep (',' :: r) = some (true, r) := rfl

theorem memSep_brace (r : List Char) : memSep ('\x7d' :: r) = some (false, r) := rfl

theorem itemSep_comma (r : List Char) : itemSep (',' :: r) = some (true, r) := rfl

theorem itemSep_bracket (r : List Char) : itemSep (']' :: r) = some (false, r) := rfl

theorem parseMembers_brace (fuel : Nat) (first : Bool) (rest : List Char) :
    parseMembers (fuel + 1) first ('\x7d' :: rest) =
      if first then some ([], rest) else Option.none := rfl

theorem parseMembers_quote (fuel : Nat) (first : Bool) (rest : List Char) :
    parseMembers (fuel + 1) first ('"' :: rest) =
      ((parseStringBody rest).bind fun kp =>
       (memColon (skipWs kp.2)).bind fun r2 =>
       (parseValue fuel (skipWs r2)).bind fun vp =>
       (memSep (skipWs vp.2)).bind fun sep =>
       if sep.1 then
         (parseMembers fuel false (skipWs sep.2)).map (fun p => ((kp.1, vp.1) :: p.1, p.2))
       else some ([(kp.1, vp.1)], sep.2)) := rfl

theorem parseMembers_other (fuel : Nat) (first : Bool) (c : Char) (rest : List Char)
    (h1 : c ≠ '\x7d') (h2 : c ≠ '"') :
    parseMembers (fuel + 1) first (c :: rest) = Option.none := by
  conv_lhs => unfold parseMembers
  split
  · rename_i heq
    cases heq
    exact absurd rfl h1
  · rename_i heq
    cases heq
    exact absurd rfl h2
  · rfl

theorem parseItems_bracket (fuel : Nat) (first : Bool) (rest : List Char) :
    parseItems (fuel + 1) first (']' :: rest) =
      if first then some ([], rest) else Option.none := rfl

theorem parseItems_cons_ne (fuel : Nat) (first : Bool) (c : Char) (rest : List Char)
    (hc : c ≠ ']') :
    parseItems (fuel + 1) first (c :: rest) =
      ((parseValue fuel (c :: rest)).bind fun vp =>
       (itemSep (skipWs vp.2)).bind fun sep =>
       if sep.1 then
         (parseItems fuel false (skipWs sep.2)).map (fun p => (vp.1 :: p.1, p.2))
       else some ([vp.1], sep.2)) := by
  conv_lhs => unfold parseItems
  split
  · rename_i heq
    cases heq
    exact absurd rfl hc
  · rfl

theorem parseItems_nil (fuel : Nat) (first : Bool) :
    parseItems (fuel + 1) first [] = Option.none := by
  conv_lhs => unfold parseItems
  rw [parseValue_nil]
  rfl

/-- Induction statement for `parseValue`: success is preserved by the
backslash-nt replacement on clean input, the rest stays clean, and the
input begins with a non-backslash, non-whitespace character. -/
def PVal (fuel : Nat) : Prop :=
  ∀ l v r, parseValue fuel l = some (v, r) → ntClean l = true →
    (∃ v', parseValue fuel (subNT l) = some (v', subNT r)) ∧ ntClean r = true ∧
      ∃ c t, l = c :: t ∧ c ≠ '\\' ∧ isJsonWs c = false

/-- Induction statement for `parseMembers`. -/
def PMem (fuel : Nat) : Prop :=
  ∀ first l ms r, parseMembers fuel first l = some (ms, r) → ntClean l = true →
    (∃ ms', parseMembers fuel first (subNT l) = some (ms', subNT r)) ∧ ntClean r = true ∧
      ∃ c t, l = c :: t ∧ c ≠ '\\' ∧ isJsonWs c = false

/-- Induction statement for `parseItems`. -/
def PItm (fuel : Nat) : Prop :=
  ∀ first l xs r, parseItems fuel first l = some (xs, r) → ntClean l = true →
    (∃ xs', parseItems fuel first (subNT l) = some (xs', subNT r)) ∧ ntClean r = true ∧
      ∃ c t, l = c :: t ∧ c ≠ '\\' ∧ isJsonWs c = false

theorem itemSep_ne (y : Char) (t1 : List Char) (hy1 : y ≠ ',') (hy2 : y ≠ ']') :
    itemSep (y :: t1) = Option.none := by
  unfold itemSep
  split
  · rename_i heq; cases heq; exact absurd rfl hy1
  · rename_i heq; cases heq; exact absurd rfl hy2
  · rfl

theorem memSep_ne (y : Char) (t1 : List Char) (hy1 : y ≠ ',') (hy2 : y ≠ '\x7d') :
    memSep (y :: t1) = Option.none := by
  unfold memSep
  split
  · rename_i heq; cases heq; exact absurd rfl hy1
  · rename_i heq; cases heq; exact absurd rfl hy2
  · rfl

theorem pitm_step (fuel : Nat) (ihV : PVal fuel) (ihI : PItm fuel) : PItm (fuel + 1) := by
  intro first l xs r hp hc
  cases l with
  | nil => rw [parseItems_nil] at hp; cases hp
  | cons c rest =>
    by_cases hcb : c = ']'
    · subst hcb
      rw [parseItems_bracket] at hp
      cases first with
      | false => rw [if_neg (by simp)] at hp; cases hp
      | true =>
        rw [if_pos rfl] at hp
        simp only [Option.some.injEq, Prod.mk.injEq] at hp
        obtain ⟨-, rfl⟩ := hp
        refine ⟨⟨[], ?_⟩, by rwa [ntClean_cons_ne _ _ (by decide)] at hc,
          ']', rest, rfl, by decide, by decide⟩
        rw [subNT_cons_ne _ _ (by decide), parseItems_bracket, if_pos rfl]
    · rw [parseItems_cons_ne fuel first c rest hcb] at hp
      rw [Option.bind_eq_some] at hp
      obtain ⟨vp, hv, hp⟩ := hp
      rw [Option.bind_eq_some] at hp
      obtain ⟨sep, hsep, hp⟩ := hp
      obtain ⟨⟨v', hv'⟩, hnt1, c0, t0, hct, hc0bs, hc0ws⟩ := ihV (c :: rest) vp.1 vp.2 hv hc
      cases hct
      rw [subNT_cons_ne c rest hc0bs] at hv'
      cases hsw : skipWs vp.2 with
      | nil => rw [hsw] at hsep; cases hsep
      | cons y t1 =>
        rw [hsw] at hsep
        have hnsw : ntClean (skipWs vp.2) = true := ntClean_skipWs _ hnt1
        rw [hsw] at hnsw
        by_cases hy1 : y = ','
        · subst hy1
          rw [itemSep_comma] at hsep
          cases hsep
          rw [if_pos rfl] at hp
          rw [Option.map_eq_some'] at hp
          obtain ⟨p2, hp2, hpe⟩ := hp
          simp only [Prod.mk.injEq] at hpe
          obtain ⟨-, rfl⟩ := hpe
          have hnt1b : ntClean t1 = true := by rwa [ntClean_cons_ne _ _ (by decide)] at hnsw
          obtain ⟨⟨xs2, hi'⟩, hnt2, y2, t2, hyt2, hy2bs, -⟩ :=
            ihI false (skipWs t1) p2.1 p2.2 hp2 (ntClean_skipWs _ hnt1b)
          refine ⟨⟨v' :: xs2, ?_⟩, hnt2, c, rest, rfl, hc0bs, hc0ws⟩
          rw [subNT_cons_ne c rest hc0bs, parseItems_cons_ne fuel first c _ hcb,
            hv', Option.some_bind,
            skipWs_subNT_head vp.2 ',' t1 hsw (by decide), itemSep_comma,
            Option.some_bind, if_pos rfl]
          rw [hyt2, subNT_cons_ne y2 t2 hy2bs] at hi'
          rw [skipWs_subNT_head t1 y2 t2 hyt2 hy2bs, hi']
          rfl
        · by_cases hy2 : y = ']'
          · subst hy2
            rw [itemSep_bracket] at hsep
            cases hsep
            rw [if_neg (by simp)] at hp
            simp only [Option.some.injEq, Prod.mk.injEq] at hp
            obtain ⟨-, rfl⟩ := hp
            have hnt1b : ntClean t1 = true := by rwa [ntClean_cons_ne _ _ (by decide)] at hnsw
            refine ⟨⟨[v'], ?_⟩, hnt1b, c, rest, rfl, hc0bs, hc0ws⟩
            rw [subNT_cons_ne c rest hc0bs, parseItems_cons_ne fuel first c _ hcb,
              hv', Option.some_bind,
              skipWs_subNT_head vp.2 ']' t1 hsw (by decide), itemSep_bracket,
              Option.some_bind, if_neg (by simp)]
          · rw [itemSep_ne y t1 hy1 hy2] at hsep
            cases hsep

theorem parseMembers_nil (fuel : Nat) (first : Bool) :
    parseMembers (fuel + 1) first [] = Option.none := rfl

theorem memColon_nil : memColon [] = Option.none := rfl

theorem pmem_step (fuel : Nat) (ihV : PVal fuel) (ihM : PMem fuel) : PMem (fuel + 1) := by
  intro first l ms r hp hc
  cases l with
  | nil => rw [parseMembers_nil] at hp; cases hp
  | cons c rest =>
    by_cases hcb : c = '\x7d'
    · subst hcb
      rw [parseMembers_brace] at hp
      cases first with
      | false => rw [if_neg (by simp)] at hp; cases hp
      | true =>
        rw [if_pos rfl] at hp
        simp only [Option.some.injEq, Prod.mk.injEq] at hp
        obtain ⟨-, rfl⟩ := hp
        refine ⟨⟨[], ?_⟩, by rwa [ntClean_cons_ne _ _ (by decide)] at hc,
          '\x7d', rest, rfl, by decide, by decide⟩
        rw [subNT_cons_ne _ _ (by decide), parseMembers_brace, if_pos rfl]
    · by_cases hcq : c = '"'
      · subst hcq
        rw [parseMembers_quote] at hp
        rw [Option.bind_eq_some] at hp
        obtain ⟨kp, hk, hp⟩ := hp
        rw [Option.bind_eq_some] at hp
        obtain ⟨r2, hcol, hp⟩ := hp
        rw [Option.bind_eq_some] at hp
        obtain ⟨vp, hv, hp⟩ := hp
        rw [Option.bind_eq_some] at hp
        obtain ⟨sep, hsep, hp⟩ := hp
        have hcrest : ntClean rest = true := by
          rwa [ntClean_cons_ne _ _ (by decide)] at hc
        obtain ⟨⟨k', hk'⟩, hntk⟩ :=
          parseStringBody_subNT rest.length rest kp.1 kp.2 le_rfl hk hcrest
        cases hswk : skipWs kp.2 with
        | nil => rw [hswk, memColon_nil] at hcol; cases hcol
        | cons y1 t1 =>
          rw [hswk] at hcol
          have hnswk : ntClean (skipWs kp.2) = true := ntClean_skipWs _ hntk
          rw [hswk] at hnswk
          by_cases hy1 : y1 = ':'
          · subst hy1
            rw [memColon_colon] at hcol
            cases hcol
            have hnt1 : ntClean r2 = true := by
              rwa [ntClean_cons_ne _ _ (by decide)] at hnswk
            obtain ⟨⟨v', hv'⟩, hntv, c0, t0, hct0, hc0bs, -⟩ :=
              ihV (skipWs r2) vp.1 vp.2 hv (ntClean_skipWs _ hnt1)
            rw [hct0, subNT_cons_ne c0 t0 hc0bs] at hv'
            cases hswv : skipWs vp.2 with
            | nil => rw [hswv] at hsep; cases hsep
            | cons y2 t2 =>
              rw [hswv] at hsep
              have hnswv : ntClean (skipWs vp.2) = true := ntClean_skipWs _ hntv
              rw [hswv] at hnswv
              by_cases hy2 : y2 = ','
              · subst hy2
                rw [memSep_comma] at hsep
                cases hsep
                rw [if_pos rfl] at hp
                rw [Option.map_eq_some'] at hp
                obtain ⟨p2, hp2, hpe⟩ := hp
                simp only [Prod.mk.injEq] at hpe
                obtain ⟨-, rfl⟩ := hpe
                have hnt2 : ntClean t2 = true := by
                  rwa [ntClean_cons_ne _ _ (by decide)] at hnswv
                obtain ⟨⟨ms2, hm'⟩, hntr, y3, t3, hyt3, hy3bs, -⟩ :=
                  ihM false (skipWs t2) p2.1 p2.2 hp2 (ntClean_skipWs _ hnt2)
                refine ⟨⟨(k', v') :: ms2, ?_⟩, hntr, '"', rest, rfl, by decide, by decide⟩
                rw [subNT_cons_ne _ _ (by decide), parseMembers_quote, hk',
                  Option.some_bind,
                  skipWs_subNT_head kp.2 ':' r2 hswk (by decide), memColon_colon,
                  Option.some_bind,
                  skipWs_subNT_head r2 c0 t0 hct0 hc0bs, hv', Option.some_bind,
                  skipWs_subNT_head vp.2 ',' t2 hswv (by decide), memSep_comma,
                  Option.some_bind, if_pos rfl]
                rw [hyt3, subNT_cons_ne y3 t3 hy3bs] at hm'
                rw [skipWs_subNT_head t2 y3 t3 hyt3 hy3bs, hm']
                rfl
              · by_cases hy2b : y2 = '\x7d'
                · subst hy2b
                  rw [memSep_brace] at hsep
                  cases hsep
                  rw [if_neg (by simp)] at hp
                  simp only [Option.some.injEq, Prod.mk.injEq] at hp
                  obtain ⟨-, rfl⟩ := hp
                  have hnt2 : ntClean t2 = true := by
                    rwa [ntClean_cons_ne _ _ (by decide)] at hnswv
                  refine ⟨⟨[(k', v')], ?_⟩, hnt2, '"', rest, rfl, by decide, by decide⟩
                  rw [subNT_cons_ne _ _ (by decide), parseMembers_quote, hk',
                    Option.some_bind,
                    skipWs_subNT_head kp.2 ':' r2 hswk (by decide), memColon_colon,
                    Option.some_bind,
                    skipWs_subNT_head r2 c0 t0 hct0 hc0bs, hv', Option.some_bind,
                    skipWs_subNT_head vp.2 '\x7d' t2 hswv (by decide), memSep_brace,
                    Option.some_bind, if_neg (by simp)]
                · rw [memSep_ne y2 t2 hy2 hy2b] at hsep
                  cases hsep
          · rw [memColon_ne y1 t1 hy1] at hcol
            cases hcol
      · rw [parseMembers_other fuel first c rest hcb hcq] at hp
        cases hp

theorem matchI_cons (d : Char) (t : List Char) (hd : d ≠ 'I') :
    (match d :: t with
     | 'I' :: _ => true
     | _ => false) = false := by
  split
  · rename_i heq
    simp only [List.cons.injEq] at heq
    exact absurd heq.1 hd
  · rfl

theorem parseNumBody_head (neg : Bool) (l1 : List Char) (v : PyVal) (r : List Char)
    (hp : parseNumBody neg l1 = some (v, r)) :
    ∃ d t, l1 = d :: t ∧ (d == '0' || d.isDigit) = true := by
  cases l1 with
  | nil => cases hp
  | cons c r1 =>
    rw [parseNumBody_cons] at hp
    by_cases hd : (c == '0' || c.isDigit) = true
    · exact ⟨c, r1, rfl, hd⟩
    · rw [if_bool_false _ _ (by simpa using hd)] at hp
      cases hp

theorem digit_head_facts (c : Char) (hd : (c == '0' || c.isDigit) = true) :
    c ≠ '\\' ∧ isJsonWs c = false ∧ c ≠ 'I' := by
  simp only [Bool.or_eq_true] at hd
  rcases hd with h | h
  · have hc : c = '0' := eq_of_beq h
    subst hc
    exact ⟨by decide, by decide, by decide⟩
  · refine ⟨?_, ?_, ?_⟩
    · intro hh; subst hh; exact absurd h (by decide)
    · by_contra hw
      rw [Bool.not_eq_false] at hw
      simp only [isJsonWs, Bool.or_eq_true, beq_iff_eq] at hw
      rcases hw with ((hw | hw) | hw) | hw <;> (subst hw; exact absurd h (by decide))
    · intro hh; subst hh; exact absurd h (by decide)

theorem pval_step (fuel : Nat) (ihM : PMem fuel) (ihI : PItm fuel) : PVal (fuel + 1) := by
  intro l v r hp hc
  cases l with
  | nil => rw [parseValue_succ_nil] at hp; cases hp
  | cons c rest =>
    by_cases h1 : c = '"'
    · subst h1
      rw [parseValue_quote, Option.map_eq_some'] at hp
      obtain ⟨p, hps, hpe⟩ := hp
      simp only [Prod.mk.injEq] at hpe
      obtain ⟨-, rfl⟩ := hpe
      have hcrest : ntClean rest = true := by
        rwa [ntClean_cons_ne _ _ (by decide)] at hc
      obtain ⟨⟨s2, hs2⟩, hnt⟩ :=
        parseStringBody_subNT rest.length rest p.1 p.2 le_rfl hps hcrest
      refine ⟨⟨.str s2, ?_⟩, hnt, '"', rest, rfl, by decide, by decide⟩
      rw [subNT_cons_ne _ _ (by decide), parseValue_quote, hs2]
      rfl
    · by_cases h2 : c = '\x7b'
      · subst h2
        rw [parseValue_obj, Option.map_eq_some'] at hp
        obtain ⟨p, hp2, hpe⟩ := hp
        simp only [Prod.mk.injEq] at hpe
        obtain ⟨-, rfl⟩ := hpe
        have hcrest : ntClean rest = true := by
          rwa [ntClean_cons_ne _ _ (by decide)] at hc
        obtain ⟨⟨ms2, hm2⟩, hnt, y, t, hyt, hybs, -⟩ :=
          ihM true (skipWs rest) p.1 p.2 hp2 (ntClean_skipWs _ hcrest)
        refine ⟨⟨.dict ms2, ?_⟩, hnt, '\x7b', rest, rfl, by decide, by decide⟩
        rw [subNT_cons_ne _ _ (by decide), parseValue_obj,
          skipWs_subNT_head rest y t hyt hybs]
        rw [hyt, subNT_cons_ne y t hybs] at hm2
        rw [hm2]
        rfl
      · by_cases h3 : c = '['
        · subst h3
          rw [parseValue_arr, Option.map_eq_some'] at hp
          obtain ⟨p, hp2, hpe⟩ := hp
          simp only [Prod.mk.injEq] at hpe
          obtain ⟨-, rfl⟩ := hpe
          have hcrest : ntClean rest = true := by
            rwa [ntClean_cons_ne _ _ (by decide)] at hc
          obtain ⟨⟨xs2, hm2⟩, hnt, y, t, hyt, hybs, -⟩ :=
            ihI true (skipWs rest) p.1 p.2 hp2 (ntClean_skipWs _ hcrest)
          refine ⟨⟨.list xs2, ?_⟩, hnt, '[', rest, rfl, by decide, by decide⟩
          rw [subNT_cons_ne _ _ (by decide), parseValue_arr,
            skipWs_subNT_head rest y t hyt hybs]
          rw [hyt, subNT_cons_ne y t hybs] at hm2
          rw [hm2]
          rfl
        · by_cases h4 : c = 't'
          · subst h4
            rw [parseValue_t] at hp
            split at hp
            · rename_i r0
              simp only [Option.some.injEq, Prod.mk.injEq] at hp
              obtain ⟨rfl, rfl⟩ := hp
              have hcr : ntClean r0 = true := by
                rwa [ntClean_cons_ne _ _ (by decide), ntClean_cons_ne _ _ (by decide),
                  ntClean_cons_ne _ _ (by decide), ntClean_cons_ne _ _ (by decide)] at hc
              refine ⟨⟨.bool true, ?_⟩, hcr, 't', _, rfl, by decide, by decide⟩
              rw [subNT_cons_ne _ _ (by decide), subNT_cons_ne _ _ (by decide),
                subNT_cons_ne _ _ (by decide), subNT_cons_ne _ _ (by decide),
                parseValue_true_full]
            · cases hp
          · by_cases h5 : c = 'f'
            · subst h5
              rw [parseValue_f] at hp
              split at hp
              · rename_i r0
                simp only [Option.some.injEq, Prod.mk.injEq] at hp
                obtain ⟨rfl, rfl⟩ := hp
                have hcr : ntClean r0 = true := by
                  rwa [ntClean_cons_ne _ _ (by decide), ntClean_cons_ne _ _ (by decide),
                    ntClean_cons_ne _ _ (by decide), ntClean_cons_ne _ _ (by decide),
                    ntClean_cons_ne _ _ (by decide)] at hc
                refine ⟨⟨.bool false, ?_⟩, hcr, 'f', _, rfl, by decide, by decide⟩
                rw [subNT_cons_ne _ _ (by decide), subNT_cons_ne _ _ (by decide),
                  subNT_cons_ne _ _ (by decide), subNT_cons_ne _ _ (by decide),
                  subNT_cons_ne _ _ (by decide), parseValue_false_full]
              · cases hp
            · by_cases h6 : c = 'n'
              · subst h6
                rw [parseValue_n] at hp
                split at hp
                · rename_i r0
                  simp only [Option.some.injEq, Prod.mk.injEq] at hp
                  obtain ⟨rfl, rfl⟩ := hp
                  have hcr : ntClean r0 = true := by
                    rwa [ntClean_cons_ne _ _ (by decide), ntClean_cons_ne _ _ (by decide),
                      ntClean_cons_ne _ _ (by decide), ntClean_cons_ne _ _ (by decide)] at hc
                  refine ⟨⟨.none, ?_⟩, hcr, 'n', _, rfl, by decide, by decide⟩
                  rw [subNT_cons_ne _ _ (by decide), subNT_cons_ne _ _ (by decide),
                    subNT_cons_ne _ _ (by decide), subNT_cons_ne _ _ (by decide),
                    parseValue_null_full]
                · cases hp
              · by_cases h7 : c = 'N'
                · subst h7
                  rw [parseValue_N] at hp
                  split at hp
                  · rename_i r0
                    simp only [Option.some.injEq, Prod.mk.injEq] at hp
                    obtain ⟨rfl, rfl⟩ := hp
                    have hcr : ntClean r0 = true := by
                      rwa [ntClean_cons_ne _ _ (by decide), ntClean_cons_ne _ _ (by decide),
                        ntClean_cons_ne _ _ (by decide)] at hc
                    refine ⟨⟨.float (chars "NaN"), ?_⟩, hcr, 'N', _, rfl, by decide, by decide⟩
                    rw [subNT_cons_ne _ _ (by decide), subNT_cons_ne _ _ (by decide),
                      subNT_cons_ne _ _ (by decide), parseValue_nan_full]
                  · cases hp
                · by_cases h8 : c = 'I'
                  · subst h8
                    rw [parseValue_I] at hp
                    split at hp
                    · rename_i r0
                      simp only [Option.some.injEq, Prod.mk.injEq] at hp
                      obtain ⟨rfl, rfl⟩ := hp
                      have hcr : ntClean r0 = true := by
                        rwa [ntClean_cons_ne _ _ (by decide), ntClean_cons_ne _ _ (by decide),
                          ntClean_cons_ne _ _ (by decide), ntClean_cons_ne _ _ (by decide),
                          ntClean_cons_ne _ _ (by decide), ntClean_cons_ne _ _ (by decide),
                          ntClean_cons_ne _ _ (by decide), ntClean_cons_ne _ _ (by decide)] at hc
                      refine ⟨⟨.float (chars "Infinity"), ?_⟩, hcr, 'I', _, rfl,
                        by decide, by decide⟩
                      rw [subNT_cons_ne _ _ (by decide), subNT_cons_ne _ _ (by decide),
                        subNT_cons_ne _ _ (by decide), subNT_cons_ne _ _ (by decide),
                        subNT_cons_ne _ _ (by decide), subNT_cons_ne _ _ (by decide),
                        subNT_cons_ne _ _ (by decide), subNT_cons_ne _ _ (by decide),
                        parseValue_inf_full]
                    · cases hp
                  · by_cases h9 : c = '-'
                    · subst h9
                      cases rest with
                      | nil =>
                        rw [parseValue_other fuel '-' [] (by decide) (by decide) (by decide)
                          (by decide) (by decide) (by decide) (by decide) (by decide)
                          (by rfl)] at hp
                        rw [show parseNumber ['-'] = Option.none from rfl] at hp
                        cases hp
                      | cons d rest2 =>
                        by_cases hdI : d = 'I'
                        · subst hdI
                          rw [parseValue_succ_cons] at hp
                          rw [if_bool_false _ _ (by decide), if_bool_false _ _ (by decide),
                            if_bool_false _ _ (by decide), if_bool_false _ _ (by decide),
                            if_bool_false _ _ (by decide), if_bool_false _ _ (by decide),
                            if_bool_false _ _ (by decide), if_bool_false _ _ (by decide),
                            if_bool_true _ _ (by rfl)] at hp
                          split at hp
                          · rename_i r0 heq
                            simp only [List.cons.injEq] at heq
                            obtain ⟨-, rfl⟩ := heq
                            simp only [Option.some.injEq, Prod.mk.injEq] at hp
                            obtain ⟨rfl, rfl⟩ := hp
                            have hcr : ntClean r0 = true := by
                              rwa [ntClean_cons_ne _ _ (by decide), ntClean_cons_ne _ _ (by decide),
                                ntClean_cons_ne _ _ (by decide), ntClean_cons_ne _ _ (by decide),
                                ntClean_cons_ne _ _ (by decide), ntClean_cons_ne _ _ (by decide),
                                ntClean_cons_ne _ _ (by decide), ntClean_cons_ne _ _ (by decide),
                                ntClean_cons_ne _ _ (by decide)] at hc
                            refine ⟨⟨.float (chars "-Infinity"), ?_⟩, hcr, '-', _, rfl,
                              by decide, by decide⟩
                            rw [subNT_cons_ne _ _ (by decide), subNT_cons_ne _ _ (by decide),
                              subNT_cons_ne _ _ (by decide), subNT_cons_ne _ _ (by decide),
                              subNT_cons_ne _ _ (by decide), subNT_cons_ne _ _ (by decide),
                              subNT_cons_ne _ _ (by decide), subNT_cons_ne _ _ (by decide),
                              subNT_cons_ne _ _ (by decide), parseValue_neginf_full]
                          · cases hp
                        · rw [parseValue_other fuel '-' (d :: rest2) (by decide) (by decide)
                            (by decide) (by decide) (by decide) (by decide) (by decide)
                            (by decide)
                            (by
                              simp only [beq_self_eq_true, Bool.true_and]
                              split
                              · rename_i heq
                                simp only [List.cons.injEq] at heq
                                exact absurd heq.1 hdI
                              · rfl)] at hp
                          obtain ⟨hsub, a, ha, habs⟩ := parseNumber_subNT ('-' :: d :: rest2) v r hp
                          replace hp : parseNumBody true (d :: rest2) = some (v, r) := hp
                          obtain ⟨d2, t2, hdt, hd⟩ := parseNumBody_head true (d :: rest2) v r hp
                          cases hdt
                          obtain ⟨hdbs, hdws, -⟩ := digit_head_facts d hd
                          have hcr : ntClean r = true := by
                            rw [ha, ntClean_append_left a r habs] at hc
                            exact hc
                          refine ⟨⟨v, ?_⟩, hcr, '-', d :: rest2, rfl, by decide, by decide⟩
                          rw [subNT_cons_ne _ _ (by decide), subNT_cons_ne d rest2 hdbs]
                          rw [parseValue_other fuel '-' (d :: subNT rest2) (by decide) (by decide)
                            (by decide) (by decide) (by decide) (by decide) (by decide)
                            (by decide)
                            (by
                              simp only [beq_self_eq_true, Bool.true_and]
                              split
                              · rename_i heq
                                simp only [List.cons.injEq] at heq
                                exact absurd heq.1 hdI
                              · rfl)]
                          rw [subNT_cons_ne _ _ (by decide), subNT_cons_ne d rest2 hdbs] at hsub
                          exact hsub
                    · have b1 := beq_false_of_ne h1
                      have b2 := beq_false_of_ne h2
                      have b3 := beq_false_of_ne h3
                      have b4 := beq_false_of_ne h4
                      have b5 := beq_false_of_ne h5
                      have b6 := beq_false_of_ne h6
                      have b7 := beq_false_of_ne h7
                      have b8 := beq_false_of_ne h8
                      have b9 := beq_false_of_ne h9
                      rw [parseValue_other fuel c rest b1 b2 b3 b4 b5 b6 b7 b8
                        (by rw [b9]; exact Bool.false_and _)] at hp
                      obtain ⟨hsub, a, ha, habs⟩ := parseNumber_subNT (c :: rest) v r hp
                      have hpe : parseNumber (c :: rest) = parseNumBody false (c :: rest) := by
                        unfold parseNumber
                        split
                        · rename_i heq
                          simp only [List.cons.injEq] at heq
                          exact absurd heq.1 h9
                        · rfl
                      rw [hpe] at hp
                      obtain ⟨d2, t2, hdt, hd⟩ := parseNumBody_head false (c :: rest) v r hp
                      cases hdt
                      obtain ⟨hcbs, hcws, -⟩ := digit_head_facts c hd
                      have hcr : ntClean r = true := by
                        rw [ha, ntClean_append_left a r habs] at hc
                        exact hc
                      refine ⟨⟨v, ?_⟩, hcr, c, rest, rfl, hcbs, hcws⟩
                      rw [subNT_cons_ne c rest hcbs]
                      rw [parseValue_other fuel c (subNT rest) b1 b2 b3 b4 b5 b6 b7 b8
                        (by rw [b9]; exact Bool.false_and _)]
                      rw [subNT_cons_ne c rest hcbs] at hsub
                      exact hsub

theorem parseStringBody_consumes : ∀ n l s r, l.length ≤ n →
    parseStringBody l = some (s, r) → r.length < l.length := by
  intro n
  induction n with
  | zero =>
    intro l s r hn hp
    rw [List.length_eq_zero.mp (Nat.le_zero.mp hn)] at hp
    cases hp
  | succ n ih =>
    intro l s r hn hp
    cases l with
    | nil => cases hp
    | cons c rest =>
      by_cases h1 : c = '"'
      · subst h1
        rw [parseStringBody_quote] at hp
        simp only [Option.some.injEq, Prod.mk.injEq] at hp
        obtain ⟨-, rfl⟩ := hp
        simp
      · by_cases h2 : c = '\\'
        · subst h2
          cases rest with
          | nil => rw [parseStringBody_bs_nil] at hp; cases hp
          | cons e rr =>
            rw [parseStringBody_bs] at hp
            by_cases he : isSimpleEsc e = true
            · rw [if_bool_true _ _ he, Option.map_eq_some'] at hp
              obtain ⟨p, hps, hpe⟩ := hp
              simp only [Prod.mk.injEq] at hpe
              obtain ⟨-, rfl⟩ := hpe
              have := ih rr p.1 p.2 (by simp at hn; omega) hps
              simp only [List.length_cons]
              omega
            · rw [if_bool_false _ _ (by simpa using he)] at hp
              by_cases hu : (e == 'u') = true
              · rw [if_bool_true _ _ hu] at hp
                split at hp
                · rename_i h1' h2' h3' h4' r2
                  by_cases hhex : (isHex h1' && isHex h2' && isHex h3' && isHex h4') = true
                  · rw [if_bool_true _ _ hhex, Option.map_eq_some'] at hp
                    obtain ⟨p, hps, hpe⟩ := hp
                    simp only [Prod.mk.injEq] at hpe
                    obtain ⟨-, rfl⟩ := hpe
                    have := ih r2 p.1 p.2 (by simp at hn; omega) hps
                    simp only [List.length_cons]
                    omega
                  · rw [if_bool_false _ _ (by simpa using hhex)] at hp
                    cases hp
                · cases hp
              · rw [if_bool_false _ _ (by simpa using hu)] at hp
                cases hp
        · rw [parseStringBody_other c rest h1 h2] at hp
          by_cases hge : (0x20 ≤ c.toNat)
          · rw [if_pos hge, Option.map_eq_some'] at hp
            obtain ⟨p, hps, hpe⟩ := hp
            simp only [Prod.mk.injEq] at hpe
            obtain ⟨-, rfl⟩ := hpe
            have := ih rest p.1 p.2 (by simp at hn; omega) hps
            simp only [List.length_cons]
            omega
          · rw [if_neg hge] at hp
            cases hp

theorem intPart_fst_cons (c : Char) (r1 : List Char) :
    ∃ h t, (intPart c r1).1 = h :: t := by
  unfold intPart
  split
  · exact ⟨'0', [], rfl⟩
  · exact ⟨c, r1.takeWhile Char.isDigit, rfl⟩

theorem parseNumBody_consumes (neg : Bool) (l1 : List Char) (v : PyVal) (r : List Char)
    (hp : parseNumBody neg l1 = some (v, r)) : r.length < l1.length := by
  cases l1 with
  | nil => cases hp
  | cons c r1 =>
    rw [parseNumBody_cons] at hp
    by_cases hd : (c == '0' || c.isDigit) = true
    · rw [if_bool_true _ _ hd] at hp
      obtain ⟨hr, -⟩ := numFromParts_some _ _ _ _ _ _ _ hp
      subst hr
      obtain ⟨hidec, -⟩ := intPart_decomp c r1 hd
      obtain ⟨hfdec, -⟩ := fracPart_decomp (intPart c r1).2
      obtain ⟨hedec, -⟩ := expPart_decomp (fracPart (intPart c r1).2).2
      obtain ⟨h0, t0, hit⟩ := intPart_fst_cons c r1
      have hlen1 : (c :: r1).length = (intPart c r1).1.length + (intPart c r1).2.length := by
        rw [hidec, List.length_append]
      have hlen2 : (intPart c r1).2.length =
          (fracPart (intPart c r1).2).1.length + (fracPart (intPart c r1).2).2.length := by
        conv_lhs => rw [hfdec]
        rw [List.length_append]
      have hlen3 : (fracPart (intPart c r1).2).2.length =
          (expPart (fracPart (intPart c r1).2).2).1.length +
          (expPart (fracPart (intPart c r1).2).2).2.length := by
        conv_lhs => rw [hedec]
        rw [List.length_append]
      have hpos : 0 < (intPart c r1).1.length := by rw [hit]; simp
      omega
    · rw [if_bool_false _ _ (by simpa using hd)] at hp
      cases hp

theorem parseNumber_consumes (l : List Char) (v : PyVal) (r : List Char)
    (hp : parseNumber l = some (v, r)) : r.length < l.length := by
  cases l with
  | nil => cases hp
  | cons c l0 =>
    by_cases hc : c = '-'
    · subst hc
      replace hp : parseNumBody true l0 = some (v, r) := hp
      have := parseNumBody_consumes true l0 v r hp
      simp only [List.length_cons]
      omega
    · have hpe : parseNumber (c :: l0) = parseNumBody false (c :: l0) := by
        unfold parseNumber
        split
        · rename_i heq
          simp only [List.cons.injEq] at heq
          exact absurd heq.1 hc
        · rfl
      rw [hpe] at hp
      exact parseNumBody_consumes false (c :: l0) v r hp

theorem skipWs_length_le (l : List Char) : (skipWs l).length ≤ l.length := by
  induction l with
  | nil => exact le_rfl
  | cons c t ih =>
    rw [skipWs_cons]
    by_cases hc : isJsonWs c = true
    · rw [if_pos hc]
      simp only [List.length_cons]
      omega
    · rw [if_neg hc]

/-- Consumption statement for `parseValue`: a successful parse consumes at
least one character. -/
def SVal (fuel : Nat) : Prop :=
  ∀ l v r, parseValue fuel l = some (v, r) → r.length < l.length

/-- Consumption statement for `parseMembers`. -/
def SMem (fuel : Nat) : Prop :=
  ∀ first l ms r, parseMembers fuel first l = some (ms, r) → r.length < l.length

/-- Consumption statement for `parseItems`. -/
def SItm (fuel : Nat) : Prop :=
  ∀ first l xs r, parseItems fuel first l = some (xs, r) → r.length < l.length

theorem sval_step (fuel : Nat) (ihM : SMem fuel) (ihI : SItm fuel) : SVal (fuel + 1) := by
  intro l v r hp
  cases l with
  | nil => rw [parseValue_succ_nil] at hp; cases hp
  | cons c rest =>
    rw [parseValue_succ_cons] at hp
    split at hp
    · rw [Option.map_eq_some'] at hp
      obtain ⟨p, hps, hpe⟩ := hp
      simp only [Prod.mk.injEq] at hpe
      obtain ⟨-, rfl⟩ := hpe
      have := parseStringBody_consumes rest.length rest p.1 p.2 le_rfl hps
      simp only [List.length_cons]
      omega
    · split at hp
      · rw [Option.map_eq_some'] at hp
        obtain ⟨p, hps, hpe⟩ := hp
        simp only [Prod.mk.injEq] at hpe
        obtain ⟨-, rfl⟩ := hpe
        have h1 := ihM true (skipWs rest) p.1 p.2 hps
        have h2 := skipWs_length_le rest
        simp only [List.length_cons]
        omega
      · split at hp
        · rw [Option.map_eq_some'] at hp
          obtain ⟨p, hps, hpe⟩ := hp
          simp only [Prod.mk.injEq] at hpe
          obtain ⟨-, rfl⟩ := hpe
          have h1 := ihI true (skipWs rest) p.1 p.2 hps
          have h2 := skipWs_length_le rest
          simp only [List.length_cons]
          omega
        · split at hp
          · split at hp
            · simp only [Option.some.injEq, Prod.mk.injEq] at hp
              obtain ⟨-, rfl⟩ := hp
              simp only [List.length_cons]
              omega
            · cases hp
          · split at hp
            · split at hp
              · simp only [Option.some.injEq, Prod.mk.injEq] at hp
                obtain ⟨-, rfl⟩ := hp
                simp only [List.length_cons]
                omega
              · cases hp
            · split at hp
              · split at hp
                · simp only [Option.some.injEq, Prod.mk.injEq] at hp
                  obtain ⟨-, rfl⟩ := hp
                  simp only [List.length_cons]
                  omega
                · cases hp
              · split at hp
                · split at hp
                  · simp only [Option.some.injEq, Prod.mk.injEq] at hp
                    obtain ⟨-, rfl⟩ := hp
                    simp only [List.length_cons]
                    omega
                  · cases hp
                · split at hp
                  · split at hp
                    · simp only [Option.some.injEq, Prod.mk.injEq] at hp
                      obtain ⟨-, rfl⟩ := hp
                      simp only [List.length_cons]
                      omega
                    · cases hp
                  · split at hp
                    · split at hp
                      · simp only [Option.some.injEq, Prod.mk.injEq] at hp
                        obtain ⟨-, rfl⟩ := hp
                        simp only [List.length_cons]
                        omega
                      · cases hp
                    · exact parseNumber_consumes _ _ _ hp

theorem smem_step (fuel : Nat) (ihV : SVal fuel) (ihM : SMem fuel) : SMem (fuel + 1) := by
  intro first l ms r hp
  cases l with
  | nil => rw [parseMembers_nil] at hp; cases hp
  | cons c rest =>
    by_cases hcb : c = '\x7d'
    · subst hcb
      rw [parseMembers_brace] at hp
      cases first with
      | false => rw [if_neg (by simp)] at hp; cases hp
      | true =>
        rw [if_pos rfl] at hp
        simp only [Option.some.injEq, Prod.mk.injEq] at hp
        obtain ⟨-, rfl⟩ := hp
        simp
    · by_cases hcq : c = '"'
      · subst hcq
        rw [parseMembers_quote] at hp
        rw [Option.bind_eq_some] at hp
        obtain ⟨kp, hk, hp⟩ := hp
        rw [Option.bind_eq_some] at hp
        obtain ⟨r2, hcol, hp⟩ := hp
        rw [Option.bind_eq_some] at hp
        obtain ⟨vp, hv, hp⟩ := hp
        rw [Option.bind_eq_some] at hp
        obtain ⟨sep, hsep, hp⟩ := hp
        have hk1 := parseStringBody_consumes rest.length rest kp.1 kp.2 le_rfl hk
        cases hswk : skipWs kp.2 with
        | nil => rw [hswk, memColon_nil] at hcol; cases hcol
        | cons y1 t1 =>
          rw [hswk] at hcol
          have hsk1 : (skipWs kp.2).length ≤ kp.2.length := skipWs_length_le _
          rw [hswk] at hsk1
          by_cases hy1 : y1 = ':'
          · subst hy1
            rw [memColon_colon] at hcol
            cases hcol
            have hv1 := ihV (skipWs r2) vp.1 vp.2 hv
            have hsv1 : (skipWs r2).length ≤ r2.length := skipWs_length_le _
            cases hswv : skipWs vp.2 with
            | nil => rw [hswv] at hsep; cases hsep
            | cons y2 t2 =>
              rw [hswv] at hsep
              have hsv2 : (skipWs vp.2).length ≤ vp.2.length := skipWs_length_le _
              rw [hswv] at hsv2
              by_cases hy2 : y2 = ','
              · subst hy2
                rw [memSep_comma] at hsep
                cases hsep
                rw [if_pos rfl] at hp
                rw [Option.map_eq_some'] at hp
                obtain ⟨p2, hp2, hpe⟩ := hp
                simp only [Prod.mk.injEq] at hpe
                obtain ⟨-, rfl⟩ := hpe
                have hm1 := ihM false (skipWs t2) p2.1 p2.2 hp2
                have hst2 : (skipWs t2).length ≤ t2.length := skipWs_length_le _
                simp only [List.length_cons] at *
                omega
              · by_cases hy2b : y2 = '\x7d'
                · subst hy2b
                  rw [memSep_brace] at hsep
                  cases hsep
                  rw [if_neg (by simp)] at hp
                  simp only [Option.some.injEq, Prod.mk.injEq] at hp
                  obtain ⟨-, rfl⟩ := hp
                  simp only [List.length_cons] at *
                  omega
                · rw [memSep_ne y2 t2 hy2 hy2b] at hsep
                  cases hsep
          · rw [memColon_ne y1 t1 hy1] at hcol
            cases hcol
      · rw [parseMembers_other fuel first c rest hcb hcq] at hp
        cases hp

theorem sitm_step (fuel : Nat) (ihV : SVal fuel) (ihI : SItm fuel) : SItm (fuel + 1) := by
  intro first l xs r hp
  cases l with
  | nil => rw [parseItems_nil] at hp; cases hp
  | cons c rest =>
    by_cases hcb : c = ']'
    · subst hcb
      rw [parseItems_bracket] at hp
      cases first with
      | false => rw [if_neg (by simp)] at hp; cases hp
      | true =>
        rw [if_pos rfl] at hp
        simp only [Option.some.injEq, Prod.mk.injEq] at hp
        obtain ⟨-, rfl⟩ := hp
        simp
    · rw [parseItems_cons_ne fuel first c rest hcb] at hp
      rw [Option.bind_eq_some] at hp
      obtain ⟨vp, hv, hp⟩ := hp
      rw [Option.bind_eq_some] at hp
      obtain ⟨sep, hsep, hp⟩ := hp
      have hv1 := ihV (c :: rest) vp.1 vp.2 hv
      cases hsw : skipWs vp.2 with
      | nil => rw [hsw] at hsep; cases hsep
      | cons y t1 =>
        rw [hsw] at hsep
        have hsv : (skipWs vp.2).length ≤ vp.2.length := skipWs_length_le _
        rw [hsw] at hsv
        by_cases hy1 : y = ','
        · subst hy1
          rw [itemSep_comma] at hsep
          cases hsep
          rw [if_pos rfl] at hp
          rw [Option.map_eq_some'] at hp
          obtain ⟨p2, hp2, hpe⟩ := hp
          simp only [Prod.mk.injEq] at hpe
          obtain ⟨-, rfl⟩ := hpe
          have hi1 := ihI false (skipWs t1) p2.1 p2.2 hp2
          have hst1 : (skipWs t1).length ≤ t1.length := skipWs_length_le _
          simp only [List.length_cons] at *
          omega
        · by_cases hy2 : y = ']'
          · subst hy2
            rw [itemSep_bracket] at hsep
            cases hsep
            rw [if_neg (by simp)] at hp
            simp only [Option.some.injEq, Prod.mk.injEq] at hp
            obtain ⟨-, rfl⟩ := hp
            simp only [List.length_cons] at *
            omega
          · rw [itemSep_ne y t1 hy1 hy2] at hsep
            cases hsep

theorem s_all : ∀ fuel, SVal fuel ∧ SMem fuel ∧ SItm fuel := by
  intro fuel
  induction fuel with
  | zero =>
    refine ⟨?_, ?_, ?_⟩
    · intro l v r hp; rw [parseValue_zero] at hp; cases hp
    · intro first l ms r hp; rw [parseMembers_zero] at hp; cases hp
    · intro first l xs r hp; rw [parseItems_zero] at hp; cases hp
  | succ n ih =>
    exact ⟨sval_step n ih.2.1 ih.2.2, smem_step n ih.1 ih.2.1, sitm_step n ih.1 ih.2.2⟩

/-- Fuel-adequacy statement for `parseValue`: a successful parse also
succeeds at every fuel at least the number of consumed characters. -/
def AVal (x : List Char) : Prop :=
  ∀ n v r, parseValue n x = some (v, r) →
    ∀ m, x.length - r.length ≤ m → parseValue m x = some (v, r)

/-- Fuel-adequacy statement for `parseMembers`. -/
def AMem (x : List Char) : Prop :=
  ∀ n first ms r, parseMembers n first x = some (ms, r) →
    ∀ m, x.length - r.length ≤ m → parseMembers m first x = some (ms, r)

/-- Fuel-adequacy statement for `parseItems`. -/
def AItm (x : List Char) : Prop :=
  ∀ n first xs r, parseItems n first x = some (xs, r) →
    ∀ m, x.length - r.length ≤ m → parseItems m first x = some (xs, r)

theorem aval_of_ih (x : List Char)
    (ih : ∀ y : List Char, y.length < x.length → AMem y ∧ AItm y) : AVal x := by
  intro n v r hp m hm
  cases n with
  | zero => rw [parseValue_zero] at hp; cases hp
  | succ n0 =>
    cases x with
    | nil => rw [parseValue_succ_nil] at hp; cases hp
    | cons c rest =>
      have hcons := (s_all (n0 + 1)).1 _ _ _ hp
      simp only [List.length_cons] at hcons hm
      obtain ⟨m0, rfl⟩ : ∃ m0, m = m0 + 1 := ⟨m - 1, by omega⟩
      by_cases h1 : c = '"'
      · subst h1
        rw [parseValue_quote] at hp ⊢
        exact hp
      · by_cases h2 : c = '\x7b'
        · subst h2
          rw [parseValue_obj] at hp
          rw [Option.map_eq_some'] at hp
          obtain ⟨p, hps, hpe⟩ := hp
          simp only [Prod.mk.injEq] at hpe
          obtain ⟨rfl, rfl⟩ := hpe
          have hsk : (skipWs rest).length ≤ rest.length := skipWs_length_le _
          have hAM := (ih (skipWs rest) (by simp only [List.length_cons]; omega)).1
          have hm0 := hAM n0 true p.1 p.2 hps m0 (by omega)
          rw [parseValue_obj, hm0]
          rfl
        · by_cases h3 : c = '['
          · subst h3
            rw [parseValue_arr] at hp
            rw [Option.map_eq_some'] at hp
            obtain ⟨p, hps, hpe⟩ := hp
            simp only [Prod.mk.injEq] at hpe
            obtain ⟨rfl, rfl⟩ := hpe
            have hsk : (skipWs rest).length ≤ rest.length := skipWs_length_le _
            have hAI := (ih (skipWs rest) (by simp only [List.length_cons]; omega)).2
            have hm0 := hAI n0 true p.1 p.2 hps m0 (by omega)
            rw [parseValue_arr, hm0]
            rfl
          · by_cases h4 : c = 't'
            · subst h4
              rw [parseValue_t] at hp ⊢
              exact hp
            · by_cases h5 : c = 'f'
              · subst h5
                rw [parseValue_f] at hp ⊢
                exact hp
              · by_cases h6 : c = 'n'
                · subst h6
                  rw [parseValue_n] at hp ⊢
                  exact hp
                · by_cases h7 : c = 'N'
                  · subst h7
                    rw [parseValue_N] at hp ⊢
                    exact hp
                  · by_cases h8 : c = 'I'
                    · subst h8
                      rw [parseValue_I] at hp ⊢
                      exact hp
                    · by_cases h9 : c = '-'
                      · subst h9
                        cases rest with
                        | nil =>
                          rw [parseValue_other n0 '-' [] (by decide) (by decide) (by decide)
                            (by decide) (by decide) (by decide) (by decide) (by decide)
                            (by rfl)] at hp
                          rw [parseValue_other m0 '-' [] (by decide) (by decide) (by decide)
                            (by decide) (by decide) (by decide) (by decide) (by decide)
                            (by rfl)]
                          exact hp
                        | cons d rest2 =>
                          by_cases hdI : d = 'I'
                          · subst hdI
                            rw [parseValue_succ_cons] at hp ⊢
                            rw [if_bool_false _ _ (by decide), if_bool_false _ _ (by decide),
                              if_bool_false _ _ (by decide), if_bool_false _ _ (by decide),
                              if_bool_false _ _ (by decide), if_bool_false _ _ (by decide),
                              if_bool_false _ _ (by decide), if_bool_false _ _ (by decide),
                              if_bool_true _ _ (by rfl)] at hp ⊢
                            exact hp
                          · rw [parseValue_other n0 '-' (d :: rest2) (by decide) (by decide)
                              (by decide) (by decide) (by decide) (by decide) (by decide)
                              (by decide)
                              (by
                                simp only [beq_self_eq_true, Bool.true_and]
                                split
                                · rename_i heq
                                  simp only [List.cons.injEq] at heq
                                  exact absurd heq.1 hdI
                                · rfl)] at hp
                            rw [parseValue_other m0 '-' (d :: rest2) (by decide) (by decide)
                              (by decide) (by decide) (by decide) (by decide) (by decide)
                              (by decide)
                              (by
                                simp only [beq_self_eq_true, Bool.true_and]
                                split
                                · rename_i heq
                                  simp only [List.cons.injEq] at heq
                                  exact absurd heq.1 hdI
                                · rfl)]
                            exact hp
                      · have b1 := beq_false_of_ne h1
                        have b2 := beq_false_of_ne h2
                        have b3 := beq_false_of_ne h3
                        have b4 := beq_false_of_ne h4
                        have b5 := beq_false_of_ne h5
                        have b6 := beq_false_of_ne h6
                        have b7 := beq_false_of_ne h7
                        have b8 := beq_false_of_ne h8
                        have b9 := beq_false_of_ne h9
                        rw [parseValue_other n0 c rest b1 b2 b3 b4 b5 b6 b7 b8
                          (by rw [b9]; exact Bool.false_and _)] at hp
                        rw [parseValue_other m0 c rest b1 b2 b3 b4 b5 b6 b7 b8
                          (by rw [b9]; exact Bool.false_and _)]
                        exact hp

theorem amem_of_ih (x : List Char)
    (ih : ∀ y : List Char, y.length < x.length → AVal y ∧ AMem y) : AMem x := by
  intro n first ms r hp m hm
  cases n with
  | zero => rw [parseMembers_zero] at hp; cases hp
  | succ n0 =>
    cases x with
    | nil => rw [parseMembers_nil] at hp; cases hp
    | cons c rest =>
      have hcons := (s_all (n0 + 1)).2.1 first _ _ _ hp
      simp only [List.length_cons] at hcons hm
      obtain ⟨m0, rfl⟩ : ∃ m0, m = m0 + 1 := ⟨m - 1, by omega⟩
      by_cases hcb : c = '\x7d'
      · subst hcb
        rw [parseMembers_brace] at hp ⊢
        exact hp
      · by_cases hcq : c = '"'
        · subst hcq
          rw [parseMembers_quote] at hp
          rw [Option.bind_eq_some] at hp
          obtain ⟨kp, hk, hp⟩ := hp
          rw [Option.bind_eq_some] at hp
          obtain ⟨r2, hcol, hp⟩ := hp
          rw [Option.bind_eq_some] at hp
          obtain ⟨vp, hv, hp⟩ := hp
          rw [Option.bind_eq_some] at hp
          obtain ⟨sep, hsep, hp⟩ := hp
          have hk1 := parseStringBody_consumes rest.length rest kp.1 kp.2 le_rfl hk
          cases hswk : skipWs kp.2 with
          | nil => rw [hswk, memColon_nil] at hcol; cases hcol
          | cons y1 t1 =>
            rw [hswk] at hcol
            have hsk1 : (skipWs kp.2).length ≤ kp.2.length := skipWs_length_le _
            rw [hswk] at hsk1
            simp only [List.length_cons] at hsk1
            by_cases hy1 : y1 = ':'
            · subst hy1
              rw [memColon_colon] at hcol
              cases hcol
              have hv1 := (s_all n0).1 _ _ _ hv
              have hsv1 : (skipWs r2).length ≤ r2.length := skipWs_length_le _
              cases hswv : skipWs vp.2 with
              | nil => rw [hswv] at hsep; cases hsep
              | cons y2 t2 =>
                rw [hswv] at hsep
                have hsv2 : (skipWs vp.2).length ≤ vp.2.length := skipWs_length_le _
                rw [hswv] at hsv2
                simp only [List.length_cons] at hsv2
                have hAV := (ih (skipWs r2) (by simp only [List.length_cons]; omega)).1
                by_cases hy2 : y2 = ','
                · subst hy2
                  rw [memSep_comma] at hsep
                  cases hsep
                  rw [if_pos rfl] at hp
                  rw [Option.map_eq_some'] at hp
                  obtain ⟨p2, hp2, hpe⟩ := hp
                  simp only [Prod.mk.injEq] at hpe
                  obtain ⟨rfl, rfl⟩ := hpe
                  replace hp2 : parseMembers n0 false (skipWs t2) = some p2 := hp2
                  have hm1 := (s_all n0).2.1 false _ _ _ hp2
                  have hst2 : (skipWs t2).length ≤ t2.length := skipWs_length_le _
                  have hvm0 := hAV n0 vp.1 vp.2 hv m0 (by omega)
                  have hAM := (ih (skipWs t2) (by simp only [List.length_cons]; omega)).2
                  have hmm0 := hAM n0 false p2.1 p2.2 hp2 m0 (by omega)
                  rw [parseMembers_quote, hk, Option.some_bind, hswk, memColon_colon,
                    Option.some_bind, hvm0, Option.some_bind, hswv, memSep_comma,
                    Option.some_bind, if_pos rfl, hmm0]
                  rfl
                · by_cases hy2b : y2 = '\x7d'
                  · subst hy2b
                    rw [memSep_brace] at hsep
                    cases hsep
                    rw [if_neg (by simp)] at hp
                    simp only [Option.some.injEq, Prod.mk.injEq] at hp
                    obtain ⟨rfl, rfl⟩ := hp
                    have hvm0 := hAV n0 vp.1 vp.2 hv m0 (by omega)
                    rw [parseMembers_quote, hk, Option.some_bind, hswk, memColon_colon,
                      Option.some_bind, hvm0, Option.some_bind, hswv, memSep_brace,
                      Option.some_bind, if_neg (by simp)]
                  · rw [memSep_ne y2 t2 hy2 hy2b] at hsep
                    cases hsep
            · rw [memColon_ne y1 t1 hy1] at hcol
              cases hcol
        · rw [parseMembers_other n0 first c rest hcb hcq] at hp
          cases hp

theorem aitm_of_ih (x : List Char) (hAV : AVal x)
    (ih : ∀ y : List Char, y.length < x.length → AItm y) : AItm x := by
  intro n first xs r hp m hm
  cases n with
  | zero => rw [parseItems_zero] at hp; cases hp
  | succ n0 =>
    cases x with
    | nil => rw [parseItems_nil] at hp; cases hp
    | cons c rest =>
      have hcons := (s_all (n0 + 1)).2.2 first _ _ _ hp
      simp only [List.length_cons] at hcons hm
      obtain ⟨m0, rfl⟩ : ∃ m0, m = m0 + 1 := ⟨m - 1, by omega⟩
      by_cases hcb : c = ']'
      · subst hcb
        rw [parseItems_bracket] at hp ⊢
        exact hp
      · rw [parseItems_cons_ne n0 first c rest hcb] at hp
        rw [Option.bind_eq_some] at hp
        obtain ⟨vp, hv, hp⟩ := hp
        rw [Option.bind_eq_some] at hp
        obtain ⟨sep, hsep, hp⟩ := hp
        have hv1 := (s_all n0).1 _ _ _ hv
        simp only [List.length_cons] at hv1
        cases hsw : skipWs vp.2 with
        | nil => rw [hsw] at hsep; cases hsep
        | cons y t1 =>
          rw [hsw] at hsep
          have hsv : (skipWs vp.2).length ≤ vp.2.length := skipWs_length_le _
          rw [hsw] at hsv
          simp only [List.length_cons] at hsv
          by_cases hy1 : y = ','
          · subst hy1
            rw [itemSep_comma] at hsep
            cases hsep
            rw [if_pos rfl] at hp
            rw [Option.map_eq_some'] at hp
            obtain ⟨p2, hp2, hpe⟩ := hp
            simp only [Prod.mk.injEq] at hpe
            obtain ⟨rfl, rfl⟩ := hpe
            replace hp2 : parseItems n0 false (skipWs t1) = some p2 := hp2
            have hi1 := (s_all n0).2.2 false _ _ _ hp2
            have hst1 : (skipWs t1).length ≤ t1.length := skipWs_length_le _
            have hvm0 := hAV n0 vp.1 vp.2 hv m0 (by simp only [List.length_cons]; omega)
            have hAI := ih (skipWs t1) (by simp only [List.length_cons]; omega)
            have him0 := hAI n0 false p2.1 p2.2 hp2 m0 (by omega)
            rw [parseItems_cons_ne m0 first c rest hcb, hvm0, Option.some_bind, hsw,
              itemSep_comma, Option.some_bind, if_pos rfl, him0]
            rfl
          · by_cases hy2 : y = ']'
            · subst hy2
              rw [itemSep_bracket] at hsep
              cases hsep
              rw [if_neg (by simp)] at hp
              simp only [Option.some.injEq, Prod.mk.injEq] at hp
              obtain ⟨rfl, rfl⟩ := hp
              have hvm0 := hAV n0 vp.1 vp.2 hv m0 (by simp only [List.length_cons]; omega)
              rw [parseItems_cons_ne m0 first c rest hcb, hvm0, Option.some_bind, hsw,
                itemSep_bracket, Option.some_bind, if_neg (by simp)]
            · rw [itemSep_ne y t1 hy1 hy2] at hsep
              cases hsep

theorem a_all_aux : ∀ L, ∀ x : List Char, x.length ≤ L → AVal x ∧ AMem x ∧ AItm x := by
  intro L
  induction L with
  | zero =>
    intro x hx
    have hx0 : x = [] := List.length_eq_zero.mp (Nat.le_zero.mp hx)
    subst hx0
    refine ⟨?_, ?_, ?_⟩
    · intro n v r hp m hm
      rw [parseValue_nil] at hp
      cases hp
    · intro n first ms r hp m hm
      cases n with
      | zero => rw [parseMembers_zero] at hp; cases hp
      | succ n0 => rw [parseMembers_nil] at hp; cases hp
    · intro n first xs r hp m hm
      cases n with
      | zero => rw [parseItems_zero] at hp; cases hp
      | succ n0 => rw [parseItems_nil] at hp; cases hp
  | succ L ihL =>
    intro x hx
    have ihy : ∀ y : List Char, y.length < x.length → AVal y ∧ AMem y ∧ AItm y := by
      intro y hy
      exact ihL y (by omega)
    have hAV : AVal x := aval_of_ih x (fun y hy => ⟨(ihy y hy).2.1, (ihy y hy).2.2⟩)
    have hAM : AMem x := amem_of_ih x (fun y hy => ⟨(ihy y hy).1, (ihy y hy).2.1⟩)
    have hAI : AItm x := aitm_of_ih x hAV (fun y hy => (ihy y hy).2.2)
    exact ⟨hAV, hAM, hAI⟩

theorem a_all (x : List Char) : AVal x ∧ AMem x ∧ AItm x := a_all_aux x.length x le_rfl

theorem p_all : ∀ fuel, PVal fuel ∧ PMem fuel ∧ PItm fuel := by
  intro fuel
  induction fuel with
  | zero =>
    refine ⟨?_, ?_, ?_⟩
    · intro l v r hp hc; rw [parseValue_zero] at hp; cases hp
    · intro first l ms r hp hc; rw [parseMembers_zero] at hp; cases hp
    · intro first l xs r hp hc; rw [parseItems_zero] at hp; cases hp
  | succ n ih =>
    exact ⟨pval_step n ih.2.1 ih.2.2, pmem_step n ih.1 ih.2.1, pitm_step n ih.1 ih.2.2⟩

theorem json_loads_bind (l : List Char) :
    json_loads l = (parseValue (l.length + 1) (skipWs l)).bind
      (fun p => if (skipWs p.2).isEmpty then some p.1 else Option.none) := by
  unfold json_loads
  cases hpv : parseValue (l.length + 1) (skipWs l) with
  | none => rfl
  | some p => cases p; rfl

theorem json_loads_subNT (l : List Char) (v : PyVal)
    (hp : json_loads l = some v) (hc : ntClean l = true) :
    ∃ v2, json_loads (subNT l) = some v2 := by
  rw [json_loads_bind] at hp
  rw [Option.bind_eq_some] at hp
  obtain ⟨p, hpv, hp⟩ := hp
  by_cases hemp : (skipWs p.2).isEmpty = true
  · have hcw : ntClean (skipWs l) = true := ntClean_skipWs _ hc
    obtain ⟨⟨v', hv'⟩, hntr, c, t, hct, hcbs, -⟩ :=
      (p_all (l.length + 1)).1 (skipWs l) p.1 p.2 hpv hcw
    have hs1 : skipWs (subNT l) = c :: subNT t := skipWs_subNT_head l c t hct hcbs
    have hs2 : subNT (skipWs l) = c :: subNT t := by
      rw [hct, subNT_cons_ne c t hcbs]
    have hlen : (subNT (skipWs l)).length ≤ (subNT l).length := by
      calc (subNT (skipWs l)).length = (skipWs (subNT l)).length := by rw [hs2, hs1]
        _ ≤ (subNT l).length := skipWs_length_le _
    have hadq := (a_all (subNT (skipWs l))).1 (l.length + 1) v' (subNT p.2) hv'
      ((subNT l).length + 1) (by omega)
    refine ⟨v', ?_⟩
    rw [json_loads_bind, show skipWs (subNT l) = subNT (skipWs l) from by rw [hs1, hs2],
      hadq, Option.some_bind]
    have hre : skipWs p.2 = [] := by
      cases hsw : skipWs p.2 with
      | nil => rfl
      | cons a b => rw [hsw] at hemp; cases hemp
    rw [skipWs_subNT_nil p.2 hre]
    rfl
  · rw [if_neg hemp] at hp
    cases hp

theorem not_ctl_of_ge (c : Char) (h1 : 32 ≤ c.toNat) (h2 : c.toNat ≠ 127) :
    isStrippedCtl c = false := by
  have e1 : c ≠ '\x0b' := by intro hh; subst hh; simp at h1
  have e2 : c ≠ '\x0c' := by intro hh; subst hh; simp at h1
  have e3 : c ≠ '\x7f' := by intro hh; subst hh; simp at h2
  simp only [isStrippedCtl, Bool.or_eq_false_iff, Bool.and_eq_false_iff,
    decide_eq_false_iff_not, beq_eq_false_iff_ne]
  refine ⟨⟨⟨⟨by omega, e1⟩, e2⟩, ?_⟩, e3⟩
  right
  omega

theorem ws_not_ctl (c : Char) (h : isJsonWs c = true) : isStrippedCtl c = false := by
  simp only [isJsonWs, Bool.or_eq_true, beq_iff_eq] at h
  rcases h with ((h | h) | h) | h <;> (subst h; decide)

theorem simpleEsc_not_ctl (e : Char) (h : isSimpleEsc e = true) : isStrippedCtl e = false := by
  simp only [isSimpleEsc, Bool.or_eq_true, beq_iff_eq] at h
  rcases h with ((((((h | h) | h) | h) | h) | h) | h) | h <;> (subst h; decide)

theorem hex_not_ctl (c : Char) (h : isHex c = true) : isStrippedCtl c = false := by
  simp only [isHex, Bool.or_eq_true, Bool.and_eq_true, decide_eq_true_eq,
    Char.isDigit, Char.le_def] at h
  rcases h with (h | h) | h
  · have h1 : 48 ≤ c.toNat := h.1
    have h2 : c.toNat ≤ 57 := h.2
    exact not_ctl_of_ge c (by omega) (by omega)
  · have h1 : 97 ≤ c.toNat := h.1
    have h2 : c.toNat ≤ 102 := h.2
    exact not_ctl_of_ge c (by omega) (by omega)
  · have h1 : 65 ≤ c.toNat := h.1
    have h2 : c.toNat ≤ 70 := h.2
    exact not_ctl_of_ge c (by omega) (by omega)

theorem digitOrZero_not_ctl (c : Char) (hd : (c == '0' || c.isDigit) = true) :
    isStrippedCtl c = false := by
  simp only [Bool.or_eq_true] at hd
  rcases hd with h | h
  · have hc : c = '0' := eq_of_beq h
    subst hc
    decide
  · simp only [Char.isDigit, Bool.and_eq_true, decide_eq_true_eq] at h
    have h1 : 48 ≤ c.toNat := h.1
    have h2 : c.toNat ≤ 57 := h.2
    exact not_ctl_of_ge c (by omega) (by omega)

theorem stripCtl_nil : stripCtl [] = [] := rfl

theorem stripCtl_cons_keep (c : Char) (l : List Char) (h : isStrippedCtl c = false) :
    stripCtl (c :: l) = c :: stripCtl l := by
  unfold stripCtl
  rw [List.filter_cons]
  simp [h]

theorem stripCtl_cons_drop (c : Char) (l : List Char) (h : isStrippedCtl c = true) :
    stripCtl (c :: l) = stripCtl l := by
  unfold stripCtl
  rw [List.filter_cons]
  simp [h]

theorem skipWs_stripCtl_head (l : List Char) (c : Char) (rest : List Char)
    (h : skipWs l = c :: rest) (hc : isStrippedCtl c = false) :
    skipWs (stripCtl l) = c :: stripCtl rest := by
  induction l with
  | nil => cases h
  | cons d t ih =>
    rw [skipWs_cons] at h
    by_cases hws : isJsonWs d = true
    · rw [if_pos hws] at h
      rw [stripCtl_cons_keep d t (ws_not_ctl d hws), skipWs_cons, if_pos hws]
      exact ih h
    · rw [if_neg hws] at h
      simp only [List.cons.injEq] at h
      obtain ⟨rfl, rfl⟩ := h
      rw [stripCtl_cons_keep d t hc, skipWs_cons, if_neg hws]

theorem skipWs_stripCtl_nil (l : List Char) (h : skipWs l = []) :
    skipWs (stripCtl l) = [] := by
  induction l with
  | nil => rfl
  | cons d t ih =>
    rw [skipWs_cons] at h
    by_cases hws : isJsonWs d = true
    · rw [if_pos hws] at h
      rw [stripCtl_cons_keep d t (ws_not_ctl d hws), skipWs_cons, if_pos hws]
      exact ih h
    · rw [if_neg hws] at h
      cases h

theorem parseStringBody_stripCtl : ∀ n l s r, l.length ≤ n →
    parseStringBody l = some (s, r) →
    ∃ s2, parseStringBody (stripCtl l) = some (s2, stripCtl r) := by
  intro n
  induction n with
  | zero =>
    intro l s r hn hp
    rw [List.length_eq_zero.mp (Nat.le_zero.mp hn)] at hp
    cases hp
  | succ n ih =>
    intro l s r hn hp
    cases l with
    | nil => cases hp
    | cons c rest =>
      by_cases h1 : c = '"'
      · subst h1
        rw [parseStringBody_quote] at hp
        simp only [Option.some.injEq, Prod.mk.injEq] at hp
        obtain ⟨-, rfl⟩ := hp
        refine ⟨[], ?_⟩
        rw [stripCtl_cons_keep _ _ (by decide), parseStringBody_quote]
      · by_cases h2 : c = '\\'
        · subst h2
          cases rest with
          | nil => rw [parseStringBody_bs_nil] at hp; cases hp
          | cons e rr =>
            rw [parseStringBody_bs] at hp
            by_cases he : isSimpleEsc e = true
            · rw [if_bool_true _ _ he, Option.map_eq_some'] at hp
              obtain ⟨p, hps, hpe⟩ := hp
              simp only [Prod.mk.injEq] at hpe
              obtain ⟨-, rfl⟩ := hpe
              obtain ⟨s2, hs2⟩ := ih rr p.1 p.2 (by simp at hn; omega) hps
              refine ⟨escChar e :: s2, ?_⟩
              rw [stripCtl_cons_keep _ _ (by decide),
                stripCtl_cons_keep e _ (simpleEsc_not_ctl e he),
                parseStringBody_bs, if_bool_true _ _ he, hs2]
              rfl
            · rw [if_bool_false _ _ (by simpa using he)] at hp
              by_cases hu : (e == 'u') = true
              · rw [if_bool_true _ _ hu] at hp
                split at hp
                · rename_i h1' h2' h3' h4' r2
                  by_cases hhex : (isHex h1' && isHex h2' && isHex h3' && isHex h4') = true
                  · rw [if_bool_true _ _ hhex, Option.map_eq_some'] at hp
                    obtain ⟨p, hps, hpe⟩ := hp
                    simp only [Prod.mk.injEq] at hpe
                    obtain ⟨-, rfl⟩ := hpe
                    obtain ⟨s2, hs2⟩ := ih r2 p.1 p.2 (by simp at hn; omega) hps
                    have hue : e = 'u' := eq_of_beq hu
                    subst hue
                    have hxs := hhex
                    simp only [Bool.and_eq_true] at hxs
                    obtain ⟨⟨⟨hx1, hx2⟩, hx3⟩, hx4⟩ := hxs
                    refine ⟨uChar h1' h2' h3' h4' :: s2, ?_⟩
                    rw [stripCtl_cons_keep _ _ (by decide),
                      stripCtl_cons_keep _ _ (by decide),
                      stripCtl_cons_keep _ _ (hex_not_ctl _ hx1),
                      stripCtl_cons_keep _ _ (hex_not_ctl _ hx2),
                      stripCtl_cons_keep _ _ (hex_not_ctl _ hx3),
                      stripCtl_cons_keep _ _ (hex_not_ctl _ hx4),
                      parseStringBody_u, if_bool_true _ _ hhex, hs2]
                    rfl
                  · rw [if_bool_false _ _ (by simpa using hhex)] at hp
                    cases hp
                · cases hp
              · rw [if_bool_false _ _ (by simpa using hu)] at hp
                cases hp
        · rw [parseStringBody_other c rest h1 h2] at hp
          by_cases hge : (0x20 ≤ c.toNat)
          · rw [if_pos hge, Option.map_eq_some'] at hp
            obtain ⟨p, hps, hpe⟩ := hp
            simp only [Prod.mk.injEq] at hpe
            obtain ⟨-, rfl⟩ := hpe
            obtain ⟨s2, hs2⟩ := ih rest p.1 p.2 (by simp at hn; omega) hps
            by_cases hctl : isStrippedCtl c = true
            · refine ⟨s2, ?_⟩
              rw [stripCtl_cons_drop c rest hctl]
              exact hs2
            · refine ⟨c :: s2, ?_⟩
              rw [stripCtl_cons_keep c rest (by simpa using hctl),
                parseStringBody_other c _ h1 h2, if_pos hge, hs2]
              rfl
          · rw [if_neg hge] at hp
            cases hp

/-- Characters that legally follow a JSON number inside a document:
inter-token whitespace, separators and closing brackets. -/
def isStopChar (c : Char) : Bool :=
  isJsonWs c || c == ',' || c == ']' || c == '\x7d'

/-- A remainder that is empty or starts at a token boundary. -/
def stopHead (r : List Char) : Prop :=
  r = [] ∨ ∃ c t, r = c :: t ∧ isStopChar c = true

/-- A remainder whose head cannot extend any group of the number grammar. -/
def numBoundary (r : List Char) : Prop :=
  r = [] ∨ ∃ c t, r = c :: t ∧ Char.isDigit c = false ∧ c ≠ '.' ∧ c ≠ 'e' ∧ c ≠ 'E'

theorem stopChar_facts (c : Char) (h : isStopChar c = true) :
    Char.isDigit c = false ∧ c ≠ '.' ∧ c ≠ 'e' ∧ c ≠ 'E' ∧ isStrippedCtl c = false := by
  simp only [isStopChar, isJsonWs, Bool.or_eq_true, beq_iff_eq] at h
  rcases h with ((((((h | h) | h) | h) | h) | h) | h) <;>
    (subst h; exact ⟨by decide, by decide, by decide, by decide, by decide⟩)

theorem numBoundary_of_stopHead (r : List Char) (h : stopHead r) : numBoundary r := by
  rcases h with h | ⟨c, t, rfl, hc⟩
  · exact Or.inl h
  · obtain ⟨f1, f2, f3, f4, -⟩ := stopChar_facts c hc
    exact Or.inr ⟨c, t, rfl, f1, f2, f3, f4⟩

theorem stripCtl_stopHead (r : List Char) (h : stopHead r) : stopHead (stripCtl r) := by
  rcases h with h | ⟨c, t, rfl, hc⟩
  · subst h; exact Or.inl rfl
  · obtain ⟨-, -, -, -, f5⟩ := stopChar_facts c hc
    rw [stripCtl_cons_keep c t f5]
    exact Or.inr ⟨c, stripCtl t, rfl, hc⟩

theorem takeWhile_digit_append_bd (ds r2 : List Char)
    (hds : ∀ d ∈ ds, Char.isDigit d = true)
    (hr : r2 = [] ∨ ∃ c t, r2 = c :: t ∧ Char.isDigit c = false) :
    (ds ++ r2).takeWhile Char.isDigit = ds ∧ (ds ++ r2).dropWhile Char.isDigit = r2 := by
  induction ds with
  | nil =>
    simp only [List.nil_append]
    rcases hr with rfl | ⟨c, t, rfl, hc⟩
    · exact ⟨rfl, rfl⟩
    · exact ⟨List.takeWhile_cons_of_neg (by simp [hc]),
        List.dropWhile_cons_of_neg (by simp [hc])⟩
  | cons d ds ih =>
    have hd : Char.isDigit d = true := hds d (by simp)
    have ih2 := ih (fun x hx => hds x (by simp [hx]))
    simp only [List.cons_append, List.takeWhile_cons_of_pos hd,
      List.dropWhile_cons_of_pos hd]
    exact ⟨by rw [ih2.1], ih2.2⟩

theorem intPart_shape (c : Char) (r1 : List Char) :
    (intPart c r1).1 = ['0'] ∨
      ((intPart c r1).1 = c :: r1.takeWhile Char.isDigit ∧
        (intPart c r1).2 = r1.dropWhile Char.isDigit) := by
  unfold intPart
  split
  · exact Or.inl rfl
  · refine Or.inr ⟨rfl, ?_⟩
    rw [drop_length_takeWhile]

theorem fracPart_shape (x : List Char) :
    (fracPart x).1 = [] ∨
      ∃ ds, (fracPart x).1 = '.' :: ds ∧ ds ≠ [] ∧ ∀ d ∈ ds, Char.isDigit d = true := by
  cases x with
  | nil => exact Or.inl rfl
  | cons c r2 =>
    by_cases hc : c = '.'
    · subst hc
      rw [fracPart_dot]
      by_cases hds : (r2.takeWhile Char.isDigit).isEmpty = true
      · rw [if_bool_true _ _ hds]
        exact Or.inl rfl
      · rw [if_bool_false _ _ (by simpa using hds)]
        refine Or.inr ⟨r2.takeWhile Char.isDigit, rfl, ?_, ?_⟩
        · intro hh
          rw [hh] at hds
          exact hds rfl
        · intro d hd
          exact List.mem_takeWhile_imp hd
    · rw [fracPart_ne_dot c r2 hc]
      exact Or.inl rfl

theorem expPart_shape (x : List Char) :
    (expPart x).1 = [] ∨
      ∃ e sgn ds, (expPart x).1 = e :: (sgn ++ ds) ∧ (e == 'e' || e == 'E') = true ∧
        (sgn = [] ∨ sgn = ['+'] ∨ sgn = ['-']) ∧ ds ≠ [] ∧
        ∀ d ∈ ds, Char.isDigit d = true := by
  cases x with
  | nil => exact Or.inl rfl
  | cons e x1 =>
    by_cases he : (e == 'e' || e == 'E') = true
    · cases x1 with
      | nil => rw [expPart_single]; exact Or.inl rfl
      | cons y r3 =>
        by_cases hy1 : y = '+'
        · subst hy1
          rw [expPart_plus, if_bool_true _ _ he]
          by_cases hds : (r3.takeWhile Char.isDigit).isEmpty = true
          · rw [if_bool_true _ _ hds]
            exact Or.inl rfl
          · rw [if_bool_false _ _ (by simpa using hds)]
            refine Or.inr ⟨e, ['+'], r3.takeWhile Char.isDigit, rfl, he,
              Or.inr (Or.inl rfl), ?_, fun d hd => List.mem_takeWhile_imp hd⟩
            intro hh
            rw [hh] at hds
            exact hds rfl
        · by_cases hy2 : y = '-'
          · subst hy2
            rw [expPart_minus, if_bool_true _ _ he]
            by_cases hds : (r3.takeWhile Char.isDigit).isEmpty = true
            · rw [if_bool_true _ _ hds]
              exact Or.inl rfl
            · rw [if_bool_false _ _ (by simpa using hds)]
              refine Or.inr ⟨e, ['-'], r3.takeWhile Char.isDigit, rfl, he,
                Or.inr (Or.inr rfl), ?_, fun d hd => List.mem_takeWhile_imp hd⟩
              intro hh
              rw [hh] at hds
              exact hds rfl
          · rw [expPart_other e y r3 hy1 hy2, if_bool_true _ _ he]
            by_cases hds : (((y :: r3)).takeWhile Char.isDigit).isEmpty = true
            · rw [if_bool_true _ _ hds]
              exact Or.inl rfl
            · rw [if_bool_false _ _ (by simpa using hds)]
              refine Or.inr ⟨e, [], (y :: r3).takeWhile Char.isDigit, by simp, he,
                Or.inl rfl, ?_, fun d hd => List.mem_takeWhile_imp hd⟩
              intro hh
              rw [hh] at hds
              exact hds rfl
    · rw [expPart_head_ne (e :: x1)
        (by intro c hc0; simp at hc0; subst hc0; simpa using he)]
      exact Or.inl rfl

theorem fracPart_forward_empty (z : List Char)
    (hz : z = [] ∨ ∃ c t, z = c :: t ∧ c ≠ '.') : fracPart z = ([], z) := by
  rcases hz with rfl | ⟨c, t, rfl, hc⟩
  · rfl
  · exact fracPart_ne_dot c t hc

theorem expPart_forward_empty (z : List Char)
    (hz : z = [] ∨ ∃ c t, z = c :: t ∧ c ≠ 'e' ∧ c ≠ 'E') : expPart z = ([], z) := by
  rcases hz with rfl | ⟨c, t, rfl, hc1, hc2⟩
  · rfl
  · refine expPart_head_ne (c :: t) ?_
    intro c0 hc0
    simp at hc0
    subst hc0
    rw [beq_false_of_ne hc1, beq_false_of_ne hc2]
    rfl

theorem fracPart_forward_dot (ds z : List Char) (hds : ds ≠ [])
    (hall : ∀ d ∈ ds, Char.isDigit d = true)
    (hz : z = [] ∨ ∃ c t, z = c :: t ∧ Char.isDigit c = false) :
    fracPart ('.' :: (ds ++ z)) = ('.' :: ds, z) := by
  obtain ⟨hta, -⟩ := takeWhile_digit_append_bd ds z hall hz
  have hemp : ds.isEmpty = false := by
    cases ds with
    | nil => exact absurd rfl hds
    | cons a b => rfl
  rw [fracPart_dot, hta, if_bool_false _ _ hemp, List.drop_left]

theorem expPart_forward (e : Char) (sgn ds z : List Char)
    (he : (e == 'e' || e == 'E') = true)
    (hsgn : sgn = [] ∨ sgn = ['+'] ∨ sgn = ['-'])
    (hds : ds ≠ []) (hall : ∀ d ∈ ds, Char.isDigit d = true)
    (hz : z = [] ∨ ∃ c t, z = c :: t ∧ Char.isDigit c = false) :
    expPart (e :: (sgn ++ ds) ++ z) = (e :: (sgn ++ ds), z) := by
  obtain ⟨hta, -⟩ := takeWhile_digit_append_bd ds z hall hz
  have hemp : ds.isEmpty = false := by
    cases ds with
    | nil => exact absurd rfl hds
    | cons a b => rfl
  rcases hsgn with rfl | rfl | rfl
  · cases ds with
    | nil => exact absurd rfl hds
    | cons d0 ds0 =>
      have hd0 : Char.isDigit d0 = true := hall d0 (by simp)
      have h1 : d0 ≠ '+' := by intro hh; rw [hh] at hd0; exact absurd hd0 (by decide)
      have h2 : d0 ≠ '-' := by intro hh; rw [hh] at hd0; exact absurd hd0 (by decide)
      simp only [List.cons_append, List.nil_append] at hta ⊢
      rw [expPart_other e d0 (ds0 ++ z) h1 h2, if_bool_true _ _ he]
      rw [show (d0 :: (ds0 ++ z)).takeWhile Char.isDigit = d0 :: ds0 from hta]
      rw [if_bool_false _ _ (by rfl)]
      rw [show (d0 :: (ds0 ++ z)).drop (d0 :: ds0).length = z from by
        rw [show d0 :: (ds0 ++ z) = (d0 :: ds0) ++ z from by simp]
        exact List.drop_left _ _]
  · simp only [List.cons_append, List.nil_append] at hta ⊢
    rw [expPart_plus, if_bool_true _ _ he, hta, if_bool_false _ _ hemp, List.drop_left]
  · simp only [List.cons_append, List.nil_append] at hta ⊢
    rw [expPart_minus, if_bool_true _ _ he, hta, if_bool_false _ _ hemp, List.drop_left]

theorem numFromParts_rest (neg : Bool) (a b c rest : List Char) (v : PyVal) (r : List Char)
    (hp : numFromParts neg a b c rest = some (v, r)) (rest2 : List Char) :
    numFromParts neg a b c rest2 = some (v, rest2) := by
  unfold numFromParts at hp ⊢
  by_cases hbc : (b.isEmpty && c.isEmpty) = true
  · rw [if_bool_true _ _ hbc] at hp ⊢
    simp only [Option.some.injEq, Prod.mk.injEq] at hp
    rw [hp.1]
  · rw [if_bool_false _ _ (by simpa using hbc)] at hp ⊢
    simp only [Option.some.injEq, Prod.mk.injEq] at hp
    rw [hp.1]

theorem digit_not_ctl (c : Char) (h : Char.isDigit c = true) : isStrippedCtl c = false := by
  simp only [Char.isDigit, Bool.and_eq_true, decide_eq_true_eq] at h
  have h1 : 48 ≤ c.toNat := h.1
  have h2 : c.toNat ≤ 57 := h.2
  exact not_ctl_of_ge c (by omega) (by omega)

theorem stripCtl_append (a b : List Char) :
    stripCtl (a ++ b) = stripCtl a ++ stripCtl b := by
  unfold stripCtl
  rw [List.filter_append]

theorem stripCtl_id (a : List Char) (h : ∀ c ∈ a, isStrippedCtl c = false) :
    stripCtl a = a := by
  unfold stripCtl
  rw [List.filter_eq_self.mpr]
  intro x hx
  simp [h x hx]

theorem parseNumBody_stripCtl (neg : Bool) (l : List Char) (v : PyVal) (r : List Char)
    (hp : parseNumBody neg l = some (v, r)) (hr : stopHead r) :
    parseNumBody neg (stripCtl l) = some (v, stripCtl r) := by
  cases l with
  | nil => cases hp
  | cons c r1 =>
    rw [parseNumBody_cons] at hp
    by_cases hd : (c == '0' || c.isDigit) = true
    · rw [if_bool_true _ _ hd] at hp
      obtain ⟨hrr, -⟩ := numFromParts_some _ _ _ _ _ _ _ hp
      subst hrr
      set i1 := (intPart c r1).1 with hi1
      set i2 := (intPart c r1).2 with hi2
      set f1 := (fracPart i2).1 with hf1d
      set f2 := (fracPart i2).2 with hf2d
      set e1 := (expPart f2).1 with he1d
      set e2 := (expPart f2).2 with he2d
      obtain ⟨hfdec, -⟩ := fracPart_decomp i2
      obtain ⟨hedec, -⟩ := expPart_decomp f2
      rw [← hf1d, ← hf2d] at hfdec
      rw [← he1d, ← he2d] at hedec
      have hfsh := fracPart_shape i2
      rw [← hf1d] at hfsh
      have hesh := expPart_shape f2
      rw [← he1d] at hesh
      have hf1ctl : ∀ c0 ∈ f1, isStrippedCtl c0 = false := by
        rcases hfsh with h | ⟨ds, hds, -, hall⟩
        · rw [h]
          intro c0 hc0
          simp at hc0
        · rw [hds]
          intro c0 hc0
          rcases List.mem_cons.mp hc0 with rfl | hc0
          · decide
          · exact digit_not_ctl _ (hall _ hc0)
      have he1ctl : ∀ c0 ∈ e1, isStrippedCtl c0 = false := by
        rcases hesh with h | ⟨e, sgn, ds, hds, he, hsgn, -, hall⟩
        · rw [h]
          intro c0 hc0
          simp at hc0
        · rw [hds]
          intro c0 hc0
          rcases List.mem_cons.mp hc0 with rfl | hc0
          · have he2 := he
            simp only [Bool.or_eq_true] at he2
            rcases he2 with h2 | h2 <;> (rw [eq_of_beq h2]; decide)
          · rcases List.mem_append.mp hc0 with hc1 | hc1
            · rcases hsgn with rfl | rfl | rfl
              · simp at hc1
              · simp at hc1
                subst hc1
                decide
              · simp at hc1
                subst hc1
                decide
            · exact digit_not_ctl _ (hall _ hc1)
      have hbstrip := numBoundary_of_stopHead _ (stripCtl_stopHead e2 hr)
      have hbe : (e1 ++ stripCtl e2) = [] ∨
          ∃ c0 t0, e1 ++ stripCtl e2 = c0 :: t0 ∧ Char.isDigit c0 = false ∧ c0 ≠ '.' := by
        rcases hesh with h | ⟨e, sgn, ds, hds, he, hsgn, hne, hall⟩
        · rw [h, List.nil_append]
          rcases hbstrip with h2 | ⟨c0, t0, h2, hb1, hb2, -, -⟩
          · exact Or.inl h2
          · exact Or.inr ⟨c0, t0, h2, hb1, hb2⟩
        · rw [hds]
          have he2 := he
          simp only [Bool.or_eq_true] at he2
          refine Or.inr ⟨e, (sgn ++ ds) ++ stripCtl e2, by simp, ?_, ?_⟩ <;>
            (rcases he2 with h2 | h2 <;> (rw [eq_of_beq h2]; decide))
      have hfrac : fracPart (f1 ++ (e1 ++ stripCtl e2)) = (f1, e1 ++ stripCtl e2) := by
        rcases hfsh with h | ⟨ds, hds, hne, hall⟩
        · rw [h, List.nil_append]
          refine fracPart_forward_empty _ ?_
          rcases hbe with h2 | ⟨c0, t0, h2, -, hb2⟩
          · exact Or.inl h2
          · exact Or.inr ⟨c0, t0, h2, hb2⟩
        · rw [hds, List.cons_append]
          rw [fracPart_forward_dot ds _ hne hall (by
            rcases hbe with h2 | ⟨c0, t0, h2, hb1, -⟩
            · exact Or.inl h2
            · exact Or.inr ⟨c0, t0, h2, hb1⟩)]
      have hexp : expPart (e1 ++ stripCtl e2) = (e1, stripCtl e2) := by
        rcases hesh with h | ⟨e, sgn, ds, hds, he, hsgn, hne, hall⟩
        · rw [h, List.nil_append]
          refine expPart_forward_empty _ ?_
          rcases hbstrip with h2 | ⟨c0, t0, h2, -, -, hb3, hb4⟩
          · exact Or.inl h2
          · exact Or.inr ⟨c0, t0, h2, hb3, hb4⟩
        · rw [hds, List.cons_append]
          have hfw := expPart_forward e sgn ds (stripCtl e2) he hsgn hne hall (by
            rcases hbstrip with h2 | ⟨c0, t0, h2, hb1, -, -, -⟩
            · exact Or.inl h2
            · exact Or.inr ⟨c0, t0, h2, hb1⟩)
          rw [List.cons_append] at hfw
          rw [hfw]
      by_cases hc0 : (c == '0') = true
      · have hiz : intPart c r1 = (['0'], r1) := by
          unfold intPart
          rw [if_bool_true _ _ hc0]
        have hi1e : i1 = ['0'] := by rw [hi1, hiz]
        have hi2r : i2 = r1 := by rw [hi2, hiz]
        have hstrip_r1 : stripCtl r1 = f1 ++ (e1 ++ stripCtl e2) := by
          rw [show r1 = f1 ++ (e1 ++ e2) from by rw [← hi2r, hfdec, hedec]]
          rw [stripCtl_append, stripCtl_append, stripCtl_id f1 hf1ctl,
            stripCtl_id e1 he1ctl]
        rw [stripCtl_cons_keep c r1 (digitOrZero_not_ctl c hd), parseNumBody_cons,
          if_bool_true _ _ hd]
        have hiz2 : intPart c (stripCtl r1) = (['0'], f1 ++ (e1 ++ stripCtl e2)) := by
          unfold intPart
          rw [if_bool_true _ _ hc0, hstrip_r1]
        rw [hiz2]
        dsimp only
        rw [hfrac]
        dsimp only
        rw [hexp]
        dsimp only
        rw [← hi1e]
        exact numFromParts_rest neg i1 f1 e1 e2 v e2 hp (stripCtl e2)
      · have hie : intPart c r1 =
            (c :: r1.takeWhile Char.isDigit, r1.dropWhile Char.isDigit) := by
          unfold intPart
          rw [if_bool_false _ _ (by simpa using hc0), drop_length_takeWhile]
        set t1 := r1.takeWhile Char.isDigit with ht1
        have ht1all : ∀ d ∈ t1, Char.isDigit d = true :=
          fun d hd2 => List.mem_takeWhile_imp hd2
        have hi1e : i1 = c :: t1 := by rw [hi1, hie]
        have hi2e : i2 = r1.dropWhile Char.isDigit := by rw [hi2, hie]
        have hr1dec : r1 = t1 ++ i2 := by
          rw [hi2e, ht1]
          exact (List.takeWhile_append_dropWhile Char.isDigit r1).symm
        have hbf : (f1 ++ (e1 ++ stripCtl e2)) = [] ∨
            ∃ c0 t0, f1 ++ (e1 ++ stripCtl e2) = c0 :: t0 ∧ Char.isDigit c0 = false := by
          rcases hfsh with h | ⟨ds, hds, -, -⟩
          · rw [h, List.nil_append]
            rcases hbe with h2 | ⟨c0, t0, h2, hb1, -⟩
            · exact Or.inl h2
            · exact Or.inr ⟨c0, t0, h2, hb1⟩
          · rw [hds, List.cons_append]
            exact Or.inr ⟨'.', ds ++ (e1 ++ stripCtl e2), rfl, by decide⟩
        have hstrip_r1 : stripCtl r1 = t1 ++ (f1 ++ (e1 ++ stripCtl e2)) := by
          rw [show r1 = t1 ++ (f1 ++ (e1 ++ e2)) from by
            rw [hr1dec, hfdec, hedec]]
          rw [stripCtl_append, stripCtl_append, stripCtl_append,
            stripCtl_id t1 (fun d hd2 => digit_not_ctl d (ht1all d hd2)),
            stripCtl_id f1 hf1ctl, stripCtl_id e1 he1ctl]
        obtain ⟨hta, -⟩ := takeWhile_digit_append_bd t1 _ ht1all hbf
        rw [stripCtl_cons_keep c r1 (digitOrZero_not_ctl c hd), parseNumBody_cons,
          if_bool_true _ _ hd]
        have hie2 : intPart c (stripCtl r1) = (c :: t1, f1 ++ (e1 ++ stripCtl e2)) := by
          unfold intPart
          rw [if_bool_false _ _ (by simpa using hc0), hstrip_r1, hta, List.drop_left]
        rw [hie2]
        dsimp only
        rw [hfrac]
        dsimp only
        rw [hexp]
        dsimp only
        rw [← hi1e]
        exact numFromParts_rest neg i1 f1 e1 e2 v e2 hp (stripCtl e2)
    · rw [if_bool_false _ _ (by simpa using hd)] at hp
      cases hp

theorem parseNumber_stripCtl (l : List Char) (v : PyVal) (r : List Char)
    (hp : parseNumber l = some (v, r)) (hr : stopHead r) :
    parseNumber (stripCtl l) = some (v, stripCtl r) := by
  cases l with
  | nil => cases hp
  | cons c l0 =>
    by_cases hc : c = '-'
    · subst hc
      replace hp : parseNumBody true l0 = some (v, r) := hp
      have h1 := parseNumBody_stripCtl true l0 v r hp hr
      rw [stripCtl_cons_keep '-' l0 (by decide)]
      exact h1
    · have hpe : parseNumber (c :: l0) = parseNumBody false (c :: l0) := by
        unfold parseNumber
        split
        · rename_i heq
          simp only [List.cons.injEq] at heq
          exact absurd heq.1 hc
        · rfl
      rw [hpe] at hp
      have h1 := parseNumBody_stripCtl false (c :: l0) v r hp hr
      obtain ⟨d2, t2, hdt, hd⟩ := parseNumBody_head false (c :: l0) v r hp
      cases hdt
      have hstrip : stripCtl (c :: l0) = c :: stripCtl l0 :=
        stripCtl_cons_keep c l0 (digitOrZero_not_ctl c hd)
      rw [hstrip] at h1
      rw [hstrip]
      have hpe2 : parseNumber (c :: stripCtl l0) = parseNumBody false (c :: stripCtl l0) := by
        unfold parseNumber
        split
        · rename_i heq
          simp only [List.cons.injEq] at heq
          exact absurd heq.1 hc
        · rfl
      rw [hpe2]
      exact h1

theorem stopHead_of_skipWs (x : List Char) (y : Char) (t : List Char)
    (h : skipWs x = y :: t) (hy : isStopChar y = true) : stopHead x := by
  cases x with
  | nil => cases h
  | cons d t0 =>
    rw [skipWs_cons] at h
    by_cases hws : isJsonWs d = true
    · exact Or.inr ⟨d, t0, rfl, by simp [isStopChar, hws]⟩
    · rw [if_neg hws] at h
      simp only [List.cons.injEq] at h
      obtain ⟨rfl, -⟩ := h
      exact Or.inr ⟨d, t0, rfl, hy⟩

theorem stopHead_of_skipWs_nil (x : List Char) (h : skipWs x = []) : stopHead x := by
  cases x with
  | nil => exact Or.inl rfl
  | cons d t0 =>
    rw [skipWs_cons] at h
    by_cases hws : isJsonWs d = true
    · exact Or.inr ⟨d, t0, rfl, by simp [isStopChar, hws]⟩
    · rw [if_neg hws] at h
      cases h

/-- Preservation statement for `parseValue` under control-character
stripping: a successful parse whose remainder sits at a token boundary is
preserved, and the input begins with a kept, non-whitespace character. -/
def CVal (fuel : Nat) : Prop :=
  ∀ l v r, parseValue fuel l = some (v, r) → stopHead r →
    (∃ v2, parseValue fuel (stripCtl l) = some (v2, stripCtl r)) ∧
      ∃ c t, l = c :: t ∧ isStrippedCtl c = false ∧ isJsonWs c = false

/-- Preservation statement for `parseMembers` under control stripping. -/
def CMem (fuel : Nat) : Prop :=
  ∀ first l ms r, parseMembers fuel first l = some (ms, r) → stopHead r →
    (∃ ms2, parseMembers fuel first (stripCtl l) = some (ms2, stripCtl r)) ∧
      ∃ c t, l = c :: t ∧ isStrippedCtl c = false ∧ isJsonWs c = false

/-- Preservation statement for `parseItems` under control stripping. -/
def CItm (fuel : Nat) : Prop :=
  ∀ first l xs r, parseItems fuel first l = some (xs, r) → stopHead r →
    (∃ xs2, parseItems fuel first (stripCtl l) = some (xs2, stripCtl r)) ∧
      ∃ c t, l = c :: t ∧ isStrippedCtl c = false ∧ isJsonWs c = false

theorem cval_step (fuel : Nat) (ihM : CMem fuel) (ihI : CItm fuel) : CVal (fuel + 1) := by
  intro l v r hp hs
  cases l with
  | nil => rw [parseValue_succ_nil] at hp; cases hp
  | cons c rest =>
    by_cases h1 : c = '"'
    · subst h1
      rw [parseValue_quote, Option.map_eq_some'] at hp
      obtain ⟨p, hps, hpe⟩ := hp
      simp only [Prod.mk.injEq] at hpe
      obtain ⟨-, rfl⟩ := hpe
      obtain ⟨s2, hs2⟩ := parseStringBody_stripCtl rest.length rest p.1 p.2 le_rfl hps
      refine ⟨⟨.str s2, ?_⟩, '"', rest, rfl, by decide, by decide⟩
      rw [stripCtl_cons_keep _ _ (by decide), parseValue_quote, hs2]
      rfl
    · by_cases h2 : c = '\x7b'
      · subst h2
        rw [parseValue_obj, Option.map_eq_some'] at hp
        obtain ⟨p, hp2, hpe⟩ := hp
        simp only [Prod.mk.injEq] at hpe
        obtain ⟨-, rfl⟩ := hpe
        obtain ⟨⟨ms2, hm2⟩, y, t, hyt, hyc, -⟩ :=
          ihM true (skipWs rest) p.1 p.2 hp2 hs
        refine ⟨⟨.dict ms2, ?_⟩, '\x7b', rest, rfl, by decide, by decide⟩
        rw [stripCtl_cons_keep _ _ (by decide), parseValue_obj,
          skipWs_stripCtl_head rest y t hyt hyc]
        rw [hyt, stripCtl_cons_keep y t hyc] at hm2
        rw [hm2]
        rfl
      · by_cases h3 : c = '['
        · subst h3
          rw [parseValue_arr, Option.map_eq_some'] at hp
          obtain ⟨p, hp2, hpe⟩ := hp
          simp only [Prod.mk.injEq] at hpe
          obtain ⟨-, rfl⟩ := hpe
          obtain ⟨⟨xs2, hm2⟩, y, t, hyt, hyc, -⟩ :=
            ihI true (skipWs rest) p.1 p.2 hp2 hs
          refine ⟨⟨.list xs2, ?_⟩, '[', rest, rfl, by decide, by decide⟩
          rw [stripCtl_cons_keep _ _ (by decide), parseValue_arr,
            skipWs_stripCtl_head rest y t hyt hyc]
          rw [hyt, stripCtl_cons_keep y t hyc] at hm2
          rw [hm2]
          rfl
        · by_cases h4 : c = 't'
          · subst h4
            rw [parseValue_t] at hp
            split at hp
            · rename_i r0
              simp only [Option.some.injEq, Prod.mk.injEq] at hp
              obtain ⟨rfl, rfl⟩ := hp
              refine ⟨⟨.bool true, ?_⟩, 't', _, rfl, by decide, by decide⟩
              rw [stripCtl_cons_keep _ _ (by decide), stripCtl_cons_keep _ _ (by decide),
                stripCtl_cons_keep _ _ (by decide), stripCtl_cons_keep _ _ (by decide),
                parseValue_true_full]
            · cases hp
          · by_cases h5 : c = 'f'
            · subst h5
              rw [parseValue_f] at hp
              split at hp
              · rename_i r0
                simp only [Option.some.injEq, Prod.mk.injEq] at hp
                obtain ⟨rfl, rfl⟩ := hp
                refine ⟨⟨.bool false, ?_⟩, 'f', _, rfl, by decide, by decide⟩
                rw [stripCtl_cons_keep _ _ (by decide), stripCtl_cons_keep _ _ (by decide),
                  stripCtl_cons_keep _ _ (by decide), stripCtl_cons_keep _ _ (by decide),
                  stripCtl_cons_keep _ _ (by decide), parseValue_false_full]
              · cases hp
            · by_cases h6 : c = 'n'
              · subst h6
                rw [parseValue_n] at hp
                split at hp
                · rename_i r0
                  simp only [Option.some.injEq, Prod.mk.injEq] at hp
                  obtain ⟨rfl, rfl⟩ := hp
                  refine ⟨⟨.none, ?_⟩, 'n', _, rfl, by decide, by decide⟩
                  rw [stripCtl_cons_keep _ _ (by decide), stripCtl_cons_keep _ _ (by decide),
                    stripCtl_cons_keep _ _ (by decide), stripCtl_cons_keep _ _ (by decide),
                    parseValue_null_full]
                · cases hp
              · by_cases h7 : c = 'N'
                · subst h7
                  rw [parseValue_N] at hp
                  split at hp
                  · rename_i r0
                    simp only [Option.some.injEq, Prod.mk.injEq] at hp
                    obtain ⟨rfl, rfl⟩ := hp
                    refine ⟨⟨.float (chars "NaN"), ?_⟩, 'N', _, rfl, by decide, by decide⟩
                    rw [stripCtl_cons_keep _ _ (by decide), stripCtl_cons_keep _ _ (by decide),
                      stripCtl_cons_keep _ _ (by decide), parseValue_nan_full]
                  · cases hp
                · by_cases h8 : c = 'I'
                  · subst h8
                    rw [parseValue_I] at hp
                    split at hp
                    · rename_i r0
                      simp only [Option.some.injEq, Prod.mk.injEq] at hp
                      obtain ⟨rfl, rfl⟩ := hp
                      refine ⟨⟨.float (chars "Infinity"), ?_⟩, 'I', _, rfl,
                        by decide, by decide⟩
                      rw [stripCtl_cons_keep _ _ (by decide), stripCtl_cons_keep _ _ (by decide),
                        stripCtl_cons_keep _ _ (by decide), stripCtl_cons_keep _ _ (by decide),
                        stripCtl_cons_keep _ _ (by decide), stripCtl_cons_keep _ _ (by decide),
                        stripCtl_cons_keep _ _ (by decide), stripCtl_cons_keep _ _ (by decide),
                        parseValue_inf_full]
                    · cases hp
                  · by_cases h9 : c = '-'
                    · subst h9
                      cases rest with
                      | nil =>
                        rw [parseValue_other fuel '-' [] (by decide) (by decide) (by decide)
                          (by decide) (by decide) (by decide) (by decide) (by decide)
                          (by rfl)] at hp
                        rw [show parseNumber ['-'] = Option.none from rfl] at hp
                        cases hp
                      | cons d rest2 =>
                        by_cases hdI : d = 'I'
                        · subst hdI
                          rw [parseValue_succ_cons] at hp
                          rw [if_bool_false _ _ (by decide), if_bool_false _ _ (by decide),
                            if_bool_false _ _ (by decide), if_bool_false _ _ (by decide),
                            if_bool_false _ _ (by decide), if_bool_false _ _ (by decide),
                            if_bool_false _ _ (by decide), if_bool_false _ _ (by decide),
                            if_bool_true _ _ (by rfl)] at hp
                          split at hp
                          · rename_i r0 heq
                            simp only [List.cons.injEq] at heq
                            obtain ⟨-, rfl⟩ := heq
                            simp only [Option.some.injEq, Prod.mk.injEq] at hp
                            obtain ⟨rfl, rfl⟩ := hp
                            refine ⟨⟨.float (chars "-Infinity"), ?_⟩, '-', _, rfl,
                              by decide, by decide⟩
                            rw [stripCtl_cons_keep _ _ (by decide),
                              stripCtl_cons_keep _ _ (by decide),
                              stripCtl_cons_keep _ _ (by decide),
                              stripCtl_cons_keep _ _ (by decide),
                              stripCtl_cons_keep _ _ (by decide),
                              stripCtl_cons_keep _ _ (by decide),
                              stripCtl_cons_keep _ _ (by decide),
                              stripCtl_cons_keep _ _ (by decide),
                              stripCtl_cons_keep _ _ (by decide), parseValue_neginf_full]
                          · cases hp
                        · rw [parseValue_other fuel '-' (d :: rest2) (by decide) (by decide)
                            (by decide) (by decide) (by decide) (by decide) (by decide)
                            (by decide)
                            (by
                              simp only [beq_self_eq_true, Bool.true_and]
                              split
                              · rename_i heq
                                simp only [List.cons.injEq] at heq
                                exact absurd heq.1 hdI
                              · rfl)] at hp
                          have hsub := parseNumber_stripCtl ('-' :: d :: rest2) v r hp hs
                          replace hp : parseNumBody true (d :: rest2) = some (v, r) := hp
                          obtain ⟨d2, t2, hdt, hd⟩ := parseNumBody_head true (d :: rest2) v r hp
                          cases hdt
                          have hdc : isStrippedCtl d = false := digitOrZero_not_ctl d hd
                          refine ⟨⟨v, ?_⟩, '-', d :: rest2, rfl, by decide, by decide⟩
                          rw [stripCtl_cons_keep _ _ (by decide),
                            stripCtl_cons_keep d rest2 hdc]
                          rw [parseValue_other fuel '-' (d :: stripCtl rest2) (by decide)
                            (by decide) (by decide) (by decide) (by decide) (by decide)
                            (by decide) (by decide)
                            (by
                              simp only [beq_self_eq_true, Bool.true_and]
                              split
                              · rename_i heq
                                simp only [List.cons.injEq] at heq
                                exact absurd heq.1 hdI
                              · rfl)]
                          rw [stripCtl_cons_keep _ _ (by decide),
                            stripCtl_cons_keep d rest2 hdc] at hsub
                          exact hsub
                    · have b1 := beq_false_of_ne h1
                      have b2 := beq_false_of_ne h2
                      have b3 := beq_false_of_ne h3
                      have b4 := beq_false_of_ne h4
                      have b5 := beq_false_of_ne h5
                      have b6 := beq_false_of_ne h6
                      have b7 := beq_false_of_ne h7
                      have b8 := beq_false_of_ne h8
                      have b9 := beq_false_of_ne h9
                      rw [parseValue_other fuel c rest b1 b2 b3 b4 b5 b6 b7 b8
                        (by rw [b9]; exact Bool.false_and _)] at hp
                      have hsub := parseNumber_stripCtl (c :: rest) v r hp hs
                      have hpe : parseNumber (c :: rest) = parseNumBody false (c :: rest) := by
                        unfold parseNumber
                        split
                        · rename_i heq
                          simp only [List.cons.injEq] at heq
                          exact absurd heq.1 h9
                        · rfl
                      rw [hpe] at hp
                      obtain ⟨d2, t2, hdt, hd⟩ := parseNumBody_head false (c :: rest) v r hp
                      cases hdt
                      obtain ⟨-, hcws, -⟩ := digit_head_facts c hd
                      have hcc : isStrippedCtl c = false := digitOrZero_not_ctl c hd
                      refine ⟨⟨v, ?_⟩, c, rest, rfl, hcc, hcws⟩
                      rw [stripCtl_cons_keep c rest hcc]
                      rw [parseValue_other fuel c (stripCtl rest) b1 b2 b3 b4 b5 b6 b7 b8
                        (by rw [b9]; exact Bool.false_and _)]
                      rw [stripCtl_cons_keep c rest hcc] at hsub
                      exact hsub


theorem cmem_step (fuel : Nat) (ihV : CVal fuel) (ihM : CMem fuel) : CMem (fuel + 1) := by
  intro first l ms r hp hs
  cases l with
  | nil => rw [parseMembers_nil] at hp; cases hp
  | cons c rest =>
    by_cases hcb : c = '\x7d'
    · subst hcb
      rw [parseMembers_brace] at hp
      cases first with
      | false => rw [if_neg (by simp)] at hp; cases hp
      | true =>
        rw [if_pos rfl] at hp
        simp only [Option.some.injEq, Prod.mk.injEq] at hp
        obtain ⟨-, rfl⟩ := hp
        refine ⟨⟨[], ?_⟩, '\x7d', rest, rfl, by decide, by decide⟩
        rw [stripCtl_cons_keep _ _ (by decide), parseMembers_brace, if_pos rfl]
    · by_cases hcq : c = '"'
      · subst hcq
        rw [parseMembers_quote] at hp
        rw [Option.bind_eq_some] at hp
        obtain ⟨kp, hk, hp⟩ := hp
        rw [Option.bind_eq_some] at hp
        obtain ⟨r2, hcol, hp⟩ := hp
        rw [Option.bind_eq_some] at hp
        obtain ⟨vp, hv, hp⟩ := hp
        rw [Option.bind_eq_some] at hp
        obtain ⟨sep, hsep, hp⟩ := hp
        obtain ⟨k2, hk2⟩ := parseStringBody_stripCtl rest.length rest kp.1 kp.2 le_rfl hk
        cases hswk : skipWs kp.2 with
        | nil => rw [hswk, memColon_nil] at hcol; cases hcol
        | cons y1 t1 =>
          rw [hswk] at hcol
          by_cases hy1 : y1 = ':'
          · subst hy1
            rw [memColon_colon] at hcol
            cases hcol
            cases hswv : skipWs vp.2 with
            | nil => rw [hswv] at hsep; cases hsep
            | cons y2 t2 =>
              rw [hswv] at hsep
              by_cases hy2 : y2 = ','
              · subst hy2
                rw [memSep_comma] at hsep
                cases hsep
                rw [if_pos rfl] at hp
                rw [Option.map_eq_some'] at hp
                obtain ⟨p2, hp2, hpe⟩ := hp
                simp only [Prod.mk.injEq] at hpe
                obtain ⟨-, rfl⟩ := hpe
                obtain ⟨⟨v2, hv2⟩, c0, t0, hct0, hc0c, -⟩ :=
                  ihV (skipWs r2) vp.1 vp.2 hv
                    (stopHead_of_skipWs vp.2 ',' t2 hswv (by decide))
                rw [hct0, stripCtl_cons_keep c0 t0 hc0c] at hv2
                obtain ⟨⟨ms2, hm2⟩, y3, t3, hyt3, hy3c, -⟩ :=
                  ihM false (skipWs t2) p2.1 p2.2 hp2 hs
                refine ⟨⟨(k2, v2) :: ms2, ?_⟩, '"', rest, rfl, by decide, by decide⟩
                rw [stripCtl_cons_keep _ _ (by decide), parseMembers_quote, hk2,
                  Option.some_bind,
                  skipWs_stripCtl_head kp.2 ':' r2 hswk (by decide), memColon_colon,
                  Option.some_bind,
                  skipWs_stripCtl_head r2 c0 t0 hct0 hc0c, hv2, Option.some_bind,
                  skipWs_stripCtl_head vp.2 ',' t2 hswv (by decide), memSep_comma,
                  Option.some_bind, if_pos rfl]
                rw [hyt3, stripCtl_cons_keep y3 t3 hy3c] at hm2
                rw [skipWs_stripCtl_head t2 y3 t3 hyt3 hy3c, hm2]
                rfl
              · by_cases hy2b : y2 = '\x7d'
                · subst hy2b
                  rw [memSep_brace] at hsep
                  cases hsep
                  rw [if_neg (by simp)] at hp
                  simp only [Option.some.injEq, Prod.mk.injEq] at hp
                  obtain ⟨-, rfl⟩ := hp
                  obtain ⟨⟨v2, hv2⟩, c0, t0, hct0, hc0c, -⟩ :=
                    ihV (skipWs r2) vp.1 vp.2 hv
                      (stopHead_of_skipWs vp.2 '\x7d' t2 hswv (by decide))
                  rw [hct0, stripCtl_cons_keep c0 t0 hc0c] at hv2
                  refine ⟨⟨[(k2, v2)], ?_⟩, '"', rest, rfl, by decide, by decide⟩
                  rw [stripCtl_cons_keep _ _ (by decide), parseMembers_quote, hk2,
                    Option.some_bind,
                    skipWs_stripCtl_head kp.2 ':' r2 hswk (by decide), memColon_colon,
                    Option.some_bind,
                    skipWs_stripCtl_head r2 c0 t0 hct0 hc0c, hv2, Option.some_bind,
                    skipWs_stripCtl_head vp.2 '\x7d' t2 hswv (by decide), memSep_brace,
                    Option.some_bind, if_neg (by simp)]
                · rw [memSep_ne y2 t2 hy2 hy2b] at hsep
                  cases hsep
          · rw [memColon_ne y1 t1 hy1] at hcol
            cases hcol
      · rw [parseMembers_other fuel first c rest hcb hcq] at hp
        cases hp

theorem citm_step (fuel : Nat) (ihV : CVal fuel) (ihI : CItm fuel) : CItm (fuel + 1) := by
  intro first l xs r hp hs
  cases l with
  | nil => rw [parseItems_nil] at hp; cases hp
  | cons c rest =>
    by_cases hcb : c = ']'
    · subst hcb
      rw [parseItems_bracket] at hp
      cases first with
      | false => rw [if_neg (by simp)] at hp; cases hp
      | true =>
        rw [if_pos rfl] at hp
        simp only [Option.some.injEq, Prod.mk.injEq] at hp
        obtain ⟨-, rfl⟩ := hp
        refine ⟨⟨[], ?_⟩, ']', rest, rfl, by decide, by decide⟩
        rw [stripCtl_cons_keep _ _ (by decide), parseItems_bracket, if_pos rfl]
    · rw [parseItems_cons_ne fuel first c rest hcb] at hp
      rw [Option.bind_eq_some] at hp
      obtain ⟨vp, hv, hp⟩ := hp
      rw [Option.bind_eq_some] at hp
      obtain ⟨sep, hsep, hp⟩ := hp
      cases hsw : skipWs vp.2 with
      | nil => rw [hsw] at hsep; cases hsep
      | cons y t1 =>
        rw [hsw] at hsep
        by_cases hy1 : y = ','
        · subst hy1
          rw [itemSep_comma] at hsep
          cases hsep
          rw [if_pos rfl] at hp
          rw [Option.map_eq_some'] at hp
          obtain ⟨p2, hp2, hpe⟩ := hp
          simp only [Prod.mk.injEq] at hpe
          obtain ⟨-, rfl⟩ := hpe
          obtain ⟨⟨v2, hv2⟩, c0, t0, hct0, hc0c, hc0ws⟩ :=
            ihV (c :: rest) vp.1 vp.2 hv
              (stopHead_of_skipWs vp.2 ',' t1 hsw (by decide))
          cases hct0
          rw [stripCtl_cons_keep c rest hc0c] at hv2
          obtain ⟨⟨xs2, hi2⟩, y2, t2, hyt2, hy2c, -⟩ :=
            ihI false (skipWs t1) p2.1 p2.2 hp2 hs
          refine ⟨⟨v2 :: xs2, ?_⟩, c, rest, rfl, hc0c, hc0ws⟩
          rw [stripCtl_cons_keep c rest hc0c, parseItems_cons_ne fuel first c _ hcb,
            hv2, Option.some_bind,
            skipWs_stripCtl_head vp.2 ',' t1 hsw (by decide), itemSep_comma,
            Option.some_bind, if_pos rfl]
          rw [hyt2, stripCtl_cons_keep y2 t2 hy2c] at hi2
          rw [skipWs_stripCtl_head t1 y2 t2 hyt2 hy2c, hi2]
          rfl
        · by_cases hy2 : y = ']'
          · subst hy2
            rw [itemSep_bracket] at hsep
            cases hsep
            rw [if_neg (by simp)] at hp
            simp only [Option.some.injEq, Prod.mk.injEq] at hp
            obtain ⟨-, rfl⟩ := hp
            obtain ⟨⟨v2, hv2⟩, c0, t0, hct0, hc0c, hc0ws⟩ :=
              ihV (c :: rest) vp.1 vp.2 hv
                (stopHead_of_skipWs vp.2 ']' t1 hsw (by decide))
            cases hct0
            rw [stripCtl_cons_keep c rest hc0c] at hv2
            refine ⟨⟨[v2], ?_⟩, c, rest, rfl, hc0c, hc0ws⟩
            rw [stripCtl_cons_keep c rest hc0c, parseItems_cons_ne fuel first c _ hcb,
              hv2, Option.some_bind,
              skipWs_stripCtl_head vp.2 ']' t1 hsw (by decide), itemSep_bracket,
              Option.some_bind, if_neg (by simp)]
          · rw [itemSep_ne y t1 hy1 hy2] at hsep
            cases hsep

theorem c_all : ∀ fuel, CVal fuel ∧ CMem fuel ∧ CItm fuel := by
  intro fuel
  induction fuel with
  | zero =>
    refine ⟨?_, ?_, ?_⟩
    · intro l v r hp hs; rw [parseValue_zero] at hp; cases hp
    · intro first l ms r hp hs; rw [parseMembers_zero] at hp; cases hp
    · intro first l xs r hp hs; rw [parseItems_zero] at hp; cases hp
  | succ n ih =>
    exact ⟨cval_step n ih.2.1 ih.2.2, cmem_step n ih.1 ih.2.1, citm_step n ih.1 ih.2.2⟩

theorem json_loads_stripCtl (l : List Char) (v : PyVal)
    (hp : json_loads l = some v) :
    ∃ v2, json_loads (stripCtl l) = some v2 := by
  rw [json_loads_bind] at hp
  rw [Option.bind_eq_some] at hp
  obtain ⟨p, hpv, hp⟩ := hp
  by_cases hemp : (skipWs p.2).isEmpty = true
  · have hre : skipWs p.2 = [] := by
      cases hsw : skipWs p.2 with
      | nil => rfl
      | cons a b => rw [hsw] at hemp; cases hemp
    obtain ⟨⟨v2, hv2⟩, c, t, hct, hcc, -⟩ :=
      (c_all (l.length + 1)).1 (skipWs l) p.1 p.2 hpv (stopHead_of_skipWs_nil p.2 hre)
    have hs1 : skipWs (stripCtl l) = c :: stripCtl t := skipWs_stripCtl_head l c t hct hcc
    have hs2 : stripCtl (skipWs l) = c :: stripCtl t := by
      rw [hct, stripCtl_cons_keep c t hcc]
    have hlen : (stripCtl (skipWs l)).length ≤ (stripCtl l).length := by
      calc (stripCtl (skipWs l)).length = (skipWs (stripCtl l)).length := by rw [hs2, hs1]
        _ ≤ (stripCtl l).length := skipWs_length_le _
    have hadq := (a_all (stripCtl (skipWs l))).1 (l.length + 1) v2 (stripCtl p.2) hv2
      ((stripCtl l).length + 1) (by omega)
    refine ⟨v2, ?_⟩
    rw [json_loads_bind,
      show skipWs (stripCtl l) = stripCtl (skipWs l) from by rw [hs1, hs2],
      hadq, Option.some_bind]
    rw [skipWs_stripCtl_nil p.2 hre]
    rfl
  · rw [if_neg hemp] at hp
    cases hp

theorem json_loads_sanitize (l : List Char) (v : PyVal)
    (hp : json_loads l = some v) (hc : ntClean (stripCtl l) = true) :
    ∃ v2, json_loads (sanitizeBlock l) = some v2 := by
  obtain ⟨v1, h1⟩ := json_loads_stripCtl l v hp
  obtain ⟨v2, h2⟩ := json_loads_subNT (stripCtl l) v1 h1 hc
  exact ⟨v2, h2⟩

/-- C4 counterexample: the brace-delimited block with source text
`\x7b"a":"x\\n"\x7d` is valid JSON (its string value decodes to an `x`, a
backslash and an `n`) and textually contains a backslash-`n` two-character
sequence, but the sanitization step of src/app.py:88-89 replaces that pair
— whose backslash is itself escaped — with a space, leaving a bare
backslash before the closing quote, so the sanitized block no longer
parses as JSON. -/
theorem sanitize_breaks_escaped_backslash :
    (json_loads (chars "\x7b\"a\":\"x\\\\n\"\x7d")).isSome = true ∧
      hasNTpair (chars "\x7b\"a\":\"x\\\\n\"\x7d") = true ∧
      (json_loads (sanitizeBlock (chars "\x7b\"a\":\"x\\\\n\"\x7d"))).isSome = false :=
  ⟨by rfl, by rfl, by rfl⟩

/-- C4 (amended): for every block that parses as JSON and in which, after
the control-character stripping of src/app.py:88, every maximal run of
backslashes immediately followed by an `n` or a `t` has odd length
(`ntClean`), the sanitization of src/app.py:88-89 yields a block that
still parses as JSON and contains no remaining backslash-`n` or
backslash-`t` pair: every such pair was replaced by a single space. -/
theorem sanitize_preserves_valid_json (l : List Char) (v : PyVal)
    (hp : json_loads l = some v) (hc : ntClean (stripCtl l) = true) :
    (∃ v2, json_loads (sanitizeBlock l) = some v2) ∧
      hasNTpair (sanitizeBlock l) = false :=
  ⟨json_loads_sanitize l v hp hc, subNT_no_pair (stripCtl l)⟩

theorem sanitize_preserves_valid_json_witness :
    json_loads (chars "\x7b\"a\":\"x\\ny\"\x7d") =
        some (.dict [(chars "a", .str (chars "x\ny"))]) ∧
      ntClean (stripCtl (chars "\x7b\"a\":\"x\\ny\"\x7d")) = true ∧
      ((∃ v2, json_loads (sanitizeBlock (chars "\x7b\"a\":\"x\\ny\"\x7d")) = some v2) ∧
        hasNTpair (sanitizeBlock (chars "\x7b\"a\":\"x\\ny\"\x7d")) = false) :=
  ⟨by rfl, by rfl, sanitize_preserves_valid_json _ _ (by rfl) (by rfl)⟩
